import Mathlib

/-!
Verification of the IFTSTA AHB PDF comparison core.

The definitions below are a shallow embedding of the JavaScript source:
  * the text normalization `normalizeForComparison` and the row/section
    differencer (`compareRows`, `compareDocuments`) from the comparator
    module (the variant that normalizes before every equality test);
  * the structuring pass (`buildSections` and its row classifiers) from the
    parser module.
Strings are modelled as Lean `String`s / `List Char`; the JavaScript regex
replacements are modelled by explicit deterministic scanners that mirror the
left-to-right, leftmost-match, continue-after-match semantics of
`String.prototype.replace` with a global regex.  The scanners use an explicit
fuel argument (initialised with the length of the input) so that every
definition is structurally recursive and kernel-computable; fuel equal to the
length of the input is always sufficient because every step consumes at least
one character.
-/

namespace PdfCompare

/-! ## Character classes of the JavaScript regexes -/

/-- JS `\w`, i.e. `[A-Za-z0-9_]` (by code point: A–Z, a–z, 0–9, underscore). -/
def isWordChar (c : Char) : Bool :=
  let n := c.toNat
  (0x41 ≤ n && n ≤ 0x5A) || (0x61 ≤ n && n ≤ 0x7A) ||
  (0x30 ≤ n && n ≤ 0x39) || (n == 0x5F)

/-- JS `\s` (also the set stripped by `String.prototype.trim`):
space, `\t`, `\n`, `\v`, `\f`, `\r`, NBSP, Ogham space, U+2000–U+200A,
line/paragraph separator, narrow NBSP, MMSP, ideographic space, BOM. -/
def isJsSpace (c : Char) : Bool :=
  let n := c.toNat
  (n == 0x20) || (0x09 ≤ n && n ≤ 0x0D) || (n == 0xA0) || (n == 0x1680) ||
  (0x2000 ≤ n && n ≤ 0x200A) || (n == 0x2028) || (n == 0x2029) ||
  (n == 0x202F) || (n == 0x205F) || (n == 0x3000) || (n == 0xFEFF)

/-- Characters removed by the first replacement of `normalizeForComparison`:
zero-width characters, soft hyphen, BOM, word joiner, directional marks. -/
def isZeroWidthChar (c : Char) : Bool :=
  let n := c.toNat
  (n == 0x200B) || (n == 0x200C) || (n == 0x200D) || (n == 0xFEFF) ||
  (n == 0x2060) || (n == 0x200E) || (n == 0x200F) || (n == 0xAD)

/-- C0/C1 control characters stripped by the second replacement
(`[\x00-\x08\x0B\x0C\x0E-\x1F\x7F-\x9F]`): everything except `\t`, `\n`, `\r`. -/
def isStrippedCtrl (c : Char) : Bool :=
  let n := c.toNat
  (n ≤ 0x08) || (n == 0x0B) || (n == 0x0C) ||
  (0x0E ≤ n && n ≤ 0x1F) || (0x7F ≤ n && n ≤ 0x9F)

/-- Unicode space variants normalized to a plain space
(`[  -   　]`). -/
def isSpaceVariant (c : Char) : Bool :=
  let n := c.toNat
  (n == 0xA0) || (0x2000 ≤ n && n ≤ 0x200A) ||
  (n == 0x202F) || (n == 0x205F) || (n == 0x3000)

/-- Dash/hyphen variants normalized to `-`
(`[‐-―−﹘﹣－]`). -/
def isDashVariant (c : Char) : Bool :=
  let n := c.toNat
  (0x2010 ≤ n && n ≤ 0x2015) || (n == 0x2212) ||
  (n == 0xFE58) || (n == 0xFE63) || (n == 0xFF0D)

/-- JS `\d`, i.e. `[0-9]`. -/
def isDigitChar (c : Char) : Bool := ('0' ≤ c) && (c ≤ '9')

def spaceVariantToSpace (c : Char) : Char := if isSpaceVariant c then ' ' else c

def dashVariantToDash (c : Char) : Char := if isDashVariant c then '-' else c

/-! ## The regex-replacement scanners of `normalizeForComparison`

Each global `String.replace` is modelled by a scanner that walks the string
left to right; at each position it attempts the (deterministic, because the
involved character classes are disjoint) regex match, emits the replacement
and resumes after the match on success, and otherwise emits the current
character and moves one position to the right. -/

/-- Lookahead for `(\w)\s*-\s*(\w)` after the leading word character has been
consumed: parse `\s* '-' \s*` followed by a word character, returning the
final word character and the remainder. -/
def tryHyphen (l : List Char) : Option (Char × List Char) :=
  match l.dropWhile isJsSpace with
  | '-' :: l2 =>
    match l2.dropWhile isJsSpace with
    | w :: t => if isWordChar w then some (w, t) else none
    | [] => none
  | _ => none

/-- Scanner for `s.replace(/(\w)\s*-\s*(\w)/g, '$1-$2')` (fuelled). -/
def step5F : Nat → List Char → List Char
  | 0, l => l
  | _ + 1, [] => []
  | f + 1, c :: rest =>
    if isWordChar c then
      match tryHyphen rest with
      | some (w, t) => c :: '-' :: w :: step5F f t
      | none => c :: step5F f rest
    else
      c :: step5F f rest

def step5 (l : List Char) : List Char := step5F l.length l

/-- Match of `\s*-\s*\/\s*` at the current position, returning the remainder
after the (greedily consumed) trailing spaces. -/
def try6a (l : List Char) : Option (List Char) :=
  match l.dropWhile isJsSpace with
  | '-' :: l2 =>
    match l2.dropWhile isJsSpace with
    | '/' :: l3 => some (l3.dropWhile isJsSpace)
    | _ => none
  | _ => none

/-- Scanner for the replacement of `\s*-\s*\／\s*` by a dash-slash pair
(third-from-last replacement of the source; `／` stands for the ASCII slash,
fuelled). -/
def step6aF : Nat → List Char → List Char
  | 0, l => l
  | _ + 1, [] => []
  | f + 1, c :: rest =>
    match try6a (c :: rest) with
    | some t => '-' :: '/' :: step6aF f t
    | none => c :: step6aF f rest

def step6a (l : List Char) : List Char := step6aF l.length l

/-- Match of `\s*\/\s*-\s*` at the current position. -/
def try6b (l : List Char) : Option (List Char) :=
  match l.dropWhile isJsSpace with
  | '/' :: l2 =>
    match l2.dropWhile isJsSpace with
    | '-' :: l3 => some (l3.dropWhile isJsSpace)
    | _ => none
  | _ => none

/-- Scanner for the replacement of `\s*\／\s*-\s*` by a slash-dash pair
(`／` stands for the ASCII slash, fuelled). -/
def step6bF : Nat → List Char → List Char
  | 0, l => l
  | _ + 1, [] => []
  | f + 1, c :: rest =>
    match try6b (c :: rest) with
    | some t => '/' :: '-' :: step6bF f t
    | none => c :: step6bF f rest

def step6b (l : List Char) : List Char := step6bF l.length l

/-- Match of `\s*\/\s*` at the current position. -/
def try6c (l : List Char) : Option (List Char) :=
  match l.dropWhile isJsSpace with
  | '/' :: l2 => some (l2.dropWhile isJsSpace)
  | _ => none

/-- Scanner for the replacement of `\s*\／\s*` by a single slash
(`／` stands for the ASCII slash, fuelled). -/
def step6cF : Nat → List Char → List Char
  | 0, l => l
  | _ + 1, [] => []
  | f + 1, c :: rest =>
    match try6c (c :: rest) with
    | some t => '/' :: step6cF f t
    | none => c :: step6cF f rest

def step6c (l : List Char) : List Char := step6cF l.length l

/-- Scanner for `s.replace(/ {2,}/g, ' ')`: a run of two or more ASCII spaces
becomes a single space (fuelled). -/
def collapseF : Nat → List Char → List Char
  | 0, l => l
  | _ + 1, [] => []
  | f + 1, c :: rest =>
    if c == ' ' && rest.head? == some ' ' then
      ' ' :: collapseF f ((rest.drop 1).dropWhile (· == ' '))
    else
      c :: collapseF f rest

def collapseSpaces (l : List Char) : List Char := collapseF l.length l

/-- `String.prototype.trim`: drop JS whitespace from both ends. -/
def trimChars (l : List Char) : List Char :=
  ((l.dropWhile isJsSpace).reverse.dropWhile isJsSpace).reverse

/-- The full normalization pipeline of `normalizeForComparison`, on character
lists, in source order: strip zero-width characters, strip control characters,
map Unicode space variants to a space, map dash variants to `-`, remove spaces
around hyphens between word characters, normalize hyphen-slash compounds,
collapse space runs, trim. -/
def normChars (l : List Char) : List Char :=
  trimChars (collapseSpaces (step6c (step6b (step6a (step5
    (((l.filter (fun c => !isZeroWidthChar c)).filter
        (fun c => !isStrippedCtrl c)).map spaceVariantToSpace |>.map
        dashVariantToDash))))))

/-- `normalizeForComparison(text)` from the comparator source. -/
def normalizeForComparison (s : String) : String :=
  String.mk (normChars s.data)

/-- `String.prototype.trim` on Lean strings. -/
def jsTrim (s : String) : String := String.mk (trimChars s.data)

example : normalizeForComparison "a - b" = "a-b" := by rfl
example : normalizeForComparison "a - b - c" = "a-b - c" := by rfl
example : normalizeForComparison "EBD  -  Cluster" = "EBD-Cluster" := by rfl
example : normalizeForComparison " x  /  y " = "x/y" := by rfl
example : normalizeForComparison "a - / b" = "a-/b" := by rfl
example : jsTrim "  ab\t" = "ab" := by rfl

/-! ## Data model of the differencer

The comparator reads sections and rows back from the sql.js store, where
`insertDocument` writes them in order (`section_order`, `row_order` equal to
the list index) and `getSections` / `getRows` read them back ordered by those
columns; a section's `pruefidentifikator` is stored as the comma-joined
string.  The round-trip is therefore modelled by handing `compareDocuments`
the ordered section lists directly, each section carrying its ordered rows,
with `rowOrder` the stored `row_order` index. -/

/-- A row record as returned by `getRows`. -/
structure Row where
  rowOrder : Nat
  segmentGroup : String
  segmentCode : String
  dataElement : String
  beschreibung : String
  statusCol1 : String
  statusCol2 : String
  bedingung : String
  isLabel : Bool
deriving DecidableEq, Repr

/-- A section record as returned by `getSections`, together with its rows. -/
structure DbSection where
  pruefidentifikator : String
  title : String
  kommunikationVon : String
  statusCol1Header : String
  statusCol2Header : String
  rows : List Row
deriving DecidableEq, Repr

inductive DiffType where
  | added | removed | modified | unchanged
deriving DecidableEq, Repr

/-- A single `{field, old, new}` change entry. -/
structure FieldChange where
  field : String
  old : String
  new : String
deriving DecidableEq, Repr

/-- A row-level diff entry.  Row diffs produced by `compareRows` carry the
compound key; the `added`/`removed` row entries synthesised for a whole
added/removed section carry none, hence the `Option`. -/
inductive RowDiff where
  | modified (key : String) (rowOld rowNew : Row) (changes : List FieldChange)
  | unchanged (key : String) (row : Row)
  | removed (key : Option String) (row : Row)
  | added (key : Option String) (row : Row)
deriving DecidableEq, Repr

def RowDiff.type : RowDiff → DiffType
  | .modified .. => .modified
  | .unchanged .. => .unchanged
  | .removed .. => .removed
  | .added .. => .added

def RowDiff.keyOf : RowDiff → Option String
  | .modified k .. => some k
  | .unchanged k _ => some k
  | .removed k _ => k
  | .added k _ => k

def RowDiff.changes : RowDiff → List FieldChange
  | .modified _ _ _ cs => cs
  | _ => []

/-- A section-level diff entry.  The source pushes one object per key with
`type` either `added`, `removed`, or (for sections present on both sides)
`modified`/`unchanged` according to the `hasChanges || metaChanged` flag,
which is the `changed` field of the `matched` constructor here. -/
inductive SectionDiff where
  | added (pruefidentifikator : String) (sec : DbSection) (rows : List RowDiff)
  | removed (pruefidentifikator : String) (sec : DbSection) (rows : List RowDiff)
  | matched (changed : Bool) (pruefidentifikator : String)
      (sectionOld sectionNew : DbSection) (metaChanges : List FieldChange)
      (rows : List RowDiff)
deriving DecidableEq, Repr

def SectionDiff.type : SectionDiff → DiffType
  | .added .. => .added
  | .removed .. => .removed
  | .matched changed .. => if changed then .modified else .unchanged

def SectionDiff.pruefidentifikator : SectionDiff → String
  | .added k .. => k
  | .removed k .. => k
  | .matched _ k .. => k

def SectionDiff.rows : SectionDiff → List RowDiff
  | .added _ _ rs => rs
  | .removed _ _ rs => rs
  | .matched _ _ _ _ _ rs => rs

structure Summary where
  added : Nat
  removed : Nat
  modified : Nat
  unchanged : Nat
deriving DecidableEq, Repr

structure ComparisonResult where
  summary : Summary
  sectionDiffs : List SectionDiff
deriving DecidableEq, Repr

/-! ## Row keys and field diffs -/

/-- First-occurrence deduplication: the key list of a JS `Map`/`Set` built by
inserting the given elements in order. -/
def firstDedup {α : Type} [DecidableEq α] : List α → List α
  | [] => []
  | a :: l => a :: (firstDedup l).filter (fun b => b ≠ a)

/-- JS `s.split(/\s+/)[0] || ''`: the longest prefix of non-whitespace
characters (empty when the string is empty or starts with whitespace). -/
def firstToken (s : String) : String :=
  String.mk (s.data.takeWhile (fun c => !isJsSpace c))

/-- JS regex `^[A-Z0-9_]{1,10}$`. -/
def isCodeToken (s : String) : Bool :=
  decide (1 ≤ s.data.length) && decide (s.data.length ≤ 10) &&
  s.data.all (fun c =>
    (('A' ≤ c) && (c ≤ 'Z')) || (('0' ≤ c) && (c ≤ '9')) || (c == '_'))

/-- `rowKey(row)` from the comparator source. -/
def rowKey (row : Row) : String :=
  if row.isLabel then
    "LABEL:" ++ normalizeForComparison row.beschreibung
  else
    let sg := normalizeForComparison row.segmentGroup
    let sc := normalizeForComparison row.segmentCode
    let de := normalizeForComparison row.dataElement
    let parts := [sg, sc, de].filter (fun p => p ≠ "")
    if parts = [] then
      "POS:" ++ toString row.rowOrder
    else
      let beschr := normalizeForComparison row.beschreibung
      let firstWord := firstToken beschr
      let parts :=
        if isCodeToken firstWord && de ≠ "" then parts ++ [firstWord] else parts
      String.intercalate "|" parts

/-- One optional change entry for a free-text field of `diffRowFields`:
the values are trimmed, compared after normalization, and reported trimmed. -/
def textChange (field : String) (a b : String) : List FieldChange :=
  let v1 := jsTrim a
  let v2 := jsTrim b
  if normalizeForComparison v1 ≠ normalizeForComparison v2 then
    [⟨field, v1, v2⟩]
  else []

/-- One optional change entry for a structural field of `diffRowFields`:
compared after normalization only, reported raw. -/
def structChange (field : String) (a b : String) : List FieldChange :=
  if normalizeForComparison a ≠ normalizeForComparison b then
    [⟨field, a, b⟩]
  else []

/-- `diffRowFields(r1, r2)` from the comparator source. -/
def diffRowFields (r1 r2 : Row) : List FieldChange :=
  textChange "beschreibung" r1.beschreibung r2.beschreibung ++
  textChange "statusCol1" r1.statusCol1 r2.statusCol1 ++
  textChange "statusCol2" r1.statusCol2 r2.statusCol2 ++
  textChange "bedingung" r1.bedingung r2.bedingung ++
  structChange "segmentGroup" r1.segmentGroup r2.segmentGroup ++
  structChange "segmentCode" r1.segmentCode r2.segmentCode

/-! ## Row matching (`compareRows`) -/

/-- The diff entry for a positionally paired old/new row (`r1 && r2` branch
of the inner loop of `compareRows`). -/
def pairDiff (key : String) (r1 r2 : Row) : RowDiff :=
  if diffRowFields r1 r2 ≠ [] then
    .modified key r1 r2 (diffRowFields r1 r2)
  else .unchanged key r1

/-- The inner loop of `compareRows` over one key: the two same-key row lists
are paired index by index up to the longer length; unpaired rows on the
longer side become individual `removed` (old side) / `added` (new side)
entries.  (When the old side is exhausted, each remaining new row yields an
`added` entry, which is the map in the first case.) -/
def compareLists (key : String) : List Row → List Row → List RowDiff
  | [], l2 => l2.map (.added (some key))
  | r1 :: t1, [] => .removed (some key) r1 :: compareLists key t1 []
  | r1 :: t1, r2 :: t2 => pairDiff key r1 r2 :: compareLists key t1 t2

/-- `buildRowMap(rows).get(k)`: the rows whose key is `k`, in order
(`buildRowMap` groups by pushing each row onto the list of its key). -/
theorem compareLists_cons_cons (k : String) (r1 r2 : Row) (t1 t2 : List Row) :
    compareLists k (r1 :: t1) (r2 :: t2) =
      pairDiff k r1 r2 :: compareLists k t1 t2 := rfl

theorem compareLists_cons_nil (k : String) (r1 : Row) (t1 : List Row) :
    compareLists k (r1 :: t1) [] =
      RowDiff.removed (some k) r1 :: compareLists k t1 [] := rfl

def rowGroup (rows : List Row) (k : String) : List Row :=
  rows.filter (fun r => rowKey r == k)

/-- The insertion-ordered key set `new Set([...map1.keys(), ...map2.keys()])`
of `compareRows`. -/
def rowAllKeys (rows1 rows2 : List Row) : List String :=
  firstDedup (firstDedup (rows1.map rowKey) ++ firstDedup (rows2.map rowKey))

/-- `compareRows(rows1, rows2)` from the comparator source.  (The local
`matched2` set of the source is written but never read, and has no
counterpart here.) -/
def compareRows (rows1 rows2 : List Row) : List RowDiff :=
  (rowAllKeys rows1 rows2).flatMap
    (fun k => compareLists k (rowGroup rows1 k) (rowGroup rows2 k))

/-! ## Section matching (`compareDocuments`) -/

/-- `checkMetaChanges(s1, s2)` from the comparator source. -/
def checkMetaChanges (s1 s2 : DbSection) : Bool :=
  decide (normalizeForComparison s1.title ≠ normalizeForComparison s2.title) ||
  decide (normalizeForComparison s1.kommunikationVon ≠
    normalizeForComparison s2.kommunikationVon) ||
  decide (normalizeForComparison s1.statusCol1Header ≠
    normalizeForComparison s2.statusCol1Header) ||
  decide (normalizeForComparison s1.statusCol2Header ≠
    normalizeForComparison s2.statusCol2Header)

/-- `getMetaChanges(s1, s2)` from the comparator source. -/
def getMetaChanges (s1 s2 : DbSection) : List FieldChange :=
  structChange "title" s1.title s2.title ++
  structChange "kommunikationVon" s1.kommunikationVon s2.kommunikationVon ++
  structChange "statusCol1Header" s1.statusCol1Header s2.statusCol1Header ++
  structChange "statusCol2Header" s1.statusCol2Header s2.statusCol2Header

/-- `buildPruefMap(sections).get(k)`: the first section with the given full
comma-joined key (later sections with the same key are ignored). -/
def findSection (sections : List DbSection) (k : String) : Option DbSection :=
  sections.find? (fun s => s.pruefidentifikator == k)

/-- The insertion-ordered key list of `buildPruefMap(sections)`. -/
def sectionKeys (sections : List DbSection) : List String :=
  firstDedup (sections.map (·.pruefidentifikator))

/-- The body of the per-key loop of `compareDocuments`.  The inner `none/none`
case is unreachable for keys drawn from either document (the source would
fail there dereferencing a missing section). -/
def sectionDiffFor (secs1 secs2 : List DbSection) (k : String) : SectionDiff :=
  match findSection secs1 k with
  | none =>
    match findSection secs2 k with
    | some s2 => .added k s2 (s2.rows.map (fun r => .added none r))
    | none => .added k ⟨k, "", "", "", "", []⟩ []
  | some s1 =>
    match findSection secs2 k with
    | none => .removed k s1 (s1.rows.map (fun r => .removed none r))
    | some s2 =>
      let rowDiffs := compareRows s1.rows s2.rows
      let hasChanges := rowDiffs.any (fun d => d.type ≠ DiffType.unchanged)
      let metaChanged := checkMetaChanges s1 s2
      .matched (hasChanges || metaChanged) k s1 s2
        (if metaChanged then getMetaChanges s1 s2 else []) rowDiffs

/-- The final sort of `compareDocuments`: a stable sort by the priority
`modified < added < removed < unchanged`, i.e. the concatenation of the four
type classes in priority order with the original order kept inside each
class (ECMAScript `Array.prototype.sort` is stable). -/
def sortDiffs (l : List SectionDiff) : List SectionDiff :=
  l.filter (fun d => d.type == DiffType.modified) ++
  l.filter (fun d => d.type == DiffType.added) ++
  l.filter (fun d => d.type == DiffType.removed) ++
  l.filter (fun d => d.type == DiffType.unchanged)

/-- Count of section diffs of a given type: the summary counters of the
source are incremented exactly once per key, in lockstep with the push of a
diff of the corresponding type. -/
def countType (l : List SectionDiff) (t : DiffType) : Nat :=
  (l.filter (fun d => d.type == t)).length

/-- `compareDocuments` from the comparator source, on the two ordered section
lists read back from the store. -/
def compareDocuments (secs1 secs2 : List DbSection) : ComparisonResult :=
  let allKeys := firstDedup (sectionKeys secs1 ++ sectionKeys secs2)
  let diffs := allKeys.map (sectionDiffFor secs1 secs2)
  { summary :=
      { added := countType diffs .added
        removed := countType diffs .removed
        modified := countType diffs .modified
        unchanged := countType diffs .unchanged }
    sectionDiffs := sortDiffs diffs }

/-! ## The structuring pass

`parsePDF` feeds `buildSections` per-page lists of text fragments
`{text, x, y}`.  `round1` rounds every coordinate to one decimal, so
coordinates are modelled exactly as integers in tenths of a PDF unit and all
fixed thresholds of the source are scaled by ten (an order isomorphism, so
every comparison agrees with the source).  The `width`/`fontSize` fields and
the `y` recorded on a parsed row are never read by the structuring pass and
are not modelled. -/

structure Fragment where
  text : String
  x : Int
  y : Int
deriving DecidableEq, Repr

structure Page where
  pageNum : Nat
  items : List Fragment
deriving DecidableEq, Repr

/-- The comparator of `groupIntoRows`' sort (`b.y - a.y || a.x - b.x`) as a
total preorder: descending `y`, then ascending `x`. -/
def yxLe (a b : Fragment) : Bool :=
  decide (b.y < a.y) || (decide (a.y = b.y) && decide (a.x ≤ b.x))

def insertFrag (a : Fragment) : List Fragment → List Fragment
  | [] => [a]
  | b :: bs => if yxLe a b then a :: b :: bs else b :: insertFrag a bs

/-- ECMAScript `Array.prototype.sort` is stable, and for the consistent
comparator above the stable sort result is unique; it is modelled by a stable
insertion sort. -/
def sortFrags (l : List Fragment) : List Fragment := l.foldr insertFrag []

def ROW_Y_THRESHOLD : Int := 50
def HEADER_Y_MIN : Int := 7750
def FOOTER_Y_MAX : Int := 300

/-- `Math.abs`. -/
def intAbs (q : Int) : Int := if q < 0 then -q else q

def groupGo : List Fragment → List Fragment → Int → List (List Fragment)
  | [], row, _ => [row]
  | it :: rest, row, cy =>
    if decide (ROW_Y_THRESHOLD < intAbs (it.y - cy)) then
      row :: groupGo rest [it] it.y
    else
      groupGo rest (row ++ [it]) cy

/-- `groupIntoRows(items)`: sort by descending `y` then ascending `x`, then
split into visual rows whenever the `y`-distance to the row-starting fragment
exceeds the threshold. -/
def groupIntoRows (items : List Fragment) : List (List Fragment) :=
  match sortFrags items with
  | [] => []
  | it :: rest => groupGo rest [it] it.y

/-- The output record of `parseRow`. -/
structure ParsedRow where
  segmentGroup : String
  segmentCode : String
  dataElement : String
  beschreibung : String
  statusCol1 : String
  statusCol2 : String
  bedingung : String
deriving DecidableEq, Repr

/-- `row.f = row.f ? row.f + ' ' + text : text` of the EDIFACT sub-columns. -/
def appendField (cur txt : String) : String :=
  if cur ≠ "" then cur ++ " " ++ txt else txt

structure ParseAcc where
  sg : String
  sc : String
  de : String
  b : List String
  s1 : List String
  s2 : List String
  bd : List String

/-- One step of `parseRow`'s loop: classify the fragment's `x` into the fixed
column bands (`COL`, `EDIFACT_SUB` constants of the source, scaled to
tenths) and accumulate its text. -/
def parseStep (acc : ParseAcc) (it : Fragment) : ParseAcc :=
  if decide (it.x < 1700) then
    if decide (it.x < 880) then { acc with sg := appendField acc.sg it.text }
    else if decide (it.x < 1180) then { acc with sc := appendField acc.sc it.text }
    else { acc with de := appendField acc.de it.text }
  else if decide (it.x < 3050) then { acc with b := acc.b ++ [it.text] }
  else if decide (it.x < 3700) then { acc with s1 := acc.s1 ++ [it.text] }
  else if decide (it.x < 4350) then { acc with s2 := acc.s2 ++ [it.text] }
  else { acc with bd := acc.bd ++ [it.text] }

/-- `parseRow(items)` from the parser source. -/
def parseRow (items : List Fragment) : ParsedRow :=
  let a := items.foldl parseStep ⟨"", "", "", [], [], [], []⟩
  ⟨a.sg, a.sc, a.de, String.intercalate " " a.b, String.intercalate " " a.s1,
    String.intercalate " " a.s2, String.intercalate " " a.bd⟩

/-! ## Row classifiers -/

/-- Simple lower-case mapping of `String.prototype.toLowerCase`, restricted
to ASCII letters and the umlauts occurring in the marker keywords (other
characters are fixed; no marker keyword contains any other cased letter). -/
def jsToLower (c : Char) : Char :=
  if ('A' ≤ c) && (c ≤ 'Z') then Char.ofNat (c.toNat + 32)
  else if c == 'Ä' then 'ä'
  else if c == 'Ö' then 'ö'
  else if c == 'Ü' then 'ü'
  else c

def toLowerStr (s : String) : String := String.mk (s.data.map jsToLower)

/-- JS `String.prototype.includes`. -/
def containsSub (hay needle : String) : Bool :=
  hay.data.tails.any (fun t => needle.data.isPrefixOf t)

/-- `isTableHeader(row)`. -/
def isTableHeader (row : ParsedRow) : Bool :=
  let combined := toLowerStr (row.segmentGroup ++ " " ++ row.beschreibung)
  containsSub combined "edifact" && containsSub combined "struktur"

/-- JS regex `^\d{5}$`. -/
def isFiveDigits (s : String) : Bool :=
  (s.data.length == 5) && s.data.all isDigitChar

/-- JS regex `^\d{5}\s+\d{5}$`. -/
def isFiveFive (s : String) : Bool :=
  let l := s.data
  ((l.take 5).length == 5) && (l.take 5).all isDigitChar &&
  (match l.drop 5 with
   | c :: _ => isJsSpace c
   | [] => false) &&
  (let r := (l.drop 5).dropWhile isJsSpace
   (r.length == 5) && r.all isDigitChar)

/-- `isPruefidentifikatorHeader(row)` from the parser source: the description
must mention the marker word, and additionally one of the status columns must
carry a 5-digit numeric ID (or two space-separated ones). -/
def isPruefidentifikatorHeader (row : ParsedRow) : Bool :=
  if !(containsSub (toLowerStr row.beschreibung) "prüfidentifikator") then
    false
  else
    isFiveDigits (jsTrim row.statusCol1) || isFiveDigits (jsTrim row.statusCol2) ||
    isFiveFive (jsTrim row.statusCol1) || isFiveFive (jsTrim row.statusCol2)

/-- `isKommunikationVon(row)`. -/
def isKommunikationVon (row : ParsedRow) : Bool :=
  containsSub (toLowerStr row.beschreibung) "kommunikation von"

/-- `isStatusColumnHeader(row)`: the source also lower-cases `statusCol2` but
never tests it, and lists `meldung` twice; both kept as-is. -/
def isStatusColumnHeader (row : ParsedRow) : Bool :=
  let s1 := toLowerStr row.statusCol1
  let noEdifact := (row.segmentGroup == "") && (row.segmentCode == "")
  noEdifact &&
    (containsSub s1 "meldung" || containsSub s1 "status" ||
     containsSub s1 "antwort" || containsSub s1 "bestellung" ||
     containsSub s1 "mitteilung" || containsSub s1 "information" ||
     containsSub s1 "konfiguration" || containsSub s1 "meldung" ||
     containsSub s1 "übermittlung")

def KNOWN_SEGMENTS : List String :=
  ["UNH", "BGM", "DTM", "NAD", "CTA", "COM", "CNI", "LOC",
   "STS", "RFF", "FTX", "EQD", "GID", "UNT", "DOC", "MEA",
   "QTY", "TDT", "SEQ", "PCI", "GIN", "IDE", "DGS"]

/-- JS regex `^SG\d+$`. -/
def isSegmentGroupRe (s : String) : Bool :=
  match s.data with
  | 'S' :: 'G' :: rest => !rest.isEmpty && rest.all isDigitChar
  | _ => false

/-- JS regex `^\d{4,5}$`. -/
def isFourFiveDigits (s : String) : Bool :=
  ((s.data.length == 4) || (s.data.length == 5)) && s.data.all isDigitChar

/-- `hasEdifactContent(row)`. -/
def hasEdifactContent (row : ParsedRow) : Bool :=
  isSegmentGroupRe row.segmentGroup ||
  KNOWN_SEGMENTS.contains row.segmentCode ||
  isFourFiveDigits (jsTrim row.dataElement)

/-- `isDataRow(row)`. -/
def isDataRow (row : ParsedRow) : Bool :=
  hasEdifactContent row ||
  ((row.segmentGroup != "") && (row.segmentCode != ""))

/-- `isContinuationRow(row)`. -/
def isContinuationRow (row : ParsedRow) : Bool :=
  (row.segmentGroup == "") && (row.segmentCode == "") &&
  (row.dataElement == "") &&
  ((row.beschreibung != "") || (row.statusCol1 != "") ||
   (row.statusCol2 != "") || (row.bedingung != ""))

/-- `isSectionLabel(row)`. -/
def isSectionLabel (row : ParsedRow) : Bool :=
  (row.segmentGroup == "") && (row.segmentCode == "") &&
  (row.dataElement == "") && (row.beschreibung != "") &&
  (row.statusCol1 == "") && (row.statusCol2 == "")

/-! ## `buildSections` -/

/-- A row of a structured section (data row or label row). -/
structure PRow where
  segmentGroup : String
  segmentCode : String
  dataElement : String
  beschreibung : String
  statusCol1 : String
  statusCol2 : String
  bedingung : String
  isLabel : Bool
deriving DecidableEq, Repr

/-- A structured section produced by `buildSections`. -/
structure PSection where
  title : String
  pruefidentifikator : List String
  kommunikationVon : List String
  statusCol1Header : String
  statusCol2Header : String
  pageStart : Nat
  rows : List PRow
deriving DecidableEq, Repr

/-- The metadata of the currently open section (`current` of the source,
whose `rows` are carried separately until `finalizeSection`). -/
structure CurInfo where
  title : String
  pruefidentifikator : List String
  kommunikationVon : List String
  statusCol1Header : String
  statusCol2Header : String
  pageStart : Nat
deriving DecidableEq, Repr

/-- The mutable cursors of `buildSections` as explicit fold state.  The
source's `lastRow` pointer always aliases the last element of `rows` (both
are reset together when a section opens, and every push sets it), so it needs
no separate field: it is null exactly when `rows` is empty. -/
structure BuildAcc where
  sections : List PSection
  current : Option CurInfo
  rows : List PRow
  pendingTitle : String
deriving DecidableEq, Repr

/-- `finalizeSection()` from the parser source. -/
def finalizeSection (acc : BuildAcc) : BuildAcc :=
  match acc.current with
  | some cur =>
    { sections := acc.sections ++
        [⟨cur.title, cur.pruefidentifikator, cur.kommunikationVon,
          cur.statusCol1Header, cur.statusCol2Header, cur.pageStart, acc.rows⟩]
      current := none
      rows := []
      pendingTitle := acc.pendingTitle }
  | none => acc

/-- In-place extension of the last pushed row by a continuation row. -/
def extendRow (last : PRow) (p : ParsedRow) : PRow :=
  { last with
    beschreibung :=
      if p.beschreibung != "" then last.beschreibung ++ " " ++ jsTrim p.beschreibung
      else last.beschreibung
    statusCol1 :=
      if p.statusCol1 != "" then last.statusCol1 ++ " " ++ jsTrim p.statusCol1
      else last.statusCol1
    statusCol2 :=
      if p.statusCol2 != "" then last.statusCol2 ++ " " ++ jsTrim p.statusCol2
      else last.statusCol2
    bedingung :=
      if p.bedingung != "" then last.bedingung ++ " " ++ jsTrim p.bedingung
      else last.bedingung }

/-- The `Kommunikation von` metadata update (first occurrence wins). -/
def kommUpdate (acc : BuildAcc) (parsed : ParsedRow) : BuildAcc :=
  match acc.current with
  | some c =>
    if c.kommunikationVon.isEmpty then
      { acc with current := some { c with kommunikationVon :=
          ([parsed.statusCol1, parsed.statusCol2].filter (fun s => s != "")).map jsTrim } }
    else acc
  | none => acc

/-- The status-column-header metadata update (first occurrence wins). -/
def statusHeaderUpdate (acc : BuildAcc) (parsed : ParsedRow) : BuildAcc :=
  match acc.current with
  | some c =>
    if c.statusCol1Header == "" then
      { acc with current := some { c with
          statusCol1Header := jsTrim parsed.statusCol1
          statusCol2Header := jsTrim parsed.statusCol2 } }
    else acc
  | none => acc

/-- The continuation update: extend the last pushed row in place. -/
def contUpdate (acc : BuildAcc) (parsed : ParsedRow) : BuildAcc :=
  match acc.rows.getLast? with
  | some last => { acc with rows := acc.rows.dropLast ++ [extendRow last parsed] }
  | none => acc

/-- The classification chain of `buildSections`' inner loop, applied to one
parsed visual row, in source order (each source `if (...) { ...; continue; }`
is one branch of this cascade). -/
def processParsed (pageNum : Nat) (acc : BuildAcc) (parsed : ParsedRow) : BuildAcc :=
  if isTableHeader parsed then acc
  else if isPruefidentifikatorHeader parsed then
    let newPruef := ([parsed.statusCol1, parsed.statusCol2].filter
        (fun s => s != "")).map jsTrim
    let newPruefKey := String.intercalate "," newPruef
    let currentPruefKey :=
      match acc.current with
      | some c => String.intercalate "," c.pruefidentifikator
      | none => ""
    if acc.current.isSome && (newPruefKey == currentPruefKey) then acc
    else
      let acc1 := finalizeSection acc
      { acc1 with
        current := some ⟨jsTrim acc1.pendingTitle, newPruef, [], "", "", pageNum⟩
        pendingTitle := ""
        rows := [] }
  else if isKommunikationVon parsed && acc.current.isSome then
    kommUpdate acc parsed
  else if isStatusColumnHeader parsed && acc.current.isSome then
    statusHeaderUpdate acc parsed
  else if acc.current.isNone then
    if (parsed.beschreibung != "") && (parsed.segmentGroup == "") then
      { acc with pendingTitle := parsed.beschreibung }
    else acc
  else if isDataRow parsed then
    let dataRow : PRow :=
      ⟨jsTrim parsed.segmentGroup, jsTrim parsed.segmentCode,
        jsTrim parsed.dataElement, jsTrim parsed.beschreibung,
        jsTrim parsed.statusCol1, jsTrim parsed.statusCol2,
        jsTrim parsed.bedingung, false⟩
    { acc with rows := acc.rows ++ [dataRow] }
  else if isContinuationRow parsed && !acc.rows.isEmpty then
    contUpdate acc parsed
  else if isSectionLabel parsed then
    let labelRow : PRow :=
      ⟨"", "", "", jsTrim parsed.beschreibung, "", "", "", true⟩
    { acc with rows := acc.rows ++ [labelRow], pendingTitle := parsed.beschreibung }
  else acc

def contentBand (it : Fragment) : Bool :=
  decide (it.y < HEADER_Y_MIN) && decide (FOOTER_Y_MAX < it.y)

def processRowItems (pageNum : Nat) (acc : BuildAcc) (items : List Fragment) :
    BuildAcc :=
  processParsed pageNum acc (parseRow items)

def processPage (acc : BuildAcc) (pg : Page) : BuildAcc :=
  (groupIntoRows (pg.items.filter contentBand)).foldl (processRowItems pg.pageNum) acc

/-- `buildSections(allPages)` from the parser source. -/
def buildSections (pages : List Page) : List PSection :=
  (finalizeSection (pages.foldl processPage ⟨[], none, [], ""⟩)).sections

/-! ## C5: the compound row key is built exactly as specified -/

/-- The compound-key construction as worded in the specification: label rows
are keyed by the normalized description; non-label rows join the non-empty
normalized structural identifiers with `|`, fall back to a positional key
when all three are empty, and append the first whitespace-delimited token of
the description when a data element is present and the token matches the
all-caps/digit/underscore pattern of length 1–10. -/
def rowKeySpec (row : Row) : String :=
  if row.isLabel then
    "LABEL:" ++ normalizeForComparison row.beschreibung
  else
    let vals := [normalizeForComparison row.segmentGroup,
                 normalizeForComparison row.segmentCode,
                 normalizeForComparison row.dataElement].filter (fun p => p ≠ "")
    if vals = [] then
      "POS:" ++ toString row.rowOrder
    else
      let tok := firstToken (normalizeForComparison row.beschreibung)
      let extra :=
        if normalizeForComparison row.dataElement ≠ "" ∧ isCodeToken tok = true
        then [tok] else []
      String.intercalate "|" (vals ++ extra)

/-- C5: for every row, the compound row-matching key computed by the source's
`rowKey` is exactly the key described by the specification. -/
theorem rowKey_eq_rowKeySpec (row : Row) : rowKey row = rowKeySpec row := by
  unfold rowKey rowKeySpec
  by_cases hl : row.isLabel
  · simp [hl]
  · simp only [hl, if_false, Bool.false_eq_true]
    by_cases hsg : normalizeForComparison row.segmentGroup = "" <;>
      by_cases hsc : normalizeForComparison row.segmentCode = "" <;>
      by_cases hde : normalizeForComparison row.dataElement = "" <;>
      by_cases hct : isCodeToken (firstToken
          (normalizeForComparison row.beschreibung)) = true <;>
      simp [hsg, hsc, hde, hct]

/-! ## C7: the section-header test requires marker word and numeric shape -/

/-- One status field has the numeric-code shape of a section header: exactly
five digits, or two space-separated five-digit codes. -/
def pruefStatusShape (t : String) : Bool :=
  isFiveDigits t || isFiveFive t

/-- C7: a parsed row is classified as a section-header row if and only if its
description contains the marker word and at least one of its two trimmed
status fields has the 5-digit / double-5-digit numeric shape. -/
theorem isPruefidentifikatorHeader_iff (row : ParsedRow) :
    isPruefidentifikatorHeader row =
      (containsSub (toLowerStr row.beschreibung) "prüfidentifikator" &&
        (pruefStatusShape (jsTrim row.statusCol1) ||
         pruefStatusShape (jsTrim row.statusCol2))) := by
  unfold isPruefidentifikatorHeader pruefStatusShape
  cases containsSub (toLowerStr row.beschreibung) "prüfidentifikator"
  · rfl
  · simp only [Bool.not_true, Bool.false_eq_true, if_false, Bool.true_and]
    cases isFiveDigits (jsTrim row.statusCol1) <;>
      cases isFiveDigits (jsTrim row.statusCol2) <;>
      cases isFiveFive (jsTrim row.statusCol1) <;>
      cases isFiveFive (jsTrim row.statusCol2) <;> rfl

/-! ## C9: both passes are deterministic -/

/-- C9: the structuring pass and the comparison are pure functions of their
inputs: running either twice on equal inputs yields equal outputs. -/
theorem buildSections_compareDocuments_deterministic
    (p₁ p₂ : List Page) (a₁ a₂ b₁ b₂ : List DbSection)
    (hp : p₁ = p₂) (ha : a₁ = a₂) (hb : b₁ = b₂) :
    buildSections p₁ = buildSections p₂ ∧
      compareDocuments a₁ b₁ = compareDocuments a₂ b₂ := by
  subst hp; subst ha; subst hb; exact ⟨rfl, rfl⟩

/-- Witness for C9 at concrete inputs. -/
theorem buildSections_compareDocuments_deterministic_witness :
    buildSections [⟨1, [⟨"Prüfidentifikator", 2000, 7000⟩, ⟨"21025", 3200, 7000⟩]⟩] =
      buildSections [⟨1, [⟨"Prüfidentifikator", 2000, 7000⟩, ⟨"21025", 3200, 7000⟩]⟩] ∧
    compareDocuments [⟨"21025", "t", "k", "h1", "h2", []⟩] [] =
      compareDocuments [⟨"21025", "t", "k", "h1", "h2", []⟩] [] :=
  buildSections_compareDocuments_deterministic _ _ _ _ _ _ rfl rfl rfl

/-! ## C8: a continuation row with no prior row -/

/-- A continuation-shaped row has no structural content, so it is never a
data row. -/
theorem continuation_not_dataRow (parsed : ParsedRow)
    (h : isContinuationRow parsed = true) : isDataRow parsed = false := by
  unfold isContinuationRow at h
  simp only [Bool.and_eq_true, beq_iff_eq] at h
  obtain ⟨⟨⟨hsg, hsc⟩, hde⟩, -⟩ := h
  unfold isDataRow hasEdifactContent isSegmentGroupRe isFourFiveDigits
  rw [hsg, hsc, hde]
  rfl

/-- One page whose first visual row is a section header
(`Prüfidentifikator` marker with the 5-digit code `21025` in the first
status column) and whose second visual row carries only the description text
`Hinweis`: a continuation-shaped row arriving when no prior row exists. -/
def c8Page : Page :=
  ⟨1, [⟨"Prüfidentifikator", 2000, 7000⟩, ⟨"21025", 3200, 7000⟩,
       ⟨"Hinweis", 2000, 6800⟩]⟩

/-- Counterexample to C8 as stated: the `Hinweis` row is continuation-shaped
and no prior row exists, yet it is not dropped — the structuring pass appends
it to the section as a label row. -/
theorem continuation_no_prior_row_not_dropped :
    isContinuationRow (parseRow [⟨"Hinweis", 2000, 6800⟩]) = true ∧
    (buildSections [c8Page]).map (fun s => s.rows) =
      [[⟨"", "", "", "Hinweis", "", "", "", true⟩]] := by
  constructor
  · rfl
  · rfl

/-- C8 amended: a continuation row encountered when no prior row exists is
dropped (the accumulated state is returned unchanged, and no failure is
possible since the pass is total), provided the row does not qualify as a
section label — a continuation-shaped row with only description text and no
status content falls through to the label branch instead and is appended as
a label row. -/
theorem continuation_without_prior_row_dropped
    (pageNum : Nat) (acc : BuildAcc) (parsed : ParsedRow)
    (hth : isTableHeader parsed = false)
    (hph : isPruefidentifikatorHeader parsed = false)
    (hkv : isKommunikationVon parsed = false)
    (hsh : isStatusColumnHeader parsed = false)
    (hcur : acc.current.isSome = true)
    (hrows : acc.rows = [])
    (hcont : isContinuationRow parsed = true)
    (hlab : isSectionLabel parsed = false) :
    processParsed pageNum acc parsed = acc := by
  have hnone : acc.current.isNone = false := by
    cases hc : acc.current with
    | none => rw [hc] at hcur; simp at hcur
    | some c => rfl
  have hdata := continuation_not_dataRow parsed hcont
  unfold processParsed
  rw [hth, hph, hkv, hsh, hnone, hdata, hrows, hlab]
  simp

/-- Witness for the amended C8 at a concrete input: a continuation row whose
only free text sits in a status column is dropped when no prior row exists. -/
theorem continuation_without_prior_row_dropped_witness :
    processParsed 1 ⟨[], some ⟨"", ["21025"], [], "", "", 1⟩, [], ""⟩
        ⟨"", "", "", "", "X", "", ""⟩ =
      ⟨[], some ⟨"", ["21025"], [], "", "", 1⟩, [], ""⟩ :=
  continuation_without_prior_row_dropped 1 _ _ rfl rfl rfl rfl rfl rfl rfl rfl

/-! ## Facts about `firstDedup` and key groups -/

theorem mem_firstDedup {α : Type} [DecidableEq α] (l : List α) (a : α) :
    a ∈ firstDedup l ↔ a ∈ l := by
  induction l with
  | nil => simp [firstDedup]
  | cons b l ih =>
    simp only [firstDedup, List.mem_cons, List.mem_filter]
    constructor
    · rintro (h | ⟨h, -⟩)
      · exact Or.inl h
      · exact Or.inr (ih.mp h)
    · rintro (h | h)
      · exact Or.inl h
      · by_cases hab : a = b
        · exact Or.inl hab
        · exact Or.inr ⟨ih.mpr h, by simpa using hab⟩

theorem firstDedup_nodup {α : Type} [DecidableEq α] (l : List α) :
    (firstDedup l).Nodup := by
  induction l with
  | nil => simp [firstDedup]
  | cons b l ih =>
    rw [firstDedup, List.nodup_cons]
    refine ⟨fun hmem => ?_, List.Nodup.filter _ ih⟩
    rcases List.mem_filter.mp hmem with ⟨-, hne⟩
    simp at hne

theorem mem_rowAllKeys (rows1 rows2 : List Row) (k : String) :
    k ∈ rowAllKeys rows1 rows2 ↔
      (∃ r ∈ rows1, rowKey r = k) ∨ (∃ r ∈ rows2, rowKey r = k) := by
  unfold rowAllKeys
  rw [mem_firstDedup]
  simp [mem_firstDedup, List.mem_append, List.mem_map]

/-! ## Shape of `compareLists` -/

theorem compareLists_nil_left (k : String) (l2 : List Row) :
    compareLists k [] l2 = l2.map (RowDiff.added (some k)) := rfl

theorem compareLists_nil_right (k : String) (l1 : List Row) :
    compareLists k l1 [] = l1.map (RowDiff.removed (some k)) := by
  induction l1 with
  | nil => rfl
  | cons r t ih => simp [compareLists, ih]

theorem compareLists_eq_zip (k : String) (l1 l2 : List Row) :
    compareLists k l1 l2 =
      List.zipWith (pairDiff k) l1 l2 ++
        (if l2.length ≤ l1.length
         then (l1.drop l2.length).map (RowDiff.removed (some k))
         else (l2.drop l1.length).map (RowDiff.added (some k))) := by
  induction l1 generalizing l2 with
  | nil =>
    cases l2 with
    | nil => rfl
    | cons r2 t2 => simp [compareLists_nil_left]
  | cons r1 t1 ih =>
    cases l2 with
    | nil => simp [compareLists_nil_right]
    | cons r2 t2 =>
      simp only [compareLists, ih, List.zipWith_cons_cons, List.length_cons,
        Nat.succ_le_succ_iff, List.drop_succ_cons, List.cons_append]

theorem pairDiff_keyOf (k : String) (r1 r2 : Row) :
    (pairDiff k r1 r2).keyOf = some k := by
  unfold pairDiff
  split <;> rfl

theorem compareLists_shape (k : String) :
    ∀ l1 l2 d, d ∈ compareLists k l1 l2 →
      (∃ r1 r2, d = pairDiff k r1 r2) ∨
      (∃ r, d = RowDiff.removed (some k) r) ∨
      (∃ r, d = RowDiff.added (some k) r) := by
  intro l1
  induction l1 with
  | nil =>
    intro l2 d hd
    rw [compareLists_nil_left] at hd
    rcases List.mem_map.mp hd with ⟨r, -, rfl⟩
    exact Or.inr (Or.inr ⟨r, rfl⟩)
  | cons r1 t1 ih =>
    intro l2 d hd
    cases l2 with
    | nil =>
      rw [compareLists_nil_right] at hd
      rcases List.mem_map.mp hd with ⟨r, -, rfl⟩
      exact Or.inr (Or.inl ⟨r, rfl⟩)
    | cons r2 t2 =>
      rw [compareLists_cons_cons] at hd
      rcases List.mem_cons.mp hd with h | hd
      · exact Or.inl ⟨r1, r2, h⟩
      · exact ih t2 d hd

theorem compareLists_keyOf (k : String) (l1 l2 : List Row) (d : RowDiff)
    (hd : d ∈ compareLists k l1 l2) : d.keyOf = some k := by
  rcases compareLists_shape k l1 l2 d hd with ⟨r1, r2, h⟩ | ⟨r, h⟩ | ⟨r, h⟩ <;>
    rw [h]
  · exact pairDiff_keyOf k r1 r2
  · rfl
  · rfl

/-- Filtering a flatMap over distinct keys, where the block of each key only
contains entries carrying that key, selects exactly the block of the given
key. -/
theorem flatMap_filter_keyOf (G : String → List RowDiff)
    (hG : ∀ k' d, d ∈ G k' → d.keyOf = some k') (k : String) :
    ∀ ks : List String, ks.Nodup →
      ((ks.flatMap G).filter (fun d => d.keyOf == some k)) =
        if k ∈ ks then G k else [] := by
  intro ks
  induction ks with
  | nil => simp
  | cons k' ks ih =>
    intro hnd
    rcases List.nodup_cons.mp hnd with ⟨hk', hnd'⟩
    rw [List.flatMap_cons, List.filter_append, ih hnd']
    by_cases hkk : k = k'
    · subst hkk
      rw [List.filter_eq_self.mpr]
      · simp [hk']
      · intro d hd
        simp [hG k d hd]
    · rw [List.filter_eq_nil_iff.mpr]
      · simp [List.mem_cons, hkk]
      · intro d hd
        rw [hG k' d hd]
        simp [Ne.symm hkk]

theorem rowAllKeys_nodup (rows1 rows2 : List Row) :
    (rowAllKeys rows1 rows2).Nodup := firstDedup_nodup _

/-- C6 main lemma: the row diffs of `compareRows` carrying key `k` are
exactly the positional comparison of the two key-`k` groups. -/
theorem compareRows_filter_key (rows1 rows2 : List Row) (k : String) :
    (compareRows rows1 rows2).filter (fun d => d.keyOf == some k) =
      compareLists k (rowGroup rows1 k) (rowGroup rows2 k) := by
  unfold compareRows
  rw [flatMap_filter_keyOf
    (fun k' => compareLists k' (rowGroup rows1 k') (rowGroup rows2 k'))
    (fun k' d hd => compareLists_keyOf k' _ _ d hd) k
    (rowAllKeys rows1 rows2) (rowAllKeys_nodup rows1 rows2)]
  by_cases hk : k ∈ rowAllKeys rows1 rows2
  · simp [hk]
  · have h1 : rowGroup rows1 k = [] := by
      refine List.filter_eq_nil_iff.mpr fun r hr hkey => hk ?_
      exact (mem_rowAllKeys rows1 rows2 k).mpr
        (Or.inl ⟨r, hr, by simpa using hkey⟩)
    have h2 : rowGroup rows2 k = [] := by
      refine List.filter_eq_nil_iff.mpr fun r hr hkey => hk ?_
      exact (mem_rowAllKeys rows1 rows2 k).mpr
        (Or.inr ⟨r, hr, by simpa using hkey⟩)
    simp [hk, h1, h2, compareLists]

/-- C6: rows sharing a compound key are paired index by index — for every
key, the diffs of `compareRows` with that key are the positional pairing of
the old-side and new-side groups, with the surplus of the longer side
reported individually as `removed`/`added`; in particular two old rows and
three new rows with one shared key give two paired diffs and one `added`. -/
theorem compareRows_positional_pairing (rows1 rows2 : List Row) (k : String)
    (a b c d e : Row) :
    ((compareRows rows1 rows2).filter (fun x => x.keyOf == some k) =
        List.zipWith (pairDiff k) (rowGroup rows1 k) (rowGroup rows2 k) ++
          (if (rowGroup rows2 k).length ≤ (rowGroup rows1 k).length
           then ((rowGroup rows1 k).drop (rowGroup rows2 k).length).map
             (RowDiff.removed (some k))
           else ((rowGroup rows2 k).drop (rowGroup rows1 k).length).map
             (RowDiff.added (some k)))) ∧
    compareLists k [a, b] [c, d, e] =
      [pairDiff k a c, pairDiff k b d, RowDiff.added (some k) e] := by
  constructor
  · rw [compareRows_filter_key, compareLists_eq_zip]
  · rfl

/-! ## C10: `modified` row diffs always carry changes -/

/-- A row diff is well-formed when it is only `modified` with a non-empty
change list. -/
def rowDiffOk (d : RowDiff) : Bool :=
  !(d.type == DiffType.modified) || !d.changes.isEmpty

theorem pairDiff_ok (k : String) (r1 r2 : Row) :
    rowDiffOk (pairDiff k r1 r2) = true := by
  unfold pairDiff
  split
  · rename_i h
    cases hc : diffRowFields r1 r2 with
    | nil => exact absurd hc h
    | cons x xs => simp [rowDiffOk, RowDiff.type, RowDiff.changes, hc]
  · rfl

/-- C10: `compareRows` never produces a `modified` row diff with an empty
change list, and a positionally paired row couple whose compared fields are
all equal (empty `diffRowFields`) yields an `unchanged` diff. -/
theorem compareRows_modified_nonempty (rows1 rows2 : List Row) (k : String)
    (r1 r2 : Row) :
    ((compareRows rows1 rows2).all rowDiffOk = true) ∧
    (pairDiff k r1 r2 =
      if diffRowFields r1 r2 = [] then RowDiff.unchanged k r1
      else RowDiff.modified k r1 r2 (diffRowFields r1 r2)) := by
  constructor
  · rw [List.all_eq_true]
    intro d hd
    rcases List.mem_flatMap.mp hd with ⟨k', -, hdk⟩
    rcases compareLists_shape k' _ _ d hdk with ⟨s1, s2, h⟩ | ⟨r, h⟩ | ⟨r, h⟩ <;>
      rw [h]
    · exact pairDiff_ok k' s1 s2
    · rfl
    · rfl
  · unfold pairDiff
    by_cases h : diffRowFields r1 r2 = []
    · simp [h]
    · rw [if_pos h, if_neg h]

/-! ## C3: the row-matching pass conserves rows -/

/-- `compareLists` instrumented with the old/new rows consumed by each
produced diff. -/
def compareListsC (key : String) :
    List Row → List Row → List (RowDiff × List Row × List Row)
  | [], l2 => l2.map (fun r2 => (.added (some key) r2, [], [r2]))
  | r1 :: t1, [] => (.removed (some key) r1, [r1], []) :: compareListsC key t1 []
  | r1 :: t1, r2 :: t2 => (pairDiff key r1 r2, [r1], [r2]) :: compareListsC key t1 t2

/-- `compareRows` instrumented with the consumed rows. -/
def compareRowsC (rows1 rows2 : List Row) : List (RowDiff × List Row × List Row) :=
  (rowAllKeys rows1 rows2).flatMap
    (fun k => compareListsC k (rowGroup rows1 k) (rowGroup rows2 k))

theorem compareListsC_fst (k : String) :
    ∀ l1 l2, (compareListsC k l1 l2).map Prod.fst = compareLists k l1 l2 := by
  intro l1
  induction l1 with
  | nil =>
    intro l2
    induction l2 with
    | nil => rfl
    | cons r2 t2 ih => simp [compareListsC, compareLists, ih]
  | cons r1 t1 ih =>
    intro l2
    cases l2 with
    | nil => simpa [compareListsC, compareLists] using ih []
    | cons r2 t2 => simp [compareListsC, compareLists, ih]

theorem compareListsC_old (k : String) :
    ∀ l1 l2, (compareListsC k l1 l2).flatMap (fun e => e.2.1) = l1 := by
  intro l1
  induction l1 with
  | nil =>
    intro l2
    induction l2 with
    | nil => rfl
    | cons r2 t2 ih => simp [compareListsC, ih]
  | cons r1 t1 ih =>
    intro l2
    cases l2 with
    | nil => simpa [compareListsC] using ih []
    | cons r2 t2 => simp [compareListsC, ih]

theorem compareListsC_new (k : String) :
    ∀ l1 l2, (compareListsC k l1 l2).flatMap (fun e => e.2.2) = l2 := by
  intro l1
  induction l1 with
  | nil =>
    intro l2
    simp [compareListsC, List.flatMap_map]
  | cons r1 t1 ih =>
    intro l2
    cases l2 with
    | nil => simpa [compareListsC] using ih []
    | cons r2 t2 => simp [compareListsC, ih]

theorem compareListsC_card (k : String) :
    ∀ l1 l2 e, e ∈ compareListsC k l1 l2 → e.2.1.length ≤ 1 ∧ e.2.2.length ≤ 1 := by
  intro l1
  induction l1 with
  | nil =>
    intro l2
    induction l2 with
    | nil => intro e he; simp [compareListsC] at he
    | cons r2 t2 ih =>
      intro e he
      rcases List.mem_cons.mp he with rfl | he
      · exact ⟨by simp, by simp⟩
      · exact ih e he
  | cons r1 t1 ih =>
    intro l2 e he
    cases l2 with
    | nil =>
      rcases List.mem_cons.mp he with rfl | he
      · exact ⟨by simp, by simp⟩
      · exact ih [] e he
    | cons r2 t2 =>
      rcases List.mem_cons.mp he with rfl | he
      · exact ⟨by simp, by simp⟩
      · exact ih t2 e he

/-- Concatenating the key groups of a list of rows over a duplicate-free key
list covering all its keys is a permutation of the list. -/
theorem flatMap_rowGroup_perm :
    ∀ (ks : List String) (rows : List Row), ks.Nodup →
      (∀ r ∈ rows, rowKey r ∈ ks) →
      (ks.flatMap (rowGroup rows)).Perm rows := by
  intro ks
  induction ks with
  | nil =>
    intro rows _ hcov
    have : rows = [] :=
      List.eq_nil_iff_forall_not_mem.mpr fun r hr => by simpa using hcov r hr
    simp [this]
  | cons k ks ih =>
    intro rows hnd hcov
    rcases List.nodup_cons.mp hnd with ⟨hk, hnd'⟩
    rw [List.flatMap_cons]
    have hcongr : ks.flatMap (rowGroup rows) =
        ks.flatMap (rowGroup (rows.filter (fun r => !(rowKey r == k)))) := by
      refine List.flatMap_congr fun k' hk' => ?_
      unfold rowGroup
      rw [List.filter_filter]
      refine (List.filter_congr fun r hr => ?_).symm
      cases hkey : (rowKey r == k') with
      | false => rfl
      | true =>
        have hrk' : rowKey r = k' := by simpa using hkey
        have hne : (rowKey r == k) = false := by
          rw [hrk']
          simp only [beq_eq_false_iff_ne, ne_eq]
          exact fun h => hk (h ▸ hk')
        rw [hne]
        rfl
    rw [hcongr]
    have hperm2 := ih (rows.filter (fun r => !(rowKey r == k))) hnd'
      (fun r hr => by
        rcases List.mem_filter.mp hr with ⟨hrmem, hrk⟩
        rcases List.mem_cons.mp (hcov r hrmem) with h | h
        · exfalso
          rw [h] at hrk
          simp at hrk
        · exact h)
    have hstep := List.Perm.append_left (rowGroup rows k) hperm2
    refine hstep.trans ?_
    unfold rowGroup
    exact List.filter_append_perm _ rows

/-- C3: the matching pass conserves rows.  The instrumented `compareRowsC`
erases (first components) to `compareRows`; its consumed-old rows are a
permutation of the old section's rows and its consumed-new rows a
permutation of the new section's rows; and every produced row diff consumes
at most one old and at most one new row — so every input row of either side
is accounted for by exactly one row diff, none dropped, none duplicated. -/
theorem compareRows_conserves_rows (rows1 rows2 : List Row) :
    ((compareRowsC rows1 rows2).map Prod.fst = compareRows rows1 rows2) ∧
    ((compareRowsC rows1 rows2).flatMap (fun e => e.2.1)).Perm rows1 ∧
    ((compareRowsC rows1 rows2).flatMap (fun e => e.2.2)).Perm rows2 ∧
    ((compareRowsC rows1 rows2).all
      (fun e => decide (e.2.1.length ≤ 1) && decide (e.2.2.length ≤ 1)) = true) := by
  refine ⟨?_, ?_, ?_, ?_⟩
  · unfold compareRowsC compareRows
    rw [List.map_flatMap]
    exact List.flatMap_congr fun k _ => compareListsC_fst k _ _
  · unfold compareRowsC
    rw [List.flatMap_assoc]
    have : ((rowAllKeys rows1 rows2).flatMap
        (fun k => (compareListsC k (rowGroup rows1 k) (rowGroup rows2 k)).flatMap
          (fun e => e.2.1))) = (rowAllKeys rows1 rows2).flatMap (rowGroup rows1) :=
      List.flatMap_congr fun k _ => compareListsC_old k _ _
    rw [this]
    exact flatMap_rowGroup_perm _ rows1 (firstDedup_nodup _)
      (fun r hr => (mem_rowAllKeys rows1 rows2 (rowKey r)).mpr (Or.inl ⟨r, hr, rfl⟩))
  · unfold compareRowsC
    rw [List.flatMap_assoc]
    have : ((rowAllKeys rows1 rows2).flatMap
        (fun k => (compareListsC k (rowGroup rows1 k) (rowGroup rows2 k)).flatMap
          (fun e => e.2.2))) = (rowAllKeys rows1 rows2).flatMap (rowGroup rows2) :=
      List.flatMap_congr fun k _ => compareListsC_new k _ _
    rw [this]
    exact flatMap_rowGroup_perm _ rows2 (firstDedup_nodup _)
      (fun r hr => (mem_rowAllKeys rows1 rows2 (rowKey r)).mpr (Or.inr ⟨r, hr, rfl⟩))
  · rw [List.all_eq_true]
    intro e he
    rcases List.mem_flatMap.mp he with ⟨k, -, hek⟩
    rcases compareListsC_card k _ _ e hek with ⟨h1, h2⟩
    simp [h1, h2]

/-! ## Section-level helpers -/

theorem sectionDiffFor_pruef (secs1 secs2 : List DbSection) (k : String) :
    (sectionDiffFor secs1 secs2 k).pruefidentifikator = k := by
  unfold sectionDiffFor
  cases findSection secs1 k <;> cases findSection secs2 k <;> rfl

/-- Filtering the per-key section diffs by a key selects exactly the diff of
that key (keys are deduplicated, and each diff carries its key). -/
theorem map_filter_pruef (F : String → SectionDiff)
    (hF : ∀ k', (F k').pruefidentifikator = k') (k : String) :
    ∀ ks : List String, ks.Nodup →
      ((ks.map F).filter (fun d => d.pruefidentifikator == k)) =
        if k ∈ ks then [F k] else [] := by
  intro ks
  induction ks with
  | nil => simp
  | cons k' ks ih =>
    intro hnd
    rcases List.nodup_cons.mp hnd with ⟨hk', hnd'⟩
    rw [List.map_cons, List.filter_cons, ih hnd']
    by_cases hkk : k = k'
    · subst hkk
      have hT : ((F k).pruefidentifikator == k) = true := by simp [hF]
      rw [hT]
      simp [hk']
    · have hT : ((F k').pruefidentifikator == k) = false := by
        simp [hF]
        exact Ne.symm hkk
      rw [hT]
      simp [List.mem_cons, hkk]

/-- A stable sort by diff-type priority keeps a key-selected singleton. -/
theorem filter_sortDiffs_single (l : List SectionDiff) (p : SectionDiff → Bool)
    (d : SectionDiff) (h : l.filter p = [d]) :
    (sortDiffs l).filter p = [d] := by
  have hpart : ∀ t : DiffType,
      (l.filter (fun x => x.type == t)).filter p =
        if (d.type == t) = true then [d] else [] := by
    intro t
    rw [List.filter_filter]
    have hcomm : l.filter (fun a => p a && (a.type == t)) =
        (l.filter p).filter (fun a => a.type == t) := by
      rw [List.filter_filter]
      exact List.filter_congr fun a _ => Bool.and_comm _ _
    rw [hcomm, h, List.filter_cons]
    cases ht : (d.type == t) <;> simp [ht]
  unfold sortDiffs
  rw [List.filter_append, List.filter_append, List.filter_append,
    hpart DiffType.modified, hpart DiffType.added, hpart DiffType.removed,
    hpart DiffType.unchanged]
  cases ht : d.type <;> simp [ht]

/-! ## C1: partially overlapping code sets give one `removed` + one `added` -/

/-- C1: when the old document has a section whose full comma-joined key does
not occur in the new document and the new document has a section whose key
does not occur in the old one (as with partially overlapping code sets, e.g.
`"21025,21026,21027"` vs `"21025,21027"`), `compareDocuments` reports exactly
one `removed` section diff for the old key and exactly one `added` section
diff for the new key — in particular neither key ever appears on a
`modified` diff. -/
theorem compareDocuments_partial_overlap (secs1 secs2 : List DbSection)
    (s1 s2 : DbSection) (h1 : s1 ∈ secs1) (h2 : s2 ∈ secs2)
    (hk1 : s1.pruefidentifikator ∉ secs2.map DbSection.pruefidentifikator)
    (hk2 : s2.pruefidentifikator ∉ secs1.map DbSection.pruefidentifikator) :
    (((compareDocuments secs1 secs2).sectionDiffs.filter
        (fun d => d.pruefidentifikator == s1.pruefidentifikator)).map
        SectionDiff.type = [DiffType.removed]) ∧
    (((compareDocuments secs1 secs2).sectionDiffs.filter
        (fun d => d.pruefidentifikator == s2.pruefidentifikator)).map
        SectionDiff.type = [DiffType.added]) := by
  have hdiffs : (compareDocuments secs1 secs2).sectionDiffs =
      sortDiffs ((firstDedup (sectionKeys secs1 ++ sectionKeys secs2)).map
        (sectionDiffFor secs1 secs2)) := rfl
  have hnd : (firstDedup (sectionKeys secs1 ++ sectionKeys secs2)).Nodup :=
    firstDedup_nodup _
  constructor
  · obtain ⟨sA, hfA⟩ : ∃ s, findSection secs1 s1.pruefidentifikator = some s := by
      cases hf : findSection secs1 s1.pruefidentifikator with
      | some s => exact ⟨s, rfl⟩
      | none =>
        unfold findSection at hf
        rw [List.find?_eq_none] at hf
        exact absurd (by simp) (hf s1 h1)
    have hfB : findSection secs2 s1.pruefidentifikator = none := by
      unfold findSection
      rw [List.find?_eq_none]
      intro x hx hbe
      exact hk1 (List.mem_map.mpr ⟨x, hx, by simpa using hbe⟩)
    have hd1 : sectionDiffFor secs1 secs2 s1.pruefidentifikator =
        .removed s1.pruefidentifikator sA
          (sA.rows.map (fun r => .removed none r)) := by
      unfold sectionDiffFor
      rw [hfA, hfB]
    have hmem1 : s1.pruefidentifikator ∈
        firstDedup (sectionKeys secs1 ++ sectionKeys secs2) := by
      rw [mem_firstDedup]
      refine List.mem_append_left _ ?_
      unfold sectionKeys
      rw [mem_firstDedup]
      exact List.mem_map.mpr ⟨s1, h1, rfl⟩
    have hfilter := map_filter_pruef (sectionDiffFor secs1 secs2)
      (sectionDiffFor_pruef secs1 secs2) s1.pruefidentifikator _ hnd
    rw [if_pos hmem1, hd1] at hfilter
    rw [hdiffs, filter_sortDiffs_single _ _ _ hfilter]
    rfl
  · obtain ⟨sB, hfB⟩ : ∃ s, findSection secs2 s2.pruefidentifikator = some s := by
      cases hf : findSection secs2 s2.pruefidentifikator with
      | some s => exact ⟨s, rfl⟩
      | none =>
        unfold findSection at hf
        rw [List.find?_eq_none] at hf
        exact absurd (by simp) (hf s2 h2)
    have hfA : findSection secs1 s2.pruefidentifikator = none := by
      unfold findSection
      rw [List.find?_eq_none]
      intro x hx hbe
      exact hk2 (List.mem_map.mpr ⟨x, hx, by simpa using hbe⟩)
    have hd2 : sectionDiffFor secs1 secs2 s2.pruefidentifikator =
        .added s2.pruefidentifikator sB
          (sB.rows.map (fun r => .added none r)) := by
      unfold sectionDiffFor
      rw [hfA, hfB]
    have hmem2 : s2.pruefidentifikator ∈
        firstDedup (sectionKeys secs1 ++ sectionKeys secs2) := by
      rw [mem_firstDedup]
      refine List.mem_append_right _ ?_
      unfold sectionKeys
      rw [mem_firstDedup]
      exact List.mem_map.mpr ⟨s2, h2, rfl⟩
    have hfilter := map_filter_pruef (sectionDiffFor secs1 secs2)
      (sectionDiffFor_pruef secs1 secs2) s2.pruefidentifikator _ hnd
    rw [if_pos hmem2, hd2] at hfilter
    rw [hdiffs, filter_sortDiffs_single _ _ _ hfilter]
    rfl

/-- Witness for C1 with the specification's example keys. -/
theorem compareDocuments_partial_overlap_witness :
    (((compareDocuments [⟨"21025,21026,21027", "", "", "", "", []⟩]
        [⟨"21025,21027", "", "", "", "", []⟩]).sectionDiffs.filter
        (fun d => d.pruefidentifikator == "21025,21026,21027")).map
        SectionDiff.type = [DiffType.removed]) ∧
    (((compareDocuments [⟨"21025,21026,21027", "", "", "", "", []⟩]
        [⟨"21025,21027", "", "", "", "", []⟩]).sectionDiffs.filter
        (fun d => d.pruefidentifikator == "21025,21027")).map
        SectionDiff.type = [DiffType.added]) :=
  compareDocuments_partial_overlap
    [⟨"21025,21026,21027", "", "", "", "", []⟩]
    [⟨"21025,21027", "", "", "", "", []⟩]
    ⟨"21025,21026,21027", "", "", "", "", []⟩
    ⟨"21025,21027", "", "", "", "", []⟩
    (by simp) (by simp) (by simp) (by simp)

/-! ## C2: comparing a document with itself -/

theorem firstDedup_filter {α : Type} [DecidableEq α] (p : α → Bool) :
    ∀ l : List α, firstDedup (l.filter p) = (firstDedup l).filter p := by
  intro l
  induction l with
  | nil => rfl
  | cons a l ih =>
    rw [List.filter_cons, firstDedup]
    cases hpa : p a with
    | true =>
      rw [if_pos rfl, firstDedup, ih, List.filter_cons, if_pos (by rw [hpa]),
        List.filter_filter, List.filter_filter]
      congr 1
      exact List.filter_congr fun x _ => Bool.and_comm _ _
    | false =>
      rw [if_neg Bool.false_ne_true, ih, List.filter_cons,
        if_neg (by rw [hpa]; exact Bool.false_ne_true), List.filter_filter]
      refine (List.filter_congr fun x _ => ?_).symm
      cases hpx : p x with
      | false => rw [Bool.false_and]
      | true =>
        rw [Bool.true_and]
        have hxa : x ≠ a := fun hxa => by
          rw [hxa, hpa] at hpx
          exact absurd hpx (by simp)
        simp [hxa]

theorem firstDedup_append_of_subset {α : Type} [DecidableEq α] :
    ∀ K L : List α, K.Nodup → (∀ x ∈ L, x ∈ K) → firstDedup (K ++ L) = K := by
  intro K
  induction K with
  | nil =>
    intro L _ hsub
    have : L = [] :=
      List.eq_nil_iff_forall_not_mem.mpr fun x hx => by simpa using hsub x hx
    simp [this, firstDedup]
  | cons a K ih =>
    intro L hnd hsub
    rcases List.nodup_cons.mp hnd with ⟨ha, hnd'⟩
    rw [List.cons_append, firstDedup]
    congr 1
    rw [← firstDedup_filter, List.filter_append]
    have hK : K.filter (fun x => decide (x ≠ a)) = K :=
      List.filter_eq_self.mpr fun x hx => by
        simp only [decide_eq_true_eq]
        exact fun h => ha (h ▸ hx)
    rw [hK]
    refine ih (L.filter (fun x => decide (x ≠ a))) hnd' fun x hx => ?_
    rcases List.mem_filter.mp hx with ⟨hxL, hxa⟩
    rcases List.mem_cons.mp (hsub x hxL) with h' | h'
    · exact absurd h' (by simpa using hxa)
    · exact h'


theorem diffRowFields_self (r : Row) : diffRowFields r r = [] := by
  simp [diffRowFields, textChange, structChange]

theorem pairDiff_self (k : String) (r : Row) : pairDiff k r r = .unchanged k r := by
  unfold pairDiff
  simp [diffRowFields_self]

theorem compareLists_self_unchanged (k : String) :
    ∀ l d, d ∈ compareLists k l l → d.type = DiffType.unchanged := by
  intro l
  induction l with
  | nil => intro d hd; simp [compareLists] at hd
  | cons r t ih =>
    intro d hd
    rw [compareLists_cons_cons] at hd
    rcases List.mem_cons.mp hd with h | hd
    · rw [h, pairDiff_self]; rfl
    · exact ih d hd

theorem compareRows_self_unchanged (rows : List Row) (d : RowDiff)
    (hd : d ∈ compareRows rows rows) : d.type = DiffType.unchanged := by
  rcases List.mem_flatMap.mp hd with ⟨k, -, hdk⟩
  exact compareLists_self_unchanged k _ d hdk

theorem checkMetaChanges_self (s : DbSection) : checkMetaChanges s s = false := by
  simp [checkMetaChanges]

theorem sectionDiffFor_self (secs : List DbSection) (k : String)
    (hk : ∃ s ∈ secs, s.pruefidentifikator = k) :
    (sectionDiffFor secs secs k).type = DiffType.unchanged ∧
    ∀ rd ∈ (sectionDiffFor secs secs k).rows, rd.type = DiffType.unchanged := by
  obtain ⟨s0, hs0, hs0k⟩ := hk
  obtain ⟨s, hf⟩ : ∃ s, findSection secs k = some s := by
    cases hf : findSection secs k with
    | some s => exact ⟨s, rfl⟩
    | none =>
      unfold findSection at hf
      rw [List.find?_eq_none] at hf
      exact absurd (by simp [hs0k]) (hf s0 hs0)
  have hchanges : (compareRows s.rows s.rows).any
      (fun d => decide (d.type ≠ DiffType.unchanged)) = false := by
    rw [List.any_eq_false]
    intro d hd
    simp [compareRows_self_unchanged s.rows d hd]
  unfold sectionDiffFor
  rw [hf]
  constructor
  · simp only [SectionDiff.type, hchanges, checkMetaChanges_self, Bool.or_self]
    rfl
  · intro rd hrd
    simp only [SectionDiff.rows] at hrd
    exact compareRows_self_unchanged s.rows rd hrd

theorem mem_sortDiffs {d : SectionDiff} {l : List SectionDiff}
    (h : d ∈ sortDiffs l) : d ∈ l := by
  unfold sortDiffs at h
  rcases List.mem_append.mp h with h | h
  · rcases List.mem_append.mp h with h | h
    · rcases List.mem_append.mp h with h | h <;> exact (List.mem_filter.mp h).1
    · exact (List.mem_filter.mp h).1
  · exact (List.mem_filter.mp h).1

/-- C2 counterexample: a document with two sections sharing the key
`"21025"` has 2 sections in total, but diffing it against itself yields
`unchanged = 1` (duplicate keys are collapsed by `buildPruefMap`), so
`unchanged` is not the total section count. -/
theorem compareDocuments_self_total_count_counterexample :
    ([⟨"21025", "", "", "", "", []⟩, ⟨"21025", "x", "", "", "", []⟩] :
        List DbSection).length = 2 ∧
    (compareDocuments
        [⟨"21025", "", "", "", "", []⟩, ⟨"21025", "x", "", "", "", []⟩]
        [⟨"21025", "", "", "", "", []⟩, ⟨"21025", "x", "", "", "", []⟩]).summary
      = ⟨0, 0, 0, 1⟩ := by
  constructor
  · rfl
  · rfl

/-- C2 amended: diffing a document against an identical copy of itself
yields `summary = {added:0, removed:0, modified:0, unchanged:N}` where `N`
is the number of distinct section keys (which equals the total section count
exactly when no `pruefidentifikator` key repeats within the document), and
every section diff and every row diff it contains is `unchanged`. -/
theorem compareDocuments_self_identity (secs : List DbSection) :
    (compareDocuments secs secs).summary =
      ⟨0, 0, 0, (sectionKeys secs).length⟩ ∧
    ((compareDocuments secs secs).sectionDiffs.all
      (fun sd => (sd.type == DiffType.unchanged) &&
        sd.rows.all (fun rd => rd.type == DiffType.unchanged)) = true) := by
  have hkeys : firstDedup (sectionKeys secs ++ sectionKeys secs) =
      sectionKeys secs := by
    refine firstDedup_append_of_subset _ _ (firstDedup_nodup _) fun x hx => hx
  have hall : ∀ d ∈ (firstDedup (sectionKeys secs ++ sectionKeys secs)).map
      (sectionDiffFor secs secs),
      d.type = DiffType.unchanged ∧
        ∀ rd ∈ d.rows, rd.type = DiffType.unchanged := by
    intro d hd
    rcases List.mem_map.mp hd with ⟨k, hkmem, rfl⟩
    refine sectionDiffFor_self secs k ?_
    rw [hkeys] at hkmem
    unfold sectionKeys at hkmem
    rw [mem_firstDedup] at hkmem
    rcases List.mem_map.mp hkmem with ⟨s, hs, hsk⟩
    exact ⟨s, hs, hsk⟩
  constructor
  · have hzero : ∀ t : DiffType, t ≠ DiffType.unchanged →
        countType ((firstDedup (sectionKeys secs ++ sectionKeys secs)).map
          (sectionDiffFor secs secs)) t = 0 := by
      intro t ht
      unfold countType
      rw [List.filter_eq_nil_iff.mpr, List.length_nil]
      intro d hd
      rw [(hall d hd).1]
      simp [Ne.symm ht]
    have hfull : countType ((firstDedup (sectionKeys secs ++ sectionKeys secs)).map
        (sectionDiffFor secs secs)) DiffType.unchanged =
        (sectionKeys secs).length := by
      unfold countType
      rw [List.filter_eq_self.mpr, List.length_map, hkeys]
      intro d hd
      rw [(hall d hd).1]
      rfl
    show Summary.mk _ _ _ _ = _
    rw [hzero DiffType.added (by simp), hzero DiffType.removed (by simp),
      hzero DiffType.modified (by simp), hfull]
  · rw [List.all_eq_true]
    intro sd hsd
    have hmem : sd ∈ (firstDedup (sectionKeys secs ++ sectionKeys secs)).map
        (sectionDiffFor secs secs) := mem_sortDiffs hsd
    rcases hall sd hmem with ⟨htype, hrows⟩
    rw [Bool.and_eq_true, htype]
    refine ⟨rfl, ?_⟩
    rw [List.all_eq_true]
    intro rd hrd
    rw [hrows rd hrd]
    rfl

/-! ## C4: idempotence of `normalizeForComparison`

The proof shows that every stage of the pipeline leaves the pipeline's final
output unchanged.  The key observables of the match attempts are the first
and second non-space characters (`fns`, `sns`), which every scanner
preserves; the slash scanners additionally admit a local characterization of
their fixed points (`Good` predicates over all suffixes), while the
word-hyphen scanner `step5` is handled by a direct inversion of its scan. -/

theorem word_not_space {c : Char} (h : isWordChar c = true) :
    isJsSpace c = false := by
  unfold isWordChar at h
  unfold isJsSpace
  simp only [Bool.or_eq_true, Bool.and_eq_true, decide_eq_true_eq,
    beq_iff_eq] at h
  simp only [Bool.or_eq_false_iff, Bool.and_eq_false_iff, decide_eq_false_iff_not,
    beq_eq_false_iff_ne, ne_eq]
  omega

theorem word_ne_dash {c : Char} (h : isWordChar c = true) : c ≠ '-' := by
  intro hc
  subst hc
  simp [isWordChar] at h

theorem word_ne_slash {c : Char} (h : isWordChar c = true) : c ≠ '/' := by
  intro hc
  subst hc
  simp [isWordChar] at h

theorem word_ne_space_char {c : Char} (h : isWordChar c = true) : c ≠ ' ' := by
  intro hc
  subst hc
  simp [isWordChar] at h

/-- The first non-space character of a list, if any. -/
def fns (l : List Char) : Option Char := (l.dropWhile isJsSpace).head?

/-- The second non-space character of a list, if any. -/
def sns (l : List Char) : Option Char :=
  match l.dropWhile isJsSpace with
  | _ :: r => fns r
  | [] => none

theorem dropWhile_cons_neg {p : Char → Bool} {c : Char} {l : List Char}
    (h : p c = false) : (c :: l).dropWhile p = c :: l := by
  rw [List.dropWhile_cons, h]
  rfl

theorem dropWhile_cons_pos {p : Char → Bool} {c : Char} {l : List Char}
    (h : p c = true) : (c :: l).dropWhile p = l.dropWhile p := by
  rw [List.dropWhile_cons, h]
  rfl

theorem fns_cons_space {c : Char} {l : List Char} (h : isJsSpace c = true) :
    fns (c :: l) = fns l := by
  unfold fns
  rw [dropWhile_cons_pos h]

theorem fns_cons_nonspace {c : Char} {l : List Char} (h : isJsSpace c = false) :
    fns (c :: l) = some c := by
  unfold fns
  rw [dropWhile_cons_neg h]
  rfl

theorem sns_cons_space {c : Char} {l : List Char} (h : isJsSpace c = true) :
    sns (c :: l) = sns l := by
  unfold sns
  rw [dropWhile_cons_pos h]

theorem sns_cons_nonspace {c : Char} {l : List Char} (h : isJsSpace c = false) :
    sns (c :: l) = fns l := by
  unfold sns
  rw [dropWhile_cons_neg h]

theorem fns_append_spaces {ws : List Char} (hws : ∀ c ∈ ws, isJsSpace c = true)
    (z : List Char) : fns (ws ++ z) = fns z := by
  induction ws with
  | nil => rfl
  | cons c ws ih =>
    rw [List.cons_append, fns_cons_space (hws c (List.mem_cons_self c ws))]
    exact ih fun d hd => hws d (List.mem_cons_of_mem c hd)

theorem sns_append_spaces {ws : List Char} (hws : ∀ c ∈ ws, isJsSpace c = true)
    (z : List Char) : sns (ws ++ z) = sns z := by
  induction ws with
  | nil => rfl
  | cons c ws ih =>
    rw [List.cons_append, sns_cons_space (hws c (List.mem_cons_self c ws))]
    exact ih fun d hd => hws d (List.mem_cons_of_mem c hd)

theorem fns_all_spaces {ws : List Char} (hws : ∀ c ∈ ws, isJsSpace c = true) :
    fns ws = none := by
  have := fns_append_spaces hws []
  simpa using this

theorem head_nonspace_of_dropWhile {l r : List Char} {c : Char}
    (h : l.dropWhile isJsSpace = c :: r) : isJsSpace c = false := by
  have := List.head?_dropWhile_not isJsSpace l
  rw [h] at this
  simpa using this

/-- Decomposition of a list along its leading space run. -/
theorem dropWhile_decomp {l z : List Char}
    (h : l.dropWhile isJsSpace = z) :
    ∃ ws, (∀ c ∈ ws, isJsSpace c = true) ∧ l = ws ++ z := by
  refine ⟨l.takeWhile isJsSpace, fun c hc => List.mem_takeWhile_imp hc, ?_⟩
  rw [← h, List.takeWhile_append_dropWhile]

/-! ### Matcher facts -/

theorem tryHyphen_length {l t : List Char} {w : Char}
    (h : tryHyphen l = some (w, t)) : t.length + 2 ≤ l.length := by
  unfold tryHyphen at h
  split at h
  · rename_i l2 hd
    split at h
    · rename_i w' t' hd2
      split at h
      · have h1 : ('-' :: l2).length ≤ l.length := by
          rw [← hd]; exact (List.dropWhile_sublist _).length_le
        have h2 : (w' :: t').length ≤ l2.length := by
          rw [← hd2]; exact (List.dropWhile_sublist _).length_le
        obtain ⟨rfl, rfl⟩ : w' = w ∧ t' = t := by
          cases h; exact ⟨rfl, rfl⟩
        simp only [List.length_cons] at h1 h2
        omega
      · cases h
    · cases h
  · cases h

theorem tryHyphen_decomp {l t : List Char} {w : Char}
    (h : tryHyphen l = some (w, t)) :
    isWordChar w = true ∧
    ∃ ws1 ws2, (∀ c ∈ ws1, isJsSpace c = true) ∧
      (∀ c ∈ ws2, isJsSpace c = true) ∧ l = ws1 ++ '-' :: (ws2 ++ w :: t) := by
  unfold tryHyphen at h
  split at h
  · rename_i l2 hd
    split at h
    · rename_i w' t' hd2
      split at h
      · rename_i hw
        obtain ⟨rfl, rfl⟩ : w' = w ∧ t' = t := by cases h; exact ⟨rfl, rfl⟩
        obtain ⟨ws1, hws1, hl⟩ := dropWhile_decomp hd
        obtain ⟨ws2, hws2, hl2⟩ := dropWhile_decomp hd2
        exact ⟨hw, ws1, ws2, hws1, hws2, by rw [hl, hl2]⟩
      · cases h
    · cases h
  · cases h

theorem tryHyphen_compute {w : Char} (t : List Char) (hw : isWordChar w = true) :
    tryHyphen ('-' :: w :: t) = some (w, t) := by
  unfold tryHyphen
  rw [dropWhile_cons_neg (show isJsSpace '-' = false by decide)]
  show (match List.dropWhile isJsSpace (w :: t) with
        | w' :: t' => if isWordChar w' = true then some (w', t') else none
        | [] => none) = some (w, t)
  rw [dropWhile_cons_neg (word_not_space hw)]
  show (if isWordChar w = true then some (w, t) else none) = some (w, t)
  rw [hw]
  rfl

theorem tryHyphen_none_iff (l : List Char) :
    tryHyphen l = none ↔
      ¬(fns l = some '-' ∧ ∃ w, sns l = some w ∧ isWordChar w = true) := by
  unfold tryHyphen
  split
  · rename_i l2 hd
    have hfns : fns l = some '-' := by unfold fns; rw [hd]; rfl
    have hsns : sns l = fns l2 := by unfold sns; rw [hd]
    split
    · rename_i w t hd2
      have hfl2 : fns l2 = some w := by unfold fns; rw [hd2]; rfl
      by_cases hw : isWordChar w = true
      · rw [if_pos hw]
        simp [hfns, hsns, hfl2, hw]
      · rw [if_neg hw]
        simp [hfns, hsns, hfl2, hw]
    · rename_i hd2
      have hfl2 : fns l2 = none := by unfold fns; rw [hd2]; rfl
      simp [hfns, hsns, hfl2]
  · rename_i hne
    cases hd : l.dropWhile isJsSpace with
    | nil =>
      have hfns : fns l = none := by unfold fns; rw [hd]; rfl
      simp [hfns]
    | cons c l2 =>
      have hcc : c ≠ '-' := by
        intro hcc
        exact hne l2 (by rw [← hcc]; exact hd)
      have hfns : fns l = some c := by unfold fns; rw [hd]; rfl
      simp [hfns, hcc]

theorem try6a_length {l t : List Char} (h : try6a l = some t) :
    t.length + 2 ≤ l.length := by
  unfold try6a at h
  split at h
  · rename_i l2 hd
    split at h
    · rename_i l3 hd2
      have h1 : ('-' :: l2).length ≤ l.length := by
        rw [← hd]; exact (List.dropWhile_sublist _).length_le
      have h2 : ('/' :: l3).length ≤ l2.length := by
        rw [← hd2]; exact (List.dropWhile_sublist _).length_le
      have h3 : t.length ≤ l3.length := by
        cases h; exact (List.dropWhile_sublist _).length_le
      simp only [List.length_cons] at h1 h2
      omega
    · cases h
  · cases h

theorem try6a_decomp {l t : List Char} (h : try6a l = some t) :
    ∃ ws1 ws2 l3, (∀ c ∈ ws1, isJsSpace c = true) ∧
      (∀ c ∈ ws2, isJsSpace c = true) ∧
      l = ws1 ++ '-' :: (ws2 ++ '/' :: l3) ∧ t = l3.dropWhile isJsSpace := by
  unfold try6a at h
  split at h
  · rename_i l2 hd
    split at h
    · rename_i l3 hd2
      obtain ⟨ws1, hws1, hl⟩ := dropWhile_decomp hd
      obtain ⟨ws2, hws2, hl2⟩ := dropWhile_decomp hd2
      cases h
      exact ⟨ws1, ws2, l3, hws1, hws2, by rw [hl, hl2], rfl⟩
    · cases h
  · cases h

theorem try6a_none_iff (l : List Char) :
    try6a l = none ↔ ¬(fns l = some '-' ∧ sns l = some '/') := by
  unfold try6a
  split
  · rename_i l2 hd
    have hfns : fns l = some '-' := by unfold fns; rw [hd]; rfl
    have hsns : sns l = fns l2 := by unfold sns; rw [hd]
    split
    · rename_i l3 hd2
      have hfl2 : fns l2 = some '/' := by unfold fns; rw [hd2]; rfl
      simp [hfns, hsns, hfl2]
    · rename_i hne2
      cases hd2 : l2.dropWhile isJsSpace with
      | nil =>
        have hfl2 : fns l2 = none := by unfold fns; rw [hd2]; rfl
        simp [hfns, hsns, hfl2]
      | cons d l3 =>
        have hdq : d ≠ '/' := by
          intro hdq
          exact hne2 l3 (by rw [← hdq]; exact hd2)
        have hfl2 : fns l2 = some d := by unfold fns; rw [hd2]; rfl
        simp [hfns, hsns, hfl2, hdq]
  · rename_i hne
    cases hd : l.dropWhile isJsSpace with
    | nil =>
      have hfns : fns l = none := by unfold fns; rw [hd]; rfl
      simp [hfns]
    | cons c l2 =>
      have hcc : c ≠ '-' := by
        intro hcc
        exact hne l2 (by rw [← hcc]; exact hd)
      have hfns : fns l = some c := by unfold fns; rw [hd]; rfl
      simp [hfns, hcc]

theorem try6b_length {l t : List Char} (h : try6b l = some t) :
    t.length + 2 ≤ l.length := by
  unfold try6b at h
  split at h
  · rename_i l2 hd
    split at h
    · rename_i l3 hd2
      have h1 : ('/' :: l2).length ≤ l.length := by
        rw [← hd]; exact (List.dropWhile_sublist _).length_le
      have h2 : ('-' :: l3).length ≤ l2.length := by
        rw [← hd2]; exact (List.dropWhile_sublist _).length_le
      have h3 : t.length ≤ l3.length := by
        cases h; exact (List.dropWhile_sublist _).length_le
      simp only [List.length_cons] at h1 h2
      omega
    · cases h
  · cases h

theorem try6b_decomp {l t : List Char} (h : try6b l = some t) :
    ∃ ws1 ws2 l3, (∀ c ∈ ws1, isJsSpace c = true) ∧
      (∀ c ∈ ws2, isJsSpace c = true) ∧
      l = ws1 ++ '/' :: (ws2 ++ '-' :: l3) ∧ t = l3.dropWhile isJsSpace := by
  unfold try6b at h
  split at h
  · rename_i l2 hd
    split at h
    · rename_i l3 hd2
      obtain ⟨ws1, hws1, hl⟩ := dropWhile_decomp hd
      obtain ⟨ws2, hws2, hl2⟩ := dropWhile_decomp hd2
      cases h
      exact ⟨ws1, ws2, l3, hws1, hws2, by rw [hl, hl2], rfl⟩
    · cases h
  · cases h

theorem try6b_none_iff (l : List Char) :
    try6b l = none ↔ ¬(fns l = some '/' ∧ sns l = some '-') := by
  unfold try6b
  split
  · rename_i l2 hd
    have hfns : fns l = some '/' := by unfold fns; rw [hd]; rfl
    have hsns : sns l = fns l2 := by unfold sns; rw [hd]
    split
    · rename_i l3 hd2
      have hfl2 : fns l2 = some '-' := by unfold fns; rw [hd2]; rfl
      simp [hfns, hsns, hfl2]
    · rename_i hne2
      cases hd2 : l2.dropWhile isJsSpace with
      | nil =>
        have hfl2 : fns l2 = none := by unfold fns; rw [hd2]; rfl
        simp [hfns, hsns, hfl2]
      | cons d l3 =>
        have hdq : d ≠ '-' := by
          intro hdq
          exact hne2 l3 (by rw [← hdq]; exact hd2)
        have hfl2 : fns l2 = some d := by unfold fns; rw [hd2]; rfl
        simp [hfns, hsns, hfl2, hdq]
  · rename_i hne
    cases hd : l.dropWhile isJsSpace with
    | nil =>
      have hfns : fns l = none := by unfold fns; rw [hd]; rfl
      simp [hfns]
    | cons c l2 =>
      have hcc : c ≠ '/' := by
        intro hcc
        exact hne l2 (by rw [← hcc]; exact hd)
      have hfns : fns l = some c := by unfold fns; rw [hd]; rfl
      simp [hfns, hcc]

theorem try6c_length {l t : List Char} (h : try6c l = some t) :
    t.length + 1 ≤ l.length := by
  unfold try6c at h
  split at h
  · rename_i l2 hd
    have h1 : ('/' :: l2).length ≤ l.length := by
      rw [← hd]; exact (List.dropWhile_sublist _).length_le
    have h2 : t.length ≤ l2.length := by
      cases h; exact (List.dropWhile_sublist _).length_le
    simp only [List.length_cons] at h1
    omega
  · cases h

theorem try6c_decomp {l t : List Char} (h : try6c l = some t) :
    ∃ ws1 l2, (∀ c ∈ ws1, isJsSpace c = true) ∧
      l = ws1 ++ '/' :: l2 ∧ t = l2.dropWhile isJsSpace := by
  unfold try6c at h
  split at h
  · rename_i l2 hd
    obtain ⟨ws1, hws1, hl⟩ := dropWhile_decomp hd
    cases h
    exact ⟨ws1, l2, hws1, by rw [hl], rfl⟩
  · cases h

theorem try6c_none_iff (l : List Char) :
    try6c l = none ↔ ¬(fns l = some '/') := by
  unfold try6c
  split
  · rename_i l2 hd
    have hfns : fns l = some '/' := by unfold fns; rw [hd]; rfl
    simp [hfns]
  · rename_i hne
    cases hd : l.dropWhile isJsSpace with
    | nil =>
      have hfns : fns l = none := by unfold fns; rw [hd]; rfl
      simp [hfns]
    | cons c l2 =>
      have hcc : c ≠ '/' := by
        intro hcc
        exact hne l2 (by rw [← hcc]; exact hd)
      have hfns : fns l = some c := by unfold fns; rw [hd]; rfl
      simp [hfns, hcc]

/-! ### Fuel irrelevance and clean step equations -/

theorem step5F_fuel (n : Nat) : ∀ f g l, l.length ≤ n → l.length ≤ f →
    l.length ≤ g → step5F f l = step5F g l := by
  induction n with
  | zero =>
    intro f g l hn _ _
    have hl : l = [] := List.eq_nil_of_length_eq_zero (Nat.le_zero.mp hn)
    subst hl
    cases f <;> cases g <;> rfl
  | succ n ih =>
    intro f g l hn hf hg
    cases l with
    | nil => cases f <;> cases g <;> rfl
    | cons c rest =>
      simp only [List.length_cons] at hn hf hg
      obtain ⟨f', rfl⟩ : ∃ f', f = f' + 1 := ⟨f - 1, by omega⟩
      obtain ⟨g', rfl⟩ : ∃ g', g = g' + 1 := ⟨g - 1, by omega⟩
      simp only [step5F]
      by_cases hw : isWordChar c = true
      · rw [if_pos hw, if_pos hw]
        cases hm : tryHyphen rest with
        | none =>
          show c :: step5F f' rest = c :: step5F g' rest
          rw [ih f' g' rest (by omega) (by omega) (by omega)]
        | some wt =>
          obtain ⟨w, t⟩ := wt
          have hlen := tryHyphen_length hm
          show c :: '-' :: w :: step5F f' t = c :: '-' :: w :: step5F g' t
          rw [ih f' g' t (by omega) (by omega) (by omega)]
      · rw [if_neg hw, if_neg hw]
        show c :: step5F f' rest = c :: step5F g' rest
        rw [ih f' g' rest (by omega) (by omega) (by omega)]

theorem step6aF_fuel (n : Nat) : ∀ f g l, l.length ≤ n → l.length ≤ f →
    l.length ≤ g → step6aF f l = step6aF g l := by
  induction n with
  | zero =>
    intro f g l hn _ _
    have hl : l = [] := List.eq_nil_of_length_eq_zero (Nat.le_zero.mp hn)
    subst hl
    cases f <;> cases g <;> rfl
  | succ n ih =>
    intro f g l hn hf hg
    cases l with
    | nil => cases f <;> cases g <;> rfl
    | cons c rest =>
      simp only [List.length_cons] at hn hf hg
      obtain ⟨f', rfl⟩ : ∃ f', f = f' + 1 := ⟨f - 1, by omega⟩
      obtain ⟨g', rfl⟩ : ∃ g', g = g' + 1 := ⟨g - 1, by omega⟩
      simp only [step6aF]
      cases hm : try6a (c :: rest) with
      | none =>
        show c :: step6aF f' rest = c :: step6aF g' rest
        rw [ih f' g' rest (by omega) (by omega) (by omega)]
      | some t =>
        have hlen := try6a_length hm
        rw [List.length_cons] at hlen
        show '-' :: '/' :: step6aF f' t = '-' :: '/' :: step6aF g' t
        rw [ih f' g' t (by omega) (by omega) (by omega)]

theorem step6bF_fuel (n : Nat) : ∀ f g l, l.length ≤ n → l.length ≤ f →
    l.length ≤ g → step6bF f l = step6bF g l := by
  induction n with
  | zero =>
    intro f g l hn _ _
    have hl : l = [] := List.eq_nil_of_length_eq_zero (Nat.le_zero.mp hn)
    subst hl
    cases f <;> cases g <;> rfl
  | succ n ih =>
    intro f g l hn hf hg
    cases l with
    | nil => cases f <;> cases g <;> rfl
    | cons c rest =>
      simp only [List.length_cons] at hn hf hg
      obtain ⟨f', rfl⟩ : ∃ f', f = f' + 1 := ⟨f - 1, by omega⟩
      obtain ⟨g', rfl⟩ : ∃ g', g = g' + 1 := ⟨g - 1, by omega⟩
      simp only [step6bF]
      cases hm : try6b (c :: rest) with
      | none =>
        show c :: step6bF f' rest = c :: step6bF g' rest
        rw [ih f' g' rest (by omega) (by omega) (by omega)]
      | some t =>
        have hlen := try6b_length hm
        rw [List.length_cons] at hlen
        show '/' :: '-' :: step6bF f' t = '/' :: '-' :: step6bF g' t
        rw [ih f' g' t (by omega) (by omega) (by omega)]

theorem step6cF_fuel (n : Nat) : ∀ f g l, l.length ≤ n → l.length ≤ f →
    l.length ≤ g → step6cF f l = step6cF g l := by
  induction n with
  | zero =>
    intro f g l hn _ _
    have hl : l = [] := List.eq_nil_of_length_eq_zero (Nat.le_zero.mp hn)
    subst hl
    cases f <;> cases g <;> rfl
  | succ n ih =>
    intro f g l hn hf hg
    cases l with
    | nil => cases f <;> cases g <;> rfl
    | cons c rest =>
      simp only [List.length_cons] at hn hf hg
      obtain ⟨f', rfl⟩ : ∃ f', f = f' + 1 := ⟨f - 1, by omega⟩
      obtain ⟨g', rfl⟩ : ∃ g', g = g' + 1 := ⟨g - 1, by omega⟩
      simp only [step6cF]
      cases hm : try6c (c :: rest) with
      | none =>
        show c :: step6cF f' rest = c :: step6cF g' rest
        rw [ih f' g' rest (by omega) (by omega) (by omega)]
      | some t =>
        have hlen := try6c_length hm
        rw [List.length_cons] at hlen
        show '/' :: step6cF f' t = '/' :: step6cF g' t
        rw [ih f' g' t (by omega) (by omega) (by omega)]

theorem collapseF_fuel (n : Nat) : ∀ f g l, l.length ≤ n → l.length ≤ f →
    l.length ≤ g → collapseF f l = collapseF g l := by
  induction n with
  | zero =>
    intro f g l hn _ _
    have hl : l = [] := List.eq_nil_of_length_eq_zero (Nat.le_zero.mp hn)
    subst hl
    cases f <;> cases g <;> rfl
  | succ n ih =>
    intro f g l hn hf hg
    cases l with
    | nil => cases f <;> cases g <;> rfl
    | cons c rest =>
      simp only [List.length_cons] at hn hf hg
      obtain ⟨f', rfl⟩ : ∃ f', f = f' + 1 := ⟨f - 1, by omega⟩
      obtain ⟨g', rfl⟩ : ∃ g', g = g' + 1 := ⟨g - 1, by omega⟩
      simp only [collapseF]
      by_cases hcc : (c == ' ' && rest.head? == some ' ') = true
      · rw [if_pos hcc, if_pos hcc]
        have h1 : ((rest.drop 1).dropWhile (· == ' ')).length ≤ (rest.drop 1).length :=
          (List.dropWhile_sublist _).length_le
        have h2 : (rest.drop 1).length = rest.length - 1 := by
          rw [List.length_drop]
        show ' ' :: collapseF f' ((rest.drop 1).dropWhile (· == ' ')) =
          ' ' :: collapseF g' ((rest.drop 1).dropWhile (· == ' '))
        rw [ih f' g' ((rest.drop 1).dropWhile (· == ' ')) (by omega) (by omega) (by omega)]
      · rw [if_neg hcc, if_neg hcc]
        show c :: collapseF f' rest = c :: collapseF g' rest
        rw [ih f' g' rest (by omega) (by omega) (by omega)]

theorem step5_nil : step5 [] = [] := rfl

theorem step5_cons_nonword {c : Char} (h : isWordChar c = false) (l : List Char) :
    step5 (c :: l) = c :: step5 l := by
  show step5F (l.length + 1) (c :: l) = c :: step5F l.length l
  simp only [step5F]
  rw [if_neg (by rw [h]; exact Bool.false_ne_true)]

theorem step5_cons_word_none {c : Char} {l : List Char} (hc : isWordChar c = true)
    (h : tryHyphen l = none) : step5 (c :: l) = c :: step5 l := by
  show step5F (l.length + 1) (c :: l) = c :: step5F l.length l
  simp only [step5F]
  rw [if_pos hc, h]

theorem step5_cons_word_some {c w : Char} {l t : List Char} (hc : isWordChar c = true)
    (h : tryHyphen l = some (w, t)) : step5 (c :: l) = c :: '-' :: w :: step5 t := by
  have hlen := tryHyphen_length h
  show step5F (l.length + 1) (c :: l) = c :: '-' :: w :: step5F t.length t
  simp only [step5F]
  rw [if_pos hc, h]
  show c :: '-' :: w :: step5F l.length t = c :: '-' :: w :: step5F t.length t
  rw [step5F_fuel t.length l.length t.length t (le_refl _) (by omega) (le_refl _)]

theorem step6a_nil : step6a [] = [] := rfl

theorem step6a_cons_none {c : Char} {l : List Char} (h : try6a (c :: l) = none) :
    step6a (c :: l) = c :: step6a l := by
  show step6aF (l.length + 1) (c :: l) = c :: step6aF l.length l
  simp only [step6aF]
  rw [h]

theorem step6a_cons_some {c : Char} {l t : List Char} (h : try6a (c :: l) = some t) :
    step6a (c :: l) = '-' :: '/' :: step6a t := by
  have hlen := try6a_length h
  rw [List.length_cons] at hlen
  show step6aF (l.length + 1) (c :: l) = '-' :: '/' :: step6aF t.length t
  simp only [step6aF]
  rw [h]
  show '-' :: '/' :: step6aF l.length t = '-' :: '/' :: step6aF t.length t
  rw [step6aF_fuel t.length l.length t.length t (le_refl _) (by omega) (le_refl _)]

theorem step6b_nil : step6b [] = [] := rfl

theorem step6b_cons_none {c : Char} {l : List Char} (h : try6b (c :: l) = none) :
    step6b (c :: l) = c :: step6b l := by
  show step6bF (l.length + 1) (c :: l) = c :: step6bF l.length l
  simp only [step6bF]
  rw [h]

theorem step6b_cons_some {c : Char} {l t : List Char} (h : try6b (c :: l) = some t) :
    step6b (c :: l) = '/' :: '-' :: step6b t := by
  have hlen := try6b_length h
  rw [List.length_cons] at hlen
  show step6bF (l.length + 1) (c :: l) = '/' :: '-' :: step6bF t.length t
  simp only [step6bF]
  rw [h]
  show '/' :: '-' :: step6bF l.length t = '/' :: '-' :: step6bF t.length t
  rw [step6bF_fuel t.length l.length t.length t (le_refl _) (by omega) (le_refl _)]

theorem step6c_nil : step6c [] = [] := rfl

theorem step6c_cons_none {c : Char} {l : List Char} (h : try6c (c :: l) = none) :
    step6c (c :: l) = c :: step6c l := by
  show step6cF (l.length + 1) (c :: l) = c :: step6cF l.length l
  simp only [step6cF]
  rw [h]

theorem step6c_cons_some {c : Char} {l t : List Char} (h : try6c (c :: l) = some t) :
    step6c (c :: l) = '/' :: step6c t := by
  have hlen := try6c_length h
  rw [List.length_cons] at hlen
  show step6cF (l.length + 1) (c :: l) = '/' :: step6cF t.length t
  simp only [step6cF]
  rw [h]
  show '/' :: step6cF l.length t = '/' :: step6cF t.length t
  rw [step6cF_fuel t.length l.length t.length t (le_refl _) (by omega) (le_refl _)]

theorem collapse_nil : collapseSpaces [] = [] := rfl

theorem collapse_cons_pos {c : Char} {l : List Char}
    (h : (c == ' ' && l.head? == some ' ') = true) :
    collapseSpaces (c :: l) = ' ' :: collapseSpaces ((l.drop 1).dropWhile (· == ' ')) := by
  have h1 : ((l.drop 1).dropWhile (· == ' ')).length ≤ (l.drop 1).length :=
    (List.dropWhile_sublist _).length_le
  have h2 : (l.drop 1).length = l.length - 1 := by rw [List.length_drop]
  show collapseF (l.length + 1) (c :: l) =
    ' ' :: collapseF ((l.drop 1).dropWhile (· == ' ')).length ((l.drop 1).dropWhile (· == ' '))
  simp only [collapseF]
  rw [if_pos h]
  show ' ' :: collapseF l.length ((l.drop 1).dropWhile (· == ' ')) = _
  rw [collapseF_fuel ((l.drop 1).dropWhile (· == ' ')).length l.length
    ((l.drop 1).dropWhile (· == ' ')).length ((l.drop 1).dropWhile (· == ' '))
    (le_refl _) (by omega) (le_refl _)]

theorem collapse_cons_neg {c : Char} {l : List Char}
    (h : (c == ' ' && l.head? == some ' ') = false) :
    collapseSpaces (c :: l) = c :: collapseSpaces l := by
  show collapseF (l.length + 1) (c :: l) = c :: collapseF l.length l
  simp only [collapseF]
  rw [if_neg (by rw [h]; exact Bool.false_ne_true)]

/-! ### The non-space projection is preserved by every scanner -/

theorem isJsSpace_dash : isJsSpace '-' = false := by decide

theorem isJsSpace_slash : isJsSpace '/' = false := by decide

theorem isJsSpace_blank : isJsSpace ' ' = true := by decide

theorem dropWhile_decomp_run {p : Char → Bool} {l z : List Char}
    (h : l.dropWhile p = z) :
    ∃ ws, (∀ c ∈ ws, p c = true) ∧ l = ws ++ z := by
  refine ⟨l.takeWhile p, fun c hc => List.mem_takeWhile_imp hc, ?_⟩
  rw [← h, List.takeWhile_append_dropWhile]

theorem filter_spaces_nil {ws : List Char} (hws : ∀ c ∈ ws, isJsSpace c = true) :
    ws.filter (fun c => !isJsSpace c) = [] := by
  rw [List.filter_eq_nil_iff]
  intro c hc
  simp [hws c hc]

theorem fns_eq_filter_head (l : List Char) :
    fns l = (l.filter (fun c => !isJsSpace c)).head? := by
  induction l with
  | nil => rfl
  | cons c l ih =>
    cases hc : isJsSpace c with
    | true =>
      rw [fns_cons_space hc]
      simp [List.filter_cons, hc, ih]
    | false =>
      rw [fns_cons_nonspace hc]
      simp [List.filter_cons, hc]

theorem sns_eq_filter (l : List Char) :
    sns l = ((l.filter (fun c => !isJsSpace c)).drop 1).head? := by
  induction l with
  | nil => rfl
  | cons c l ih =>
    cases hc : isJsSpace c with
    | true =>
      rw [sns_cons_space hc]
      simp [List.filter_cons, hc, ih]
    | false =>
      rw [sns_cons_nonspace hc]
      simp [List.filter_cons, hc, fns_eq_filter_head]

theorem filter_step5 (l : List Char) :
    (step5 l).filter (fun c => !isJsSpace c) = l.filter (fun c => !isJsSpace c) := by
  have H : ∀ n l, l.length ≤ n →
      (step5 l).filter (fun c => !isJsSpace c) = l.filter (fun c => !isJsSpace c) := by
    intro n
    induction n with
    | zero =>
      intro l hl
      have : l = [] := List.eq_nil_of_length_eq_zero (Nat.le_zero.mp hl)
      subst this
      rfl
    | succ n ih =>
      intro l hl
      cases l with
      | nil => rfl
      | cons c rest =>
        rw [List.length_cons] at hl
        by_cases hw : isWordChar c = true
        · cases hm : tryHyphen rest with
          | none =>
            rw [step5_cons_word_none hw hm, List.filter_cons, List.filter_cons,
              ih rest (by omega)]
          | some wt =>
            obtain ⟨w, t⟩ := wt
            have hlen := tryHyphen_length hm
            obtain ⟨hww, ws1, ws2, hws1, hws2, hrest⟩ := tryHyphen_decomp hm
            rw [step5_cons_word_some hw hm, hrest]
            simp [List.filter_cons, List.filter_append, filter_spaces_nil hws1,
              filter_spaces_nil hws2, ih t (by omega), word_not_space hw,
              word_not_space hww, isJsSpace_dash]
        · have hw' : isWordChar c = false := by simpa using hw
          rw [step5_cons_nonword hw', List.filter_cons, List.filter_cons,
            ih rest (by omega)]
  exact H l.length l (le_refl _)

theorem filter_step6a (l : List Char) :
    (step6a l).filter (fun c => !isJsSpace c) = l.filter (fun c => !isJsSpace c) := by
  have H : ∀ n l, l.length ≤ n →
      (step6a l).filter (fun c => !isJsSpace c) = l.filter (fun c => !isJsSpace c) := by
    intro n
    induction n with
    | zero =>
      intro l hl
      have : l = [] := List.eq_nil_of_length_eq_zero (Nat.le_zero.mp hl)
      subst this
      rfl
    | succ n ih =>
      intro l hl
      cases l with
      | nil => rfl
      | cons c rest =>
        rw [List.length_cons] at hl
        cases hm : try6a (c :: rest) with
        | none =>
          rw [step6a_cons_none hm, List.filter_cons, List.filter_cons,
            ih rest (by omega)]
        | some t =>
          have hlen := try6a_length hm
          rw [List.length_cons] at hlen
          obtain ⟨ws1, ws2, l3, hws1, hws2, heq, ht⟩ := try6a_decomp hm
          obtain ⟨ws3, hws3, hl3⟩ := dropWhile_decomp ht.symm
          rw [step6a_cons_some hm, heq, hl3]
          simp [List.filter_cons, List.filter_append, filter_spaces_nil hws1,
            filter_spaces_nil hws2, filter_spaces_nil hws3, ih t (by omega),
            isJsSpace_dash, isJsSpace_slash]
  exact H l.length l (le_refl _)

theorem filter_step6b (l : List Char) :
    (step6b l).filter (fun c => !isJsSpace c) = l.filter (fun c => !isJsSpace c) := by
  have H : ∀ n l, l.length ≤ n →
      (step6b l).filter (fun c => !isJsSpace c) = l.filter (fun c => !isJsSpace c) := by
    intro n
    induction n with
    | zero =>
      intro l hl
      have : l = [] := List.eq_nil_of_length_eq_zero (Nat.le_zero.mp hl)
      subst this
      rfl
    | succ n ih =>
      intro l hl
      cases l with
      | nil => rfl
      | cons c rest =>
        rw [List.length_cons] at hl
        cases hm : try6b (c :: rest) with
        | none =>
          rw [step6b_cons_none hm, List.filter_cons, List.filter_cons,
            ih rest (by omega)]
        | some t =>
          have hlen := try6b_length hm
          rw [List.length_cons] at hlen
          obtain ⟨ws1, ws2, l3, hws1, hws2, heq, ht⟩ := try6b_decomp hm
          obtain ⟨ws3, hws3, hl3⟩ := dropWhile_decomp ht.symm
          rw [step6b_cons_some hm, heq, hl3]
          simp [List.filter_cons, List.filter_append, filter_spaces_nil hws1,
            filter_spaces_nil hws2, filter_spaces_nil hws3, ih t (by omega),
            isJsSpace_dash, isJsSpace_slash]
  exact H l.length l (le_refl _)

theorem filter_step6c (l : List Char) :
    (step6c l).filter (fun c => !isJsSpace c) = l.filter (fun c => !isJsSpace c) := by
  have H : ∀ n l, l.length ≤ n →
      (step6c l).filter (fun c => !isJsSpace c) = l.filter (fun c => !isJsSpace c) := by
    intro n
    induction n with
    | zero =>
      intro l hl
      have : l = [] := List.eq_nil_of_length_eq_zero (Nat.le_zero.mp hl)
      subst this
      rfl
    | succ n ih =>
      intro l hl
      cases l with
      | nil => rfl
      | cons c rest =>
        rw [List.length_cons] at hl
        cases hm : try6c (c :: rest) with
        | none =>
          rw [step6c_cons_none hm, List.filter_cons, List.filter_cons,
            ih rest (by omega)]
        | some t =>
          have hlen := try6c_length hm
          rw [List.length_cons] at hlen
          obtain ⟨ws1, l2, hws1, heq, ht⟩ := try6c_decomp hm
          obtain ⟨ws2, hws2, hl2⟩ := dropWhile_decomp ht.symm
          rw [step6c_cons_some hm, heq, hl2]
          simp [List.filter_cons, List.filter_append, filter_spaces_nil hws1,
            filter_spaces_nil hws2, ih t (by omega), isJsSpace_slash]
  exact H l.length l (le_refl _)

theorem filter_collapse (l : List Char) :
    (collapseSpaces l).filter (fun c => !isJsSpace c) = l.filter (fun c => !isJsSpace c) := by
  have H : ∀ n l, l.length ≤ n →
      (collapseSpaces l).filter (fun c => !isJsSpace c) =
        l.filter (fun c => !isJsSpace c) := by
    intro n
    induction n with
    | zero =>
      intro l hl
      have : l = [] := List.eq_nil_of_length_eq_zero (Nat.le_zero.mp hl)
      subst this
      rfl
    | succ n ih =>
      intro l hl
      cases l with
      | nil => rfl
      | cons c rest =>
        rw [List.length_cons] at hl
        by_cases hcc : (c == ' ' && rest.head? == some ' ') = true
        · rw [collapse_cons_pos hcc]
          rw [Bool.and_eq_true] at hcc
          obtain ⟨hc1, hc2⟩ := hcc
          have hc : c = ' ' := by simpa using hc1
          subst hc
          obtain ⟨run, hrun, hdrop⟩ :=
            dropWhile_decomp_run (rfl :
              (rest.drop 1).dropWhile (· == ' ') = (rest.drop 1).dropWhile (· == ' '))
          have hrun' : ∀ d ∈ run, isJsSpace d = true := by
            intro d hd
            have : (d == ' ') = true := hrun d hd
            have : d = ' ' := by simpa using this
            rw [this]
            exact isJsSpace_blank
          cases rest with
          | nil => simp at hc2
          | cons d rest2 =>
            have hd : d = ' ' := by simpa using hc2
            subst hd
            have hdrop2 : rest2 = run ++ (rest2.dropWhile (· == ' ')) := by
              simpa using hdrop
            have hlen2 : ((rest2.dropWhile (· == ' '))).length ≤ rest2.length :=
              (List.dropWhile_sublist _).length_le
            rw [List.length_cons] at hl
            calc ((' ' :: collapseSpaces (((' ' :: rest2).drop 1).dropWhile (· == ' '))).filter
                  (fun c => !isJsSpace c))
                = (collapseSpaces (rest2.dropWhile (· == ' '))).filter
                    (fun c => !isJsSpace c) := by
                  simp [List.filter_cons, isJsSpace_blank]
              _ = (rest2.dropWhile (· == ' ')).filter (fun c => !isJsSpace c) := by
                  exact ih _ (by omega)
              _ = (' ' :: ' ' :: rest2).filter (fun c => !isJsSpace c) := by
                  conv_rhs => rw [show (' ' :: ' ' :: rest2 : List Char) =
                    (' ' :: ' ' :: rest2) from rfl]
                  rw [List.filter_cons, List.filter_cons]
                  conv_rhs => rw [hdrop2]
                  simp [List.filter_append, filter_spaces_nil hrun', isJsSpace_blank]
        · have hcc' : (c == ' ' && rest.head? == some ' ') = false := by
            simpa using hcc
          rw [collapse_cons_neg hcc', List.filter_cons, List.filter_cons,
            ih rest (by omega)]
  exact H l.length l (le_refl _)

theorem fns_step5 (l : List Char) : fns (step5 l) = fns l := by
  rw [fns_eq_filter_head, fns_eq_filter_head, filter_step5]

theorem sns_step5 (l : List Char) : sns (step5 l) = sns l := by
  rw [sns_eq_filter, sns_eq_filter, filter_step5]

theorem fns_step6a (l : List Char) : fns (step6a l) = fns l := by
  rw [fns_eq_filter_head, fns_eq_filter_head, filter_step6a]

theorem sns_step6a (l : List Char) : sns (step6a l) = sns l := by
  rw [sns_eq_filter, sns_eq_filter, filter_step6a]

theorem fns_step6b (l : List Char) : fns (step6b l) = fns l := by
  rw [fns_eq_filter_head, fns_eq_filter_head, filter_step6b]

theorem sns_step6b (l : List Char) : sns (step6b l) = sns l := by
  rw [sns_eq_filter, sns_eq_filter, filter_step6b]

theorem fns_step6c (l : List Char) : fns (step6c l) = fns l := by
  rw [fns_eq_filter_head, fns_eq_filter_head, filter_step6c]

theorem sns_step6c (l : List Char) : sns (step6c l) = sns l := by
  rw [sns_eq_filter, sns_eq_filter, filter_step6c]

theorem fns_collapse (l : List Char) : fns (collapseSpaces l) = fns l := by
  rw [fns_eq_filter_head, fns_eq_filter_head, filter_collapse]

theorem sns_collapse (l : List Char) : sns (collapseSpaces l) = sns l := by
  rw [sns_eq_filter, sns_eq_filter, filter_collapse]

/-! ### Transferring failed matches along fns and sns -/

theorem tryHyphen_none_of_fns_sns {l m : List Char} (h : tryHyphen l = none)
    (hf : fns m = fns l) (hs : sns m = sns l) : tryHyphen m = none := by
  rw [tryHyphen_none_iff] at h ⊢
  rw [hf, hs]
  exact h

theorem try6a_none_of_fns_sns {l m : List Char} (h : try6a l = none)
    (hf : fns m = fns l) (hs : sns m = sns l) : try6a m = none := by
  rw [try6a_none_iff] at h ⊢
  rw [hf, hs]
  exact h

theorem try6b_none_of_fns_sns {l m : List Char} (h : try6b l = none)
    (hf : fns m = fns l) (hs : sns m = sns l) : try6b m = none := by
  rw [try6b_none_iff] at h ⊢
  rw [hf, hs]
  exact h

theorem try6c_none_of_fns_sns {l m : List Char} (h : try6c l = none)
    (hf : fns m = fns l) : try6c m = none := by
  rw [try6c_none_iff] at h ⊢
  rw [hf]
  exact h

/-! ### Computed matches on decomposed inputs -/

theorem dropWhile_append_spaces {ws : List Char}
    (hws : ∀ c ∈ ws, isJsSpace c = true) (z : List Char) :
    (ws ++ z).dropWhile isJsSpace = z.dropWhile isJsSpace := by
  induction ws with
  | nil => rfl
  | cons c ws ih =>
    rw [List.cons_append, dropWhile_cons_pos (hws c (List.mem_cons_self c ws))]
    exact ih fun d hd => hws d (List.mem_cons_of_mem c hd)

theorem dropWhile_spaces_nil {ws : List Char}
    (hws : ∀ c ∈ ws, isJsSpace c = true) : ws.dropWhile isJsSpace = [] := by
  have := dropWhile_append_spaces hws []
  simpa using this

theorem tryHyphen_general {ws1 ws2 : List Char} {w : Char} (t : List Char)
    (h1 : ∀ c ∈ ws1, isJsSpace c = true) (h2 : ∀ c ∈ ws2, isJsSpace c = true)
    (hw : isWordChar w = true) :
    tryHyphen (ws1 ++ '-' :: (ws2 ++ w :: t)) = some (w, t) := by
  unfold tryHyphen
  rw [dropWhile_append_spaces h1, dropWhile_cons_neg isJsSpace_dash]
  show (match (ws2 ++ w :: t).dropWhile isJsSpace with
        | w' :: t' => if isWordChar w' = true then some (w', t') else none
        | [] => none) = some (w, t)
  rw [dropWhile_append_spaces h2, dropWhile_cons_neg (word_not_space hw)]
  show (if isWordChar w = true then some (w, t) else none) = some (w, t)
  rw [hw]
  rfl

theorem try6a_general {ws1 ws2 : List Char} (l3 : List Char)
    (h1 : ∀ c ∈ ws1, isJsSpace c = true) (h2 : ∀ c ∈ ws2, isJsSpace c = true) :
    try6a (ws1 ++ '-' :: (ws2 ++ '/' :: l3)) = some (l3.dropWhile isJsSpace) := by
  unfold try6a
  rw [dropWhile_append_spaces h1, dropWhile_cons_neg isJsSpace_dash]
  show (match (ws2 ++ '/' :: l3).dropWhile isJsSpace with
        | '/' :: l3' => some (l3'.dropWhile isJsSpace)
        | _ => none) = some (l3.dropWhile isJsSpace)
  rw [dropWhile_append_spaces h2, dropWhile_cons_neg isJsSpace_slash]
  exact rfl

theorem try6b_general {ws1 ws2 : List Char} (l3 : List Char)
    (h1 : ∀ c ∈ ws1, isJsSpace c = true) (h2 : ∀ c ∈ ws2, isJsSpace c = true) :
    try6b (ws1 ++ '/' :: (ws2 ++ '-' :: l3)) = some (l3.dropWhile isJsSpace) := by
  unfold try6b
  rw [dropWhile_append_spaces h1, dropWhile_cons_neg isJsSpace_slash]
  show (match (ws2 ++ '-' :: l3).dropWhile isJsSpace with
        | '-' :: l3' => some (l3'.dropWhile isJsSpace)
        | _ => none) = some (l3.dropWhile isJsSpace)
  rw [dropWhile_append_spaces h2, dropWhile_cons_neg isJsSpace_dash]
  exact rfl

theorem try6c_general {ws1 : List Char} (l2 : List Char)
    (h1 : ∀ c ∈ ws1, isJsSpace c = true) :
    try6c (ws1 ++ '/' :: l2) = some (l2.dropWhile isJsSpace) := by
  unfold try6c
  rw [dropWhile_append_spaces h1, dropWhile_cons_neg isJsSpace_slash]
  exact rfl

theorem fns_append_ws {ws : List Char} (hws : ∀ c ∈ ws, isJsSpace c = true) :
    ∀ r, fns (r ++ ws) = fns r := by
  intro r
  induction r with
  | nil => simpa using fns_all_spaces hws
  | cons c r ih =>
    cases hc : isJsSpace c with
    | true => rw [List.cons_append, fns_cons_space hc, fns_cons_space hc, ih]
    | false => rw [List.cons_append, fns_cons_nonspace hc, fns_cons_nonspace hc]

theorem sns_append_ws {ws : List Char} (hws : ∀ c ∈ ws, isJsSpace c = true) :
    ∀ r, sns (r ++ ws) = sns r := by
  intro r
  induction r with
  | nil =>
    show sns ws = none
    unfold sns
    rw [dropWhile_spaces_nil hws]
  | cons c r ih =>
    cases hc : isJsSpace c with
    | true => rw [List.cons_append, sns_cons_space hc, sns_cons_space hc, ih]
    | false =>
      rw [List.cons_append, sns_cons_nonspace hc, sns_cons_nonspace hc,
        fns_append_ws hws]

/-! ### step5: copy over non-word prefixes, trailing spaces, idempotence -/

theorem word_of_space_false {c : Char} (hc : isJsSpace c = true) :
    isWordChar c = false := by
  cases hv : isWordChar c with
  | false => rfl
  | true => exact absurd hc (by rw [word_not_space hv]; exact Bool.false_ne_true)

theorem step5_copy_nonword : ∀ (p : List Char),
    (∀ c ∈ p, isWordChar c = false) → ∀ s, step5 (p ++ s) = p ++ step5 s := by
  intro p
  induction p with
  | nil =>
    intro _ s
    rfl
  | cons c p ih =>
    intro hp s
    rw [List.cons_append, step5_cons_nonword (hp c (List.mem_cons_self c p)),
      ih (fun d hd => hp d (List.mem_cons_of_mem c hd)) s, List.cons_append]

theorem step5_all_nonword {p : List Char} (hp : ∀ c ∈ p, isWordChar c = false) :
    step5 p = p := by
  have := step5_copy_nonword p hp []
  simpa [step5_nil] using this

theorem step5_append_ws {ws : List Char} (hws : ∀ c ∈ ws, isJsSpace c = true) :
    ∀ l, step5 (l ++ ws) = step5 l ++ ws := by
  have hnw : ∀ c ∈ ws, isWordChar c = false := fun c hc =>
    word_of_space_false (hws c hc)
  have H : ∀ n l, l.length ≤ n → step5 (l ++ ws) = step5 l ++ ws := by
    intro n
    induction n with
    | zero =>
      intro l hl
      have : l = [] := List.eq_nil_of_length_eq_zero (Nat.le_zero.mp hl)
      subst this
      rw [List.nil_append, step5_nil, List.nil_append, step5_all_nonword hnw]
    | succ n ih =>
      intro l hl
      cases l with
      | nil =>
        rw [List.nil_append, step5_nil, List.nil_append, step5_all_nonword hnw]
      | cons c rest =>
        rw [List.length_cons] at hl
        by_cases hw : isWordChar c = true
        · cases hm : tryHyphen rest with
          | some wt =>
            obtain ⟨w, t⟩ := wt
            have hlen := tryHyphen_length hm
            obtain ⟨hww, ws1, ws2, hws1, hws2, hrest⟩ := tryHyphen_decomp hm
            have hm2 : tryHyphen (rest ++ ws) = some (w, t ++ ws) := by
              rw [hrest]
              have hshape : (ws1 ++ '-' :: (ws2 ++ w :: t)) ++ ws
                  = ws1 ++ '-' :: (ws2 ++ w :: (t ++ ws)) := by simp
              rw [hshape, tryHyphen_general _ hws1 hws2 hww]
            rw [List.cons_append, step5_cons_word_some hw hm2,
              step5_cons_word_some hw hm, ih t (by omega)]
            simp
          | none =>
            have hm2 : tryHyphen (rest ++ ws) = none :=
              tryHyphen_none_of_fns_sns hm (fns_append_ws hws rest)
                (sns_append_ws hws rest)
            rw [List.cons_append, step5_cons_word_none hw hm2,
              step5_cons_word_none hw hm, ih rest (by omega)]
            simp
        · have hw' : isWordChar c = false := by simpa using hw
          rw [List.cons_append, step5_cons_nonword hw', step5_cons_nonword hw',
            ih rest (by omega)]
          simp
  intro l
  exact H l.length l (le_refl _)

theorem step5_idem (l : List Char) : step5 (step5 l) = step5 l := by
  have H : ∀ n l, l.length ≤ n → step5 (step5 l) = step5 l := by
    intro n
    induction n with
    | zero =>
      intro l hl
      have : l = [] := List.eq_nil_of_length_eq_zero (Nat.le_zero.mp hl)
      subst this
      rfl
    | succ n ih =>
      intro l hl
      cases l with
      | nil => rfl
      | cons c rest =>
        rw [List.length_cons] at hl
        by_cases hw : isWordChar c = true
        · cases hm : tryHyphen rest with
          | some wt =>
            obtain ⟨w, t⟩ := wt
            have hlen := tryHyphen_length hm
            obtain ⟨hww, ws1, ws2, hws1, hws2, hrest⟩ := tryHyphen_decomp hm
            rw [step5_cons_word_some hw hm,
              step5_cons_word_some hw (tryHyphen_compute (step5 t) hww),
              ih t (by omega)]
          | none =>
            rw [step5_cons_word_none hw hm,
              step5_cons_word_none hw
                (tryHyphen_none_of_fns_sns hm (fns_step5 rest) (sns_step5 rest)),
              ih rest (by omega)]
        · have hw' : isWordChar c = false := by simpa using hw
          rw [step5_cons_nonword hw', step5_cons_nonword hw', ih rest (by omega)]
  exact H l.length l (le_refl _)

/-! ### Inversion of step5 fixed points -/

theorem step5_fix_cons_nonword {c : Char} {rest : List Char}
    (hw : isWordChar c = false) (h : step5 (c :: rest) = c :: rest) :
    step5 rest = rest := by
  rw [step5_cons_nonword hw] at h
  simpa using h

theorem step5_fix_cons_word {c : Char} {rest : List Char}
    (hw : isWordChar c = true) (h : step5 (c :: rest) = c :: rest) :
    (tryHyphen rest = none ∧ step5 rest = rest) ∨
      (∃ w t, isWordChar w = true ∧ rest = '-' :: w :: t ∧ step5 t = t) := by
  cases hm : tryHyphen rest with
  | none =>
    rw [step5_cons_word_none hw hm] at h
    exact Or.inl ⟨rfl, by simpa using h⟩
  | some wt =>
    obtain ⟨w, t⟩ := wt
    obtain ⟨hww, ws1, ws2, hws1, hws2, hrest⟩ := tryHyphen_decomp hm
    rw [step5_cons_word_some hw hm] at h
    have hr : rest = '-' :: w :: step5 t := by
      have h2 := h
      simp only [List.cons.injEq, true_and] at h2
      exact h2.symm
    cases ws1 with
    | cons d ws1' =>
      exfalso
      have hd : d = '-' := by
        have h3 := hrest.symm.trans hr
        rw [List.cons_append] at h3
        exact (List.cons.injEq _ _ _ _).mp h3 |>.1
      have h4 := hws1 d (List.mem_cons_self d ws1')
      rw [hd, isJsSpace_dash] at h4
      exact Bool.false_ne_true h4
    | nil =>
      rw [List.nil_append] at hrest
      cases ws2 with
      | cons e ws2' =>
        exfalso
        have h3 := hrest.symm.trans hr
        rw [List.cons_append] at h3
        have he : e = w := by
          have h4 := (List.cons.injEq _ _ _ _).mp h3 |>.2
          exact (List.cons.injEq _ _ _ _).mp h4 |>.1
        have h5 := hws2 e (List.mem_cons_self e ws2')
        rw [he, word_not_space hww] at h5
        exact Bool.false_ne_true h5
      | nil =>
        rw [List.nil_append] at hrest
        have h3 := hrest.symm.trans hr
        have ht : step5 t = t := by
          simp only [List.cons.injEq, true_and] at h3
          exact h3.symm
        exact Or.inr ⟨w, t, hww, hrest, ht⟩

theorem step5_fix_of_nonword_front {p s : List Char}
    (hp : ∀ c ∈ p, isWordChar c = false) (h : step5 (p ++ s) = p ++ s) :
    step5 s = s := by
  rw [step5_copy_nonword p hp s] at h
  exact List.append_cancel_left h

/-! ### step5 fixed points survive the later pipeline stages -/

theorem word_dash : isWordChar '-' = false := by decide

theorem word_slash : isWordChar '/' = false := by decide

theorem word_blank : isWordChar ' ' = false := by decide

theorem nonword_of_mem_sds {p : List Char}
    (hp : ∀ c ∈ p, isJsSpace c = true ∨ c = '-' ∨ c = '/') :
    ∀ c ∈ p, isWordChar c = false := by
  intro c hc
  rcases hp c hc with h | h | h
  · exact word_of_space_false h
  · rw [h]; exact word_dash
  · rw [h]; exact word_slash

theorem mem_sds_6a {ws1 ws2 ws3 : List Char}
    (h1 : ∀ c ∈ ws1, isJsSpace c = true) (h2 : ∀ c ∈ ws2, isJsSpace c = true)
    (h3 : ∀ c ∈ ws3, isJsSpace c = true) :
    ∀ c ∈ ws1 ++ '-' :: (ws2 ++ '/' :: ws3), isJsSpace c = true ∨ c = '-' ∨ c = '/' := by
  intro c hc
  rcases List.mem_append.mp hc with hc1 | hc2
  · exact Or.inl (h1 c hc1)
  · rcases List.mem_cons.mp hc2 with rfl | hc3
    · exact Or.inr (Or.inl rfl)
    · rcases List.mem_append.mp hc3 with hc4 | hc5
      · exact Or.inl (h2 c hc4)
      · rcases List.mem_cons.mp hc5 with rfl | hc6
        · exact Or.inr (Or.inr rfl)
        · exact Or.inl (h3 c hc6)

theorem mem_sds_6b {ws1 ws2 ws3 : List Char}
    (h1 : ∀ c ∈ ws1, isJsSpace c = true) (h2 : ∀ c ∈ ws2, isJsSpace c = true)
    (h3 : ∀ c ∈ ws3, isJsSpace c = true) :
    ∀ c ∈ ws1 ++ '/' :: (ws2 ++ '-' :: ws3), isJsSpace c = true ∨ c = '-' ∨ c = '/' := by
  intro c hc
  rcases List.mem_append.mp hc with hc1 | hc2
  · exact Or.inl (h1 c hc1)
  · rcases List.mem_cons.mp hc2 with rfl | hc3
    · exact Or.inr (Or.inr rfl)
    · rcases List.mem_append.mp hc3 with hc4 | hc5
      · exact Or.inl (h2 c hc4)
      · rcases List.mem_cons.mp hc5 with rfl | hc6
        · exact Or.inr (Or.inl rfl)
        · exact Or.inl (h3 c hc6)

theorem mem_sds_6c {ws1 ws2 : List Char}
    (h1 : ∀ c ∈ ws1, isJsSpace c = true) (h2 : ∀ c ∈ ws2, isJsSpace c = true) :
    ∀ c ∈ ws1 ++ '/' :: ws2, isJsSpace c = true ∨ c = '-' ∨ c = '/' := by
  intro c hc
  rcases List.mem_append.mp hc with hc1 | hc2
  · exact Or.inl (h1 c hc1)
  · rcases List.mem_cons.mp hc2 with rfl | hc3
    · exact Or.inr (Or.inr rfl)
    · exact Or.inl (h2 c hc3)

theorem step5_fix_step6a {l : List Char} (h : step5 l = l) :
    step5 (step6a l) = step6a l := by
  have H : ∀ n l, l.length ≤ n → step5 l = l → step5 (step6a l) = step6a l := by
    intro n
    induction n with
    | zero =>
      intro l hl _
      have : l = [] := List.eq_nil_of_length_eq_zero (Nat.le_zero.mp hl)
      subst this
      rfl
    | succ n ih =>
      intro l hl h5
      cases l with
      | nil => rfl
      | cons c rest =>
        rw [List.length_cons] at hl
        cases hm : try6a (c :: rest) with
        | some t =>
          have hlen := try6a_length hm
          rw [List.length_cons] at hlen
          obtain ⟨ws1, ws2, l3, hws1, hws2, heq, ht⟩ := try6a_decomp hm
          obtain ⟨ws3, hws3, hl3⟩ := dropWhile_decomp ht.symm
          have hfix_t : step5 t = t := by
            apply step5_fix_of_nonword_front
              (p := ws1 ++ '-' :: (ws2 ++ '/' :: ws3))
              (nonword_of_mem_sds (mem_sds_6a hws1 hws2 hws3))
            have hshape : (ws1 ++ '-' :: (ws2 ++ '/' :: ws3)) ++ t = c :: rest := by
              rw [heq, hl3]
              simp
            rw [hshape]
            exact h5
          rw [step6a_cons_some hm,
            step5_cons_nonword word_dash ('/' :: step6a t),
            step5_cons_nonword word_slash (step6a t), ih t (by omega) hfix_t]
        | none =>
          rw [step6a_cons_none hm]
          by_cases hw : isWordChar c = true
          · rcases step5_fix_cons_word hw h5 with ⟨hmh, hfix⟩ | ⟨w, t, hww, hrest, hfix_t⟩
            · rw [step5_cons_word_none hw
                (tryHyphen_none_of_fns_sns hmh (fns_step6a rest) (sns_step6a rest)),
                ih rest (by omega) hfix]
            · subst hrest
              simp only [List.length_cons] at hl
              have hn1 : try6a ('-' :: w :: t) = none := by
                rw [try6a_none_iff]
                rintro ⟨-, h2⟩
                rw [sns_cons_nonspace isJsSpace_dash,
                  fns_cons_nonspace (word_not_space hww)] at h2
                exact word_ne_slash hww (by injection h2)
              have hn2 : try6a (w :: t) = none := by
                rw [try6a_none_iff]
                rintro ⟨h1, -⟩
                rw [fns_cons_nonspace (word_not_space hww)] at h1
                exact word_ne_dash hww (by injection h1)
              rw [step6a_cons_none hn1, step6a_cons_none hn2,
                step5_cons_word_some hw (tryHyphen_compute (step6a t) hww),
                ih t (by omega) hfix_t]
          · have hw' : isWordChar c = false := by simpa using hw
            rw [step5_cons_nonword hw',
              ih rest (by omega) (step5_fix_cons_nonword hw' h5)]
  exact H l.length l (le_refl _) h

theorem step5_fix_step6b {l : List Char} (h : step5 l = l) :
    step5 (step6b l) = step6b l := by
  have H : ∀ n l, l.length ≤ n → step5 l = l → step5 (step6b l) = step6b l := by
    intro n
    induction n with
    | zero =>
      intro l hl _
      have : l = [] := List.eq_nil_of_length_eq_zero (Nat.le_zero.mp hl)
      subst this
      rfl
    | succ n ih =>
      intro l hl h5
      cases l with
      | nil => rfl
      | cons c rest =>
        rw [List.length_cons] at hl
        cases hm : try6b (c :: rest) with
        | some t =>
          have hlen := try6b_length hm
          rw [List.length_cons] at hlen
          obtain ⟨ws1, ws2, l3, hws1, hws2, heq, ht⟩ := try6b_decomp hm
          obtain ⟨ws3, hws3, hl3⟩ := dropWhile_decomp ht.symm
          have hfix_t : step5 t = t := by
            apply step5_fix_of_nonword_front
              (p := ws1 ++ '/' :: (ws2 ++ '-' :: ws3))
              (nonword_of_mem_sds (mem_sds_6b hws1 hws2 hws3))
            have hshape : (ws1 ++ '/' :: (ws2 ++ '-' :: ws3)) ++ t = c :: rest := by
              rw [heq, hl3]
              simp
            rw [hshape]
            exact h5
          rw [step6b_cons_some hm,
            step5_cons_nonword word_slash ('-' :: step6b t),
            step5_cons_nonword word_dash (step6b t), ih t (by omega) hfix_t]
        | none =>
          rw [step6b_cons_none hm]
          by_cases hw : isWordChar c = true
          · rcases step5_fix_cons_word hw h5 with ⟨hmh, hfix⟩ | ⟨w, t, hww, hrest, hfix_t⟩
            · rw [step5_cons_word_none hw
                (tryHyphen_none_of_fns_sns hmh (fns_step6b rest) (sns_step6b rest)),
                ih rest (by omega) hfix]
            · subst hrest
              simp only [List.length_cons] at hl
              have hn1 : try6b ('-' :: w :: t) = none := by
                rw [try6b_none_iff]
                rintro ⟨h1, -⟩
                rw [fns_cons_nonspace isJsSpace_dash] at h1
                exact absurd (by injection h1 : '-' = '/') (by decide)
              have hn2 : try6b (w :: t) = none := by
                rw [try6b_none_iff]
                rintro ⟨h1, -⟩
                rw [fns_cons_nonspace (word_not_space hww)] at h1
                exact word_ne_slash hww (by injection h1)
              rw [step6b_cons_none hn1, step6b_cons_none hn2,
                step5_cons_word_some hw (tryHyphen_compute (step6b t) hww),
                ih t (by omega) hfix_t]
          · have hw' : isWordChar c = false := by simpa using hw
            rw [step5_cons_nonword hw',
              ih rest (by omega) (step5_fix_cons_nonword hw' h5)]
  exact H l.length l (le_refl _) h

theorem step5_fix_step6c {l : List Char} (h : step5 l = l) :
    step5 (step6c l) = step6c l := by
  have H : ∀ n l, l.length ≤ n → step5 l = l → step5 (step6c l) = step6c l := by
    intro n
    induction n with
    | zero =>
      intro l hl _
      have : l = [] := List.eq_nil_of_length_eq_zero (Nat.le_zero.mp hl)
      subst this
      rfl
    | succ n ih =>
      intro l hl h5
      cases l with
      | nil => rfl
      | cons c rest =>
        rw [List.length_cons] at hl
        cases hm : try6c (c :: rest) with
        | some t =>
          have hlen := try6c_length hm
          rw [List.length_cons] at hlen
          obtain ⟨ws1, l2, hws1, heq, ht⟩ := try6c_decomp hm
          obtain ⟨ws2, hws2, hl2⟩ := dropWhile_decomp ht.symm
          have hfix_t : step5 t = t := by
            apply step5_fix_of_nonword_front
              (p := ws1 ++ '/' :: ws2)
              (nonword_of_mem_sds (mem_sds_6c hws1 hws2))
            have hshape : (ws1 ++ '/' :: ws2) ++ t = c :: rest := by
              rw [heq, hl2]
              simp
            rw [hshape]
            exact h5
          rw [step6c_cons_some hm,
            step5_cons_nonword word_slash (step6c t), ih t (by omega) hfix_t]
        | none =>
          rw [step6c_cons_none hm]
          by_cases hw : isWordChar c = true
          · rcases step5_fix_cons_word hw h5 with ⟨hmh, hfix⟩ | ⟨w, t, hww, hrest, hfix_t⟩
            · rw [step5_cons_word_none hw
                (tryHyphen_none_of_fns_sns hmh (fns_step6c rest) (sns_step6c rest)),
                ih rest (by omega) hfix]
            · subst hrest
              simp only [List.length_cons] at hl
              have hn1 : try6c ('-' :: w :: t) = none := by
                rw [try6c_none_iff]
                intro h1
                rw [fns_cons_nonspace isJsSpace_dash] at h1
                exact absurd (by injection h1 : '-' = '/') (by decide)
              have hn2 : try6c (w :: t) = none := by
                rw [try6c_none_iff]
                intro h1
                rw [fns_cons_nonspace (word_not_space hww)] at h1
                exact word_ne_slash hww (by injection h1)
              rw [step6c_cons_none hn1, step6c_cons_none hn2,
                step5_cons_word_some hw (tryHyphen_compute (step6c t) hww),
                ih t (by omega) hfix_t]
          · have hw' : isWordChar c = false := by simpa using hw
            rw [step5_cons_nonword hw',
              ih rest (by omega) (step5_fix_cons_nonword hw' h5)]
  exact H l.length l (le_refl _) h

theorem step5_fix_collapse {l : List Char} (h : step5 l = l) :
    step5 (collapseSpaces l) = collapseSpaces l := by
  have H : ∀ n l, l.length ≤ n → step5 l = l →
      step5 (collapseSpaces l) = collapseSpaces l := by
    intro n
    induction n with
    | zero =>
      intro l hl _
      have : l = [] := List.eq_nil_of_length_eq_zero (Nat.le_zero.mp hl)
      subst this
      rfl
    | succ n ih =>
      intro l hl h5
      cases l with
      | nil => rfl
      | cons c rest =>
        rw [List.length_cons] at hl
        by_cases hcc : (c == ' ' && rest.head? == some ' ') = true
        · rw [collapse_cons_pos hcc]
          rw [Bool.and_eq_true] at hcc
          obtain ⟨hc1, hc2⟩ := hcc
          have hc : c = ' ' := by simpa using hc1
          subst hc
          cases rest with
          | nil => simp at hc2
          | cons d rest2 =>
            have hd : d = ' ' := by simpa using hc2
            subst hd
            obtain ⟨run, hrun, hdrop⟩ :=
              dropWhile_decomp_run (rfl :
                rest2.dropWhile (· == ' ') = rest2.dropWhile (· == ' '))
            have hrun' : ∀ e ∈ run, isJsSpace e = true := by
              intro e he
              have h1 : (e == ' ') = true := hrun e he
              have h2 : e = ' ' := by simpa using h1
              rw [h2]
              exact isJsSpace_blank
            have hlen2 : ((rest2.dropWhile (· == ' '))).length ≤ rest2.length :=
              (List.dropWhile_sublist _).length_le
            rw [List.length_cons] at hl
            have hX : ((' ' :: rest2).drop 1).dropWhile (· == ' ') =
                rest2.dropWhile (· == ' ') := by simp
            rw [hX]
            have hfix_X : step5 (rest2.dropWhile (· == ' ')) =
                rest2.dropWhile (· == ' ') := by
              apply step5_fix_of_nonword_front
                (p := ' ' :: ' ' :: run)
                (fun e he => by
                  rcases List.mem_cons.mp he with rfl | he2
                  · exact word_blank
                  · rcases List.mem_cons.mp he2 with rfl | he3
                    · exact word_blank
                    · exact word_of_space_false (hrun' e he3))
              have hshape : (' ' :: ' ' :: run) ++ rest2.dropWhile (· == ' ') =
                  ' ' :: ' ' :: rest2 := by
                simp only [List.cons_append]
                rw [← hdrop]
              rw [hshape]
              exact h5
            rw [step5_cons_nonword word_blank, ih _ (by omega) hfix_X]
        · have hcc' : (c == ' ' && rest.head? == some ' ') = false := by
            simpa using hcc
          rw [collapse_cons_neg hcc']
          by_cases hw : isWordChar c = true
          · rcases step5_fix_cons_word hw h5 with ⟨hmh, hfix⟩ | ⟨w, t, hww, hrest, hfix_t⟩
            · rw [step5_cons_word_none hw
                (tryHyphen_none_of_fns_sns hmh (fns_collapse rest) (sns_collapse rest)),
                ih rest (by omega) hfix]
            · subst hrest
              simp only [List.length_cons] at hl
              have hn1 : (('-' == ' ') && ((w :: t).head? == some ' ')) = false := by
                rw [show ('-' == ' ') = false by decide, Bool.false_and]
              have hn2 : ((w == ' ') && (t.head? == some ' ')) = false := by
                rw [show (w == ' ') = false from
                  beq_eq_false_iff_ne.mpr (word_ne_space_char hww), Bool.false_and]
              rw [collapse_cons_neg hn1, collapse_cons_neg hn2,
                step5_cons_word_some hw (tryHyphen_compute (collapseSpaces t) hww),
                ih t (by omega) hfix_t]
          · have hw' : isWordChar c = false := by simpa using hw
            rw [step5_cons_nonword hw',
              ih rest (by omega) (step5_fix_cons_nonword hw' h5)]
  exact H l.length l (le_refl _) h

/-- Every list splits as leading spaces, its trim, and trailing spaces. -/
theorem trim_decomp (l : List Char) :
    ∃ ws1 ws2, (∀ c ∈ ws1, isJsSpace c = true) ∧ (∀ c ∈ ws2, isJsSpace c = true) ∧
      l = ws1 ++ (trimChars l ++ ws2) := by
  obtain ⟨ws1, hws1, hl⟩ :=
    dropWhile_decomp (rfl : l.dropWhile isJsSpace = l.dropWhile isJsSpace)
  obtain ⟨ws2r, hws2r, ha⟩ :=
    dropWhile_decomp (rfl : (l.dropWhile isJsSpace).reverse.dropWhile isJsSpace =
      (l.dropWhile isJsSpace).reverse.dropWhile isJsSpace)
  refine ⟨ws1, ws2r.reverse, hws1, ?_, ?_⟩
  · intro c hc
    exact hws2r c (List.mem_reverse.mp hc)
  · unfold trimChars
    calc l = ws1 ++ l.dropWhile isJsSpace := hl
      _ = ws1 ++ ((l.dropWhile isJsSpace).reverse).reverse := by
          rw [List.reverse_reverse]
      _ = ws1 ++ (ws2r ++
            (l.dropWhile isJsSpace).reverse.dropWhile isJsSpace).reverse := by
          rw [← ha]
      _ = ws1 ++
          (((l.dropWhile isJsSpace).reverse.dropWhile isJsSpace).reverse ++
            ws2r.reverse) := by
          rw [List.reverse_append]

theorem step5_fix_trim {l : List Char} (h : step5 l = l) :
    step5 (trimChars l) = trimChars l := by
  obtain ⟨ws1, ws2, hws1, hws2, hdec⟩ := trim_decomp l
  have h2 : step5 (trimChars l ++ ws2) = trimChars l ++ ws2 := by
    apply step5_fix_of_nonword_front (p := ws1)
      (fun c hc => word_of_space_false (hws1 c hc))
    rw [← hdec]
    exact h
  rw [step5_append_ws hws2] at h2
  exact List.append_cancel_right h2

/-! ### Local fixed-point conditions over all suffixes -/

/-- `GoodOf HC y`: the head condition `HC` holds of every suffix of `y`. -/
def GoodOf (HC : List Char → Prop) (y : List Char) : Prop :=
  ∀ s, List.IsSuffix s y → HC s

theorem goodOf_nil {HC : List Char → Prop} (h : HC []) : GoodOf HC [] := by
  intro s hs
  rw [List.suffix_nil.mp hs]
  exact h

theorem goodOf_cons {HC : List Char → Prop} {c : Char} {z : List Char} :
    GoodOf HC (c :: z) ↔ HC (c :: z) ∧ GoodOf HC z := by
  constructor
  · intro h
    exact ⟨h _ (List.suffix_refl _),
      fun s hs => h s (hs.trans (List.suffix_cons c z))⟩
  · rintro ⟨h1, h2⟩ s hs
    rcases List.suffix_cons_iff.mp hs with h3 | h3
    · rw [h3]
      exact h1
    · exact h2 s h3

theorem goodOf_suffix {HC : List Char → Prop} {y s : List Char}
    (h : GoodOf HC y) (hs : List.IsSuffix s y) : GoodOf HC s :=
  fun u hu => h u (hu.trans hs)

/-! ### Compact lists (no leading whitespace) -/

theorem compact_iff_head {z : List Char} :
    z.dropWhile isJsSpace = z ↔ ∀ d, z.head? = some d → isJsSpace d = false := by
  cases z with
  | nil => simp
  | cons c rest =>
    constructor
    · intro h d hd
      rw [List.head?_cons, Option.some.injEq] at hd
      subst hd
      by_contra hcon
      have hc : isJsSpace c = true := by
        cases hv : isJsSpace c
        · exact absurd hv hcon
        · rfl
      rw [dropWhile_cons_pos hc] at h
      have hlen : (rest.dropWhile isJsSpace).length ≤ rest.length :=
        (List.dropWhile_sublist _).length_le
      have := congrArg List.length h
      rw [List.length_cons] at this
      omega
    · intro h
      exact dropWhile_cons_neg (h c rfl)

theorem compact_dropWhile (l : List Char) :
    (l.dropWhile isJsSpace).dropWhile isJsSpace = l.dropWhile isJsSpace := by
  rw [compact_iff_head]
  intro d hd
  have := List.head?_dropWhile_not isJsSpace l
  rw [hd] at this
  simpa using this

theorem fns_dropWhile (l : List Char) : fns (l.dropWhile isJsSpace) = fns l := by
  unfold fns
  rw [compact_dropWhile]

theorem head?_collapse (z : List Char) : (collapseSpaces z).head? = z.head? := by
  cases z with
  | nil => rfl
  | cons c rest =>
    by_cases hcc : (c == ' ' && rest.head? == some ' ') = true
    · rw [collapse_cons_pos hcc]
      rw [Bool.and_eq_true] at hcc
      have hc : c = ' ' := by simpa using hcc.1
      rw [hc]
      rfl
    · rw [collapse_cons_neg (by simpa using hcc)]
      rfl

theorem compact_collapse {z : List Char} (h : z.dropWhile isJsSpace = z) :
    (collapseSpaces z).dropWhile isJsSpace = collapseSpaces z := by
  rw [compact_iff_head] at h ⊢
  intro d hd
  rw [head?_collapse] at hd
  exact h d hd

theorem compact_step6a {z : List Char} (h : z.dropWhile isJsSpace = z) :
    (step6a z).dropWhile isJsSpace = step6a z := by
  rw [compact_iff_head] at h ⊢
  cases z with
  | nil => intro d hd; simp [step6a_nil] at hd
  | cons c rest =>
    intro d hd
    cases hm : try6a (c :: rest) with
    | some t =>
      rw [step6a_cons_some hm, List.head?_cons, Option.some.injEq] at hd
      rw [← hd]
      exact isJsSpace_dash
    | none =>
      rw [step6a_cons_none hm, List.head?_cons, Option.some.injEq] at hd
      rw [← hd]
      exact h c rfl

theorem compact_step6b {z : List Char} (h : z.dropWhile isJsSpace = z) :
    (step6b z).dropWhile isJsSpace = step6b z := by
  rw [compact_iff_head] at h ⊢
  cases z with
  | nil => intro d hd; simp [step6b_nil] at hd
  | cons c rest =>
    intro d hd
    cases hm : try6b (c :: rest) with
    | some t =>
      rw [step6b_cons_some hm, List.head?_cons, Option.some.injEq] at hd
      rw [← hd]
      exact isJsSpace_slash
    | none =>
      rw [step6b_cons_none hm, List.head?_cons, Option.some.injEq] at hd
      rw [← hd]
      exact h c rfl

theorem compact_step6c {z : List Char} (h : z.dropWhile isJsSpace = z) :
    (step6c z).dropWhile isJsSpace = step6c z := by
  rw [compact_iff_head] at h ⊢
  cases z with
  | nil => intro d hd; simp [step6c_nil] at hd
  | cons c rest =>
    intro d hd
    cases hm : try6c (c :: rest) with
    | some t =>
      rw [step6c_cons_some hm, List.head?_cons, Option.some.injEq] at hd
      rw [← hd]
      exact isJsSpace_slash
    | none =>
      rw [step6c_cons_none hm, List.head?_cons, Option.some.injEq] at hd
      rw [← hd]
      exact h c rfl

theorem fns_cons_congr {c : Char} {A B : List Char} (hf : fns A = fns B) :
    fns (c :: A) = fns (c :: B) := by
  cases hc : isJsSpace c with
  | true => rw [fns_cons_space hc, fns_cons_space hc, hf]
  | false => rw [fns_cons_nonspace hc, fns_cons_nonspace hc]

theorem sns_cons_congr {c : Char} {A B : List Char} (hf : fns A = fns B)
    (hs : sns A = sns B) : sns (c :: A) = sns (c :: B) := by
  cases hc : isJsSpace c with
  | true => rw [sns_cons_space hc, sns_cons_space hc, hs]
  | false => rw [sns_cons_nonspace hc, sns_cons_nonspace hc, hf]

/-! ### Fixed points of the dash-slash scanner -/

/-- Head condition characterizing fixed points of `step6a`: either the
dash-slash match fails here, or the suffix is already in replaced, compact
form. -/
def HC6a (s : List Char) : Prop :=
  try6a s = none ∨ ∃ t, s = '-' :: '/' :: t ∧ t.dropWhile isJsSpace = t

theorem good6a_step6a (x : List Char) : GoodOf HC6a (step6a x) := by
  have H : ∀ n x, x.length ≤ n → GoodOf HC6a (step6a x) := by
    intro n
    induction n with
    | zero =>
      intro x hl
      have : x = [] := List.eq_nil_of_length_eq_zero (Nat.le_zero.mp hl)
      subst this
      exact goodOf_nil (Or.inl rfl)
    | succ n ih =>
      intro x hl
      cases x with
      | nil => exact goodOf_nil (Or.inl rfl)
      | cons c rest =>
        rw [List.length_cons] at hl
        cases hm : try6a (c :: rest) with
        | some t =>
          have hlen := try6a_length hm
          rw [List.length_cons] at hlen
          obtain ⟨ws1, ws2, l3, hws1, hws2, heq, ht⟩ := try6a_decomp hm
          have hcompt : t.dropWhile isJsSpace = t := by
            rw [ht]
            exact compact_dropWhile l3
          rw [step6a_cons_some hm, goodOf_cons, goodOf_cons]
          refine ⟨?_, ?_, ih t (by omega)⟩
          · exact Or.inr ⟨step6a t, rfl, compact_step6a hcompt⟩
          · left
            rw [try6a_none_iff]
            rintro ⟨h1, -⟩
            rw [fns_cons_nonspace isJsSpace_slash] at h1
            exact absurd (by injection h1 : '/' = '-') (by decide)
        | none =>
          rw [step6a_cons_none hm, goodOf_cons]
          refine ⟨?_, ih rest (by omega)⟩
          exact Or.inl (try6a_none_of_fns_sns hm
            (fns_cons_congr (fns_step6a rest))
            (sns_cons_congr (fns_step6a rest) (sns_step6a rest)))
  exact H x.length x (le_refl _)

theorem good6a_fix {y : List Char} (h : GoodOf HC6a y) : step6a y = y := by
  have H : ∀ n y, y.length ≤ n → GoodOf HC6a y → step6a y = y := by
    intro n
    induction n with
    | zero =>
      intro y hl _
      have : y = [] := List.eq_nil_of_length_eq_zero (Nat.le_zero.mp hl)
      subst this
      rfl
    | succ n ih =>
      intro y hl hg
      cases y with
      | nil => rfl
      | cons c rest =>
        rw [List.length_cons] at hl
        obtain ⟨hhc, hgrest⟩ := goodOf_cons.mp hg
        rcases hhc with hnone | ⟨t, heq, hcompt⟩
        · rw [step6a_cons_none hnone, ih rest (by omega) hgrest]
        · obtain ⟨hc, hrest⟩ : c = '-' ∧ rest = '/' :: t := by
            rw [List.cons.injEq] at heq
            exact heq
          subst hc
          subst hrest
          simp only [List.length_cons] at hl
          have hm : try6a ('-' :: '/' :: t) = some t := by
            have h2 := @try6a_general [] [] t
              (by simp) (by simp)
            rw [List.nil_append, List.nil_append, hcompt] at h2
            exact h2
          rw [step6a_cons_some hm]
          have hgt : GoodOf HC6a t := goodOf_suffix hg ⟨['-', '/'], rfl⟩
          rw [ih t (by omega) hgt]
  exact H y.length y (le_refl _) h

theorem hc6a_tail_6b {u : List Char} (hu : u.dropWhile isJsSpace = u) :
    HC6a ('-' :: step6b ('/' :: u)) := by
  cases hm2 : try6b ('/' :: u) with
  | some t2 =>
    rw [step6b_cons_some hm2]
    exact Or.inr ⟨'-' :: step6b t2, rfl, dropWhile_cons_neg isJsSpace_dash⟩
  | none =>
    rw [step6b_cons_none hm2]
    exact Or.inr ⟨step6b u, rfl, compact_step6b hu⟩

theorem good6a_step6b {y : List Char} (h : GoodOf HC6a y) :
    GoodOf HC6a (step6b y) := by
  have H : ∀ n y, y.length ≤ n → GoodOf HC6a y → GoodOf HC6a (step6b y) := by
    intro n
    induction n with
    | zero =>
      intro y hl _
      have : y = [] := List.eq_nil_of_length_eq_zero (Nat.le_zero.mp hl)
      subst this
      exact goodOf_nil (Or.inl rfl)
    | succ n ih =>
      intro y hl hg
      cases y with
      | nil => exact goodOf_nil (Or.inl rfl)
      | cons c rest =>
        rw [List.length_cons] at hl
        cases hm : try6b (c :: rest) with
        | some t =>
          have hlen := try6b_length hm
          rw [List.length_cons] at hlen
          obtain ⟨ws1, ws2, l3, hws1, hws2, heq, ht⟩ := try6b_decomp hm
          have hsuf_l3 : List.IsSuffix l3 (c :: rest) := by
            refine ⟨ws1 ++ '/' :: (ws2 ++ ['-']), ?_⟩
            rw [heq]
            simp
          have hsuf_t : List.IsSuffix t l3 := by
            rw [ht]
            exact List.dropWhile_suffix _
          have hgt : GoodOf HC6a t := goodOf_suffix hg (hsuf_t.trans hsuf_l3)
          have hcompt : t.dropWhile isJsSpace = t := by
            rw [ht]
            exact compact_dropWhile l3
          rw [step6b_cons_some hm, goodOf_cons, goodOf_cons]
          refine ⟨?_, ?_, ih t (by omega) hgt⟩
          · left
            rw [try6a_none_iff]
            rintro ⟨h1, -⟩
            rw [fns_cons_nonspace isJsSpace_slash] at h1
            exact absurd (by injection h1 : '/' = '-') (by decide)
          · by_cases hft : fns t = some '/'
            · have hsufd : List.IsSuffix ('-' :: l3) (c :: rest) := by
                refine ⟨ws1 ++ '/' :: ws2, ?_⟩
                rw [heq]
                simp
              rcases hg _ hsufd with hnone | ⟨u, hequ, hcompu⟩
              · exfalso
                rw [try6a_none_iff] at hnone
                apply hnone
                refine ⟨fns_cons_nonspace isJsSpace_dash, ?_⟩
                rw [sns_cons_nonspace isJsSpace_dash, ← fns_dropWhile l3, ← ht]
                exact hft
              · have hl3 : l3 = '/' :: u := by
                  rw [List.cons.injEq] at hequ
                  exact hequ.2
                have htu : t = '/' :: u := by
                  rw [ht, hl3, dropWhile_cons_neg isJsSpace_slash]
                rw [htu]
                exact hc6a_tail_6b hcompu
            · left
              rw [try6a_none_iff]
              rintro ⟨-, h2⟩
              rw [sns_cons_nonspace isJsSpace_dash, fns_step6b] at h2
              exact hft h2
        | none =>
          rw [step6b_cons_none hm, goodOf_cons]
          have hgrest : GoodOf HC6a rest :=
            goodOf_suffix hg (List.suffix_cons c rest)
          refine ⟨?_, ih rest (by omega) hgrest⟩
          rcases (goodOf_cons.mp hg).1 with hnone | ⟨u, hequ, hcompu⟩
          · exact Or.inl (try6a_none_of_fns_sns hnone
              (fns_cons_congr (fns_step6b rest))
              (sns_cons_congr (fns_step6b rest) (sns_step6b rest)))
          · obtain ⟨hc, hrest⟩ : c = '-' ∧ rest = '/' :: u := by
              rw [List.cons.injEq] at hequ
              exact hequ
            subst hc
            rw [hrest]
            exact hc6a_tail_6b hcompu
  exact H y.length y (le_refl _) h

theorem hc6a_tail_6c {u : List Char} (hu : u.dropWhile isJsSpace = u) :
    HC6a ('-' :: step6c ('/' :: u)) := by
  have hm : try6c ('/' :: u) = some u := by
    have h2 := @try6c_general [] u (by simp)
    rw [List.nil_append, hu] at h2
    exact h2
  rw [step6c_cons_some hm]
  exact Or.inr ⟨step6c u, rfl, compact_step6c hu⟩

theorem good6a_step6c {y : List Char} (h : GoodOf HC6a y) :
    GoodOf HC6a (step6c y) := by
  have H : ∀ n y, y.length ≤ n → GoodOf HC6a y → GoodOf HC6a (step6c y) := by
    intro n
    induction n with
    | zero =>
      intro y hl _
      have : y = [] := List.eq_nil_of_length_eq_zero (Nat.le_zero.mp hl)
      subst this
      exact goodOf_nil (Or.inl rfl)
    | succ n ih =>
      intro y hl hg
      cases y with
      | nil => exact goodOf_nil (Or.inl rfl)
      | cons c rest =>
        rw [List.length_cons] at hl
        cases hm : try6c (c :: rest) with
        | some t =>
          have hlen := try6c_length hm
          rw [List.length_cons] at hlen
          obtain ⟨ws1, l2, hws1, heq, ht⟩ := try6c_decomp hm
          have hsuf_l2 : List.IsSuffix l2 (c :: rest) := by
            refine ⟨ws1 ++ ['/'], ?_⟩
            rw [heq]
            simp
          have hsuf_t : List.IsSuffix t l2 := by
            rw [ht]
            exact List.dropWhile_suffix _
          have hgt : GoodOf HC6a t := goodOf_suffix hg (hsuf_t.trans hsuf_l2)
          rw [step6c_cons_some hm, goodOf_cons]
          refine ⟨?_, ih t (by omega) hgt⟩
          left
          rw [try6a_none_iff]
          rintro ⟨h1, -⟩
          rw [fns_cons_nonspace isJsSpace_slash] at h1
          exact absurd (by injection h1 : '/' = '-') (by decide)
        | none =>
          rw [step6c_cons_none hm, goodOf_cons]
          have hgrest : GoodOf HC6a rest :=
            goodOf_suffix hg (List.suffix_cons c rest)
          refine ⟨?_, ih rest (by omega) hgrest⟩
          rcases (goodOf_cons.mp hg).1 with hnone | ⟨u, hequ, hcompu⟩
          · exact Or.inl (try6a_none_of_fns_sns hnone
              (fns_cons_congr (fns_step6c rest))
              (sns_cons_congr (fns_step6c rest) (sns_step6c rest)))
          · obtain ⟨hc, hrest⟩ : c = '-' ∧ rest = '/' :: u := by
              rw [List.cons.injEq] at hequ
              exact hequ
            subst hc
            rw [hrest]
            exact hc6a_tail_6c hcompu
  exact H y.length y (le_refl _) h

theorem good6a_collapse {y : List Char} (h : GoodOf HC6a y) :
    GoodOf HC6a (collapseSpaces y) := by
  have H : ∀ n y, y.length ≤ n → GoodOf HC6a y →
      GoodOf HC6a (collapseSpaces y) := by
    intro n
    induction n with
    | zero =>
      intro y hl _
      have : y = [] := List.eq_nil_of_length_eq_zero (Nat.le_zero.mp hl)
      subst this
      exact goodOf_nil (Or.inl rfl)
    | succ n ih =>
      intro y hl hg
      cases y with
      | nil => exact goodOf_nil (Or.inl rfl)
      | cons c rest =>
        rw [List.length_cons] at hl
        by_cases hcc : (c == ' ' && rest.head? == some ' ') = true
        · rw [collapse_cons_pos hcc]
          rw [Bool.and_eq_true] at hcc
          obtain ⟨hc1, hc2⟩ := hcc
          have hc : c = ' ' := by simpa using hc1
          subst hc
          cases rest with
          | nil => simp at hc2
          | cons d rest2 =>
            have hd : d = ' ' := by simpa using hc2
            subst hd
            obtain ⟨run, hrun, hdrop⟩ :=
              dropWhile_decomp_run (rfl :
                rest2.dropWhile (· == ' ') = rest2.dropWhile (· == ' '))
            have hrun' : ∀ e ∈ run, isJsSpace e = true := by
              intro e he
              have h2 : e = ' ' := by simpa using hrun e he
              rw [h2]
              exact isJsSpace_blank
            have hlen2 : ((rest2.dropWhile (· == ' '))).length ≤ rest2.length :=
              (List.dropWhile_sublist _).length_le
            rw [List.length_cons] at hl
            have hX : ((' ' :: rest2).drop 1).dropWhile (· == ' ') =
                rest2.dropWhile (· == ' ') := by simp
            rw [hX]
            have hsufX : List.IsSuffix (rest2.dropWhile (· == ' '))
                (' ' :: ' ' :: rest2) := by
              refine ⟨' ' :: ' ' :: run, ?_⟩
              simp only [List.cons_append]
              rw [← hdrop]
            have hgX : GoodOf HC6a (rest2.dropWhile (· == ' ')) :=
              goodOf_suffix hg hsufX
            rw [goodOf_cons]
            refine ⟨?_, ih _ (by omega) hgX⟩
            rcases hg _ (List.suffix_refl _) with hnone | ⟨u, hequ, -⟩
            · left
              refine try6a_none_of_fns_sns hnone ?_ ?_
              · rw [fns_cons_space isJsSpace_blank, fns_cons_space isJsSpace_blank,
                  fns_cons_space isJsSpace_blank, fns_collapse]
                conv_rhs => rw [hdrop]
                rw [fns_append_spaces hrun']
              · rw [sns_cons_space isJsSpace_blank, sns_cons_space isJsSpace_blank,
                  sns_cons_space isJsSpace_blank, sns_collapse]
                conv_rhs => rw [hdrop]
                rw [sns_append_spaces hrun']
            · exfalso
              have : (' ' : Char) = '-' := by
                have h3 := hequ
                rw [List.cons.injEq] at h3
                exact h3.1
              exact absurd this (by decide)
        · have hcc' : (c == ' ' && rest.head? == some ' ') = false := by
            simpa using hcc
          rw [collapse_cons_neg hcc', goodOf_cons]
          have hgrest : GoodOf HC6a rest :=
            goodOf_suffix hg (List.suffix_cons c rest)
          refine ⟨?_, ih rest (by omega) hgrest⟩
          rcases (goodOf_cons.mp hg).1 with hnone | ⟨u, hequ, hcompu⟩
          · exact Or.inl (try6a_none_of_fns_sns hnone
              (fns_cons_congr (fns_collapse rest))
              (sns_cons_congr (fns_collapse rest) (sns_collapse rest)))
          · obtain ⟨hc, hrest⟩ : c = '-' ∧ rest = '/' :: u := by
              rw [List.cons.injEq] at hequ
              exact hequ
            subst hc
            rw [hrest]
            rw [collapse_cons_neg (by rw [show ('/' == ' ') = false by decide,
              Bool.false_and])]
            exact Or.inr ⟨collapseSpaces u, rfl, compact_collapse hcompu⟩
  exact H y.length y (le_refl _) h

theorem hc6a_unappend_ws {ws s : List Char}
    (hws : ∀ c ∈ ws, isJsSpace c = true) (h : HC6a (s ++ ws)) : HC6a s := by
  rcases h with hnone | ⟨u, hequ, hcompu⟩
  · exact Or.inl (try6a_none_of_fns_sns hnone
      (fns_append_ws hws s).symm (sns_append_ws hws s).symm)
  · cases s with
    | nil =>
      exfalso
      rw [List.nil_append] at hequ
      have h2 := hws '-' (by rw [hequ]; exact List.mem_cons_self _ _)
      rw [isJsSpace_dash] at h2
      exact Bool.false_ne_true h2
    | cons c1 s1 =>
      cases s1 with
      | nil =>
        exfalso
        rw [List.cons_append, List.nil_append, List.cons.injEq] at hequ
        have h2 := hws '/' (by rw [hequ.2]; exact List.mem_cons_self _ _)
        rw [isJsSpace_slash] at h2
        exact Bool.false_ne_true h2
      | cons c2 s2 =>
        rw [List.cons_append, List.cons_append, List.cons.injEq,
          List.cons.injEq] at hequ
        have hc1 := hequ.1
        have hc2 := hequ.2.1
        have hu := hequ.2.2
        right
        refine ⟨s2, by rw [hc1, hc2], ?_⟩
        rw [← hu] at hcompu
        rw [compact_iff_head] at hcompu ⊢
        intro d hd
        apply hcompu d
        cases s2 with
        | nil => simp at hd
        | cons e s3 =>
          rw [List.cons_append]
          simpa using hd

theorem good6a_trim {y : List Char} (h : GoodOf HC6a y) :
    GoodOf HC6a (trimChars y) := by
  obtain ⟨ws1, ws2, hws1, hws2, hdec⟩ := trim_decomp y
  intro s hs
  have hs2 : List.IsSuffix (s ++ ws2) y := by
    obtain ⟨p, hp⟩ := hs
    refine ⟨ws1 ++ p, ?_⟩
    rw [hdec, ← hp]
    simp
  exact hc6a_unappend_ws hws2 (h _ hs2)

/-! ### Fixed points of the slash-dash scanner -/

/-- Head condition characterizing fixed points of `step6b`. -/
def HC6b (s : List Char) : Prop :=
  try6b s = none ∨ ∃ t, s = '/' :: '-' :: t ∧ t.dropWhile isJsSpace = t

theorem good6b_step6b (x : List Char) : GoodOf HC6b (step6b x) := by
  have H : ∀ n x, x.length ≤ n → GoodOf HC6b (step6b x) := by
    intro n
    induction n with
    | zero =>
      intro x hl
      have : x = [] := List.eq_nil_of_length_eq_zero (Nat.le_zero.mp hl)
      subst this
      exact goodOf_nil (Or.inl rfl)
    | succ n ih =>
      intro x hl
      cases x with
      | nil => exact goodOf_nil (Or.inl rfl)
      | cons c rest =>
        rw [List.length_cons] at hl
        cases hm : try6b (c :: rest) with
        | some t =>
          have hlen := try6b_length hm
          rw [List.length_cons] at hlen
          obtain ⟨ws1, ws2, l3, hws1, hws2, heq, ht⟩ := try6b_decomp hm
          have hcompt : t.dropWhile isJsSpace = t := by
            rw [ht]
            exact compact_dropWhile l3
          rw [step6b_cons_some hm, goodOf_cons, goodOf_cons]
          refine ⟨?_, ?_, ih t (by omega)⟩
          · exact Or.inr ⟨step6b t, rfl, compact_step6b hcompt⟩
          · left
            rw [try6b_none_iff]
            rintro ⟨h1, -⟩
            rw [fns_cons_nonspace isJsSpace_dash] at h1
            exact absurd (by injection h1 : '-' = '/') (by decide)
        | none =>
          rw [step6b_cons_none hm, goodOf_cons]
          refine ⟨?_, ih rest (by omega)⟩
          exact Or.inl (try6b_none_of_fns_sns hm
            (fns_cons_congr (fns_step6b rest))
            (sns_cons_congr (fns_step6b rest) (sns_step6b rest)))
  exact H x.length x (le_refl _)

theorem good6b_fix {y : List Char} (h : GoodOf HC6b y) : step6b y = y := by
  have H : ∀ n y, y.length ≤ n → GoodOf HC6b y → step6b y = y := by
    intro n
    induction n with
    | zero =>
      intro y hl _
      have : y = [] := List.eq_nil_of_length_eq_zero (Nat.le_zero.mp hl)
      subst this
      rfl
    | succ n ih =>
      intro y hl hg
      cases y with
      | nil => rfl
      | cons c rest =>
        rw [List.length_cons] at hl
        obtain ⟨hhc, hgrest⟩ := goodOf_cons.mp hg
        rcases hhc with hnone | ⟨t, heq, hcompt⟩
        · rw [step6b_cons_none hnone, ih rest (by omega) hgrest]
        · obtain ⟨hc, hrest⟩ : c = '/' ∧ rest = '-' :: t := by
            rw [List.cons.injEq] at heq
            exact heq
          subst hc
          subst hrest
          simp only [List.length_cons] at hl
          have hm : try6b ('/' :: '-' :: t) = some t := by
            have h2 := @try6b_general [] [] t
              (by simp) (by simp)
            rw [List.nil_append, List.nil_append, hcompt] at h2
            exact h2
          rw [step6b_cons_some hm]
          have hgt : GoodOf HC6b t := goodOf_suffix hg ⟨['/', '-'], rfl⟩
          rw [ih t (by omega) hgt]
  exact H y.length y (le_refl _) h

theorem hc6b_tail_6c {u : List Char} (hu : u.dropWhile isJsSpace = u) :
    HC6b ('/' :: step6c ('-' :: u)) := by
  have hn : try6c ('-' :: u) = none := by
    rw [try6c_none_iff]
    intro h1
    rw [fns_cons_nonspace isJsSpace_dash] at h1
    exact absurd (by injection h1 : '-' = '/') (by decide)
  rw [step6c_cons_none hn]
  exact Or.inr ⟨step6c u, rfl, compact_step6c hu⟩

theorem good6b_step6c {y : List Char} (h : GoodOf HC6b y) :
    GoodOf HC6b (step6c y) := by
  have H : ∀ n y, y.length ≤ n → GoodOf HC6b y → GoodOf HC6b (step6c y) := by
    intro n
    induction n with
    | zero =>
      intro y hl _
      have : y = [] := List.eq_nil_of_length_eq_zero (Nat.le_zero.mp hl)
      subst this
      exact goodOf_nil (Or.inl rfl)
    | succ n ih =>
      intro y hl hg
      cases y with
      | nil => exact goodOf_nil (Or.inl rfl)
      | cons c rest =>
        rw [List.length_cons] at hl
        cases hm : try6c (c :: rest) with
        | some t =>
          have hlen := try6c_length hm
          rw [List.length_cons] at hlen
          obtain ⟨ws1, l2, hws1, heq, ht⟩ := try6c_decomp hm
          have hsuf_l2 : List.IsSuffix l2 (c :: rest) := by
            refine ⟨ws1 ++ ['/'], ?_⟩
            rw [heq]
            simp
          have hsuf_t : List.IsSuffix t l2 := by
            rw [ht]
            exact List.dropWhile_suffix _
          have hgt : GoodOf HC6b t := goodOf_suffix hg (hsuf_t.trans hsuf_l2)
          rw [step6c_cons_some hm, goodOf_cons]
          refine ⟨?_, ih t (by omega) hgt⟩
          by_cases hft : fns t = some '-'
          · have hsufd : List.IsSuffix ('/' :: l2) (c :: rest) := by
              refine ⟨ws1, ?_⟩
              rw [heq]
            rcases hg _ hsufd with hnone | ⟨u, hequ, hcompu⟩
            · exfalso
              rw [try6b_none_iff] at hnone
              apply hnone
              refine ⟨fns_cons_nonspace isJsSpace_slash, ?_⟩
              rw [sns_cons_nonspace isJsSpace_slash, ← fns_dropWhile l2, ← ht]
              exact hft
            · have hl2 : l2 = '-' :: u := by
                rw [List.cons.injEq] at hequ
                exact hequ.2
              have htu : t = '-' :: u := by
                rw [ht, hl2, dropWhile_cons_neg isJsSpace_dash]
              rw [htu]
              exact hc6b_tail_6c hcompu
          · left
            rw [try6b_none_iff]
            rintro ⟨-, h2⟩
            rw [sns_cons_nonspace isJsSpace_slash, fns_step6c] at h2
            exact hft h2
        | none =>
          rw [step6c_cons_none hm, goodOf_cons]
          have hgrest : GoodOf HC6b rest :=
            goodOf_suffix hg (List.suffix_cons c rest)
          refine ⟨?_, ih rest (by omega) hgrest⟩
          rcases (goodOf_cons.mp hg).1 with hnone | ⟨u, hequ, hcompu⟩
          · exact Or.inl (try6b_none_of_fns_sns hnone
              (fns_cons_congr (fns_step6c rest))
              (sns_cons_congr (fns_step6c rest) (sns_step6c rest)))
          · obtain ⟨hc, hrest⟩ : c = '/' ∧ rest = '-' :: u := by
              rw [List.cons.injEq] at hequ
              exact hequ
            subst hc
            rw [hrest]
            exact hc6b_tail_6c hcompu
  exact H y.length y (le_refl _) h

theorem good6b_collapse {y : List Char} (h : GoodOf HC6b y) :
    GoodOf HC6b (collapseSpaces y) := by
  have H : ∀ n y, y.length ≤ n → GoodOf HC6b y →
      GoodOf HC6b (collapseSpaces y) := by
    intro n
    induction n with
    | zero =>
      intro y hl _
      have : y = [] := List.eq_nil_of_length_eq_zero (Nat.le_zero.mp hl)
      subst this
      exact goodOf_nil (Or.inl rfl)
    | succ n ih =>
      intro y hl hg
      cases y with
      | nil => exact goodOf_nil (Or.inl rfl)
      | cons c rest =>
        rw [List.length_cons] at hl
        by_cases hcc : (c == ' ' && rest.head? == some ' ') = true
        · rw [collapse_cons_pos hcc]
          rw [Bool.and_eq_true] at hcc
          obtain ⟨hc1, hc2⟩ := hcc
          have hc : c = ' ' := by simpa using hc1
          subst hc
          cases rest with
          | nil => simp at hc2
          | cons d rest2 =>
            have hd : d = ' ' := by simpa using hc2
            subst hd
            obtain ⟨run, hrun, hdrop⟩ :=
              dropWhile_decomp_run (rfl :
                rest2.dropWhile (· == ' ') = rest2.dropWhile (· == ' '))
            have hrun' : ∀ e ∈ run, isJsSpace e = true := by
              intro e he
              have h2 : e = ' ' := by simpa using hrun e he
              rw [h2]
              exact isJsSpace_blank
            have hlen2 : ((rest2.dropWhile (· == ' '))).length ≤ rest2.length :=
              (List.dropWhile_sublist _).length_le
            rw [List.length_cons] at hl
            have hX : ((' ' :: rest2).drop 1).dropWhile (· == ' ') =
                rest2.dropWhile (· == ' ') := by simp
            rw [hX]
            have hsufX : List.IsSuffix (rest2.dropWhile (· == ' '))
                (' ' :: ' ' :: rest2) := by
              refine ⟨' ' :: ' ' :: run, ?_⟩
              simp only [List.cons_append]
              rw [← hdrop]
            have hgX : GoodOf HC6b (rest2.dropWhile (· == ' ')) :=
              goodOf_suffix hg hsufX
            rw [goodOf_cons]
            refine ⟨?_, ih _ (by omega) hgX⟩
            rcases hg _ (List.suffix_refl _) with hnone | ⟨u, hequ, -⟩
            · left
              refine try6b_none_of_fns_sns hnone ?_ ?_
              · rw [fns_cons_space isJsSpace_blank, fns_cons_space isJsSpace_blank,
                  fns_cons_space isJsSpace_blank, fns_collapse]
                conv_rhs => rw [hdrop]
                rw [fns_append_spaces hrun']
              · rw [sns_cons_space isJsSpace_blank, sns_cons_space isJsSpace_blank,
                  sns_cons_space isJsSpace_blank, sns_collapse]
                conv_rhs => rw [hdrop]
                rw [sns_append_spaces hrun']
            · exfalso
              have h3 : (' ' : Char) = '/' := by
                rw [List.cons.injEq] at hequ
                exact hequ.1
              exact absurd h3 (by decide)
        · have hcc' : (c == ' ' && rest.head? == some ' ') = false := by
            simpa using hcc
          rw [collapse_cons_neg hcc', goodOf_cons]
          have hgrest : GoodOf HC6b rest :=
            goodOf_suffix hg (List.suffix_cons c rest)
          refine ⟨?_, ih rest (by omega) hgrest⟩
          rcases (goodOf_cons.mp hg).1 with hnone | ⟨u, hequ, hcompu⟩
          · exact Or.inl (try6b_none_of_fns_sns hnone
              (fns_cons_congr (fns_collapse rest))
              (sns_cons_congr (fns_collapse rest) (sns_collapse rest)))
          · obtain ⟨hc, hrest⟩ : c = '/' ∧ rest = '-' :: u := by
              rw [List.cons.injEq] at hequ
              exact hequ
            subst hc
            rw [hrest]
            rw [collapse_cons_neg (by rw [show ('-' == ' ') = false by decide,
              Bool.false_and])]
            exact Or.inr ⟨collapseSpaces u, rfl, compact_collapse hcompu⟩
  exact H y.length y (le_refl _) h

theorem hc6b_unappend_ws {ws s : List Char}
    (hws : ∀ c ∈ ws, isJsSpace c = true) (h : HC6b (s ++ ws)) : HC6b s := by
  rcases h with hnone | ⟨u, hequ, hcompu⟩
  · exact Or.inl (try6b_none_of_fns_sns hnone
      (fns_append_ws hws s).symm (sns_append_ws hws s).symm)
  · cases s with
    | nil =>
      exfalso
      rw [List.nil_append] at hequ
      have h2 := hws '/' (by rw [hequ]; exact List.mem_cons_self _ _)
      rw [isJsSpace_slash] at h2
      exact Bool.false_ne_true h2
    | cons c1 s1 =>
      cases s1 with
      | nil =>
        exfalso
        rw [List.cons_append, List.nil_append, List.cons.injEq] at hequ
        have h2 := hws '-' (by rw [hequ.2]; exact List.mem_cons_self _ _)
        rw [isJsSpace_dash] at h2
        exact Bool.false_ne_true h2
      | cons c2 s2 =>
        rw [List.cons_append, List.cons_append, List.cons.injEq,
          List.cons.injEq] at hequ
        have hc1 := hequ.1
        have hc2 := hequ.2.1
        have hu := hequ.2.2
        right
        refine ⟨s2, by rw [hc1, hc2], ?_⟩
        rw [← hu] at hcompu
        rw [compact_iff_head] at hcompu ⊢
        intro d hd
        apply hcompu d
        cases s2 with
        | nil => simp at hd
        | cons e s3 =>
          rw [List.cons_append]
          simpa using hd

theorem good6b_trim {y : List Char} (h : GoodOf HC6b y) :
    GoodOf HC6b (trimChars y) := by
  obtain ⟨ws1, ws2, hws1, hws2, hdec⟩ := trim_decomp y
  intro s hs
  have hs2 : List.IsSuffix (s ++ ws2) y := by
    obtain ⟨p, hp⟩ := hs
    refine ⟨ws1 ++ p, ?_⟩
    rw [hdec, ← hp]
    simp
  exact hc6b_unappend_ws hws2 (h _ hs2)

/-! ### Fixed points of the slash scanner -/

/-- Head condition characterizing fixed points of `step6c`. -/
def HC6c (s : List Char) : Prop :=
  try6c s = none ∨ ∃ t, s = '/' :: t ∧ t.dropWhile isJsSpace = t

theorem good6c_step6c (x : List Char) : GoodOf HC6c (step6c x) := by
  have H : ∀ n x, x.length ≤ n → GoodOf HC6c (step6c x) := by
    intro n
    induction n with
    | zero =>
      intro x hl
      have : x = [] := List.eq_nil_of_length_eq_zero (Nat.le_zero.mp hl)
      subst this
      exact goodOf_nil (Or.inl rfl)
    | succ n ih =>
      intro x hl
      cases x with
      | nil => exact goodOf_nil (Or.inl rfl)
      | cons c rest =>
        rw [List.length_cons] at hl
        cases hm : try6c (c :: rest) with
        | some t =>
          have hlen := try6c_length hm
          rw [List.length_cons] at hlen
          obtain ⟨ws1, l2, hws1, heq, ht⟩ := try6c_decomp hm
          have hcompt : t.dropWhile isJsSpace = t := by
            rw [ht]
            exact compact_dropWhile l2
          rw [step6c_cons_some hm, goodOf_cons]
          refine ⟨?_, ih t (by omega)⟩
          exact Or.inr ⟨step6c t, rfl, compact_step6c hcompt⟩
        | none =>
          rw [step6c_cons_none hm, goodOf_cons]
          refine ⟨?_, ih rest (by omega)⟩
          exact Or.inl (try6c_none_of_fns_sns hm
            (fns_cons_congr (fns_step6c rest)))
  exact H x.length x (le_refl _)

theorem good6c_fix {y : List Char} (h : GoodOf HC6c y) : step6c y = y := by
  have H : ∀ n y, y.length ≤ n → GoodOf HC6c y → step6c y = y := by
    intro n
    induction n with
    | zero =>
      intro y hl _
      have : y = [] := List.eq_nil_of_length_eq_zero (Nat.le_zero.mp hl)
      subst this
      rfl
    | succ n ih =>
      intro y hl hg
      cases y with
      | nil => rfl
      | cons c rest =>
        rw [List.length_cons] at hl
        obtain ⟨hhc, hgrest⟩ := goodOf_cons.mp hg
        rcases hhc with hnone | ⟨t, heq, hcompt⟩
        · rw [step6c_cons_none hnone, ih rest (by omega) hgrest]
        · obtain ⟨hc, hrest⟩ : c = '/' ∧ rest = t := by
            rw [List.cons.injEq] at heq
            exact heq
          subst hc
          subst hrest
          have hm : try6c ('/' :: rest) = some rest := by
            have h2 := @try6c_general [] rest (by simp)
            rw [List.nil_append, hcompt] at h2
            exact h2
          rw [step6c_cons_some hm, ih rest (by omega) hgrest]
  exact H y.length y (le_refl _) h

theorem good6c_collapse {y : List Char} (h : GoodOf HC6c y) :
    GoodOf HC6c (collapseSpaces y) := by
  have H : ∀ n y, y.length ≤ n → GoodOf HC6c y →
      GoodOf HC6c (collapseSpaces y) := by
    intro n
    induction n with
    | zero =>
      intro y hl _
      have : y = [] := List.eq_nil_of_length_eq_zero (Nat.le_zero.mp hl)
      subst this
      exact goodOf_nil (Or.inl rfl)
    | succ n ih =>
      intro y hl hg
      cases y with
      | nil => exact goodOf_nil (Or.inl rfl)
      | cons c rest =>
        rw [List.length_cons] at hl
        by_cases hcc : (c == ' ' && rest.head? == some ' ') = true
        · rw [collapse_cons_pos hcc]
          rw [Bool.and_eq_true] at hcc
          obtain ⟨hc1, hc2⟩ := hcc
          have hc : c = ' ' := by simpa using hc1
          subst hc
          cases rest with
          | nil => simp at hc2
          | cons d rest2 =>
            have hd : d = ' ' := by simpa using hc2
            subst hd
            obtain ⟨run, hrun, hdrop⟩ :=
              dropWhile_decomp_run (rfl :
                rest2.dropWhile (· == ' ') = rest2.dropWhile (· == ' '))
            have hrun' : ∀ e ∈ run, isJsSpace e = true := by
              intro e he
              have h2 : e = ' ' := by simpa using hrun e he
              rw [h2]
              exact isJsSpace_blank
            have hlen2 : ((rest2.dropWhile (· == ' '))).length ≤ rest2.length :=
              (List.dropWhile_sublist _).length_le
            rw [List.length_cons] at hl
            have hX : ((' ' :: rest2).drop 1).dropWhile (· == ' ') =
                rest2.dropWhile (· == ' ') := by simp
            rw [hX]
            have hsufX : List.IsSuffix (rest2.dropWhile (· == ' '))
                (' ' :: ' ' :: rest2) := by
              refine ⟨' ' :: ' ' :: run, ?_⟩
              simp only [List.cons_append]
              rw [← hdrop]
            have hgX : GoodOf HC6c (rest2.dropWhile (· == ' ')) :=
              goodOf_suffix hg hsufX
            rw [goodOf_cons]
            refine ⟨?_, ih _ (by omega) hgX⟩
            rcases hg _ (List.suffix_refl _) with hnone | ⟨u, hequ, -⟩
            · left
              refine try6c_none_of_fns_sns hnone ?_
              rw [fns_cons_space isJsSpace_blank, fns_cons_space isJsSpace_blank,
                fns_cons_space isJsSpace_blank, fns_collapse]
              conv_rhs => rw [hdrop]
              rw [fns_append_spaces hrun']
            · exfalso
              have h3 : (' ' : Char) = '/' := by
                rw [List.cons.injEq] at hequ
                exact hequ.1
              exact absurd h3 (by decide)
        · have hcc' : (c == ' ' && rest.head? == some ' ') = false := by
            simpa using hcc
          rw [collapse_cons_neg hcc', goodOf_cons]
          have hgrest : GoodOf HC6c rest :=
            goodOf_suffix hg (List.suffix_cons c rest)
          refine ⟨?_, ih rest (by omega) hgrest⟩
          rcases (goodOf_cons.mp hg).1 with hnone | ⟨u, hequ, hcompu⟩
          · exact Or.inl (try6c_none_of_fns_sns hnone
              (fns_cons_congr (fns_collapse rest)))
          · obtain ⟨hc, hrest⟩ : c = '/' ∧ rest = u := by
              rw [List.cons.injEq] at hequ
              exact hequ
            subst hc
            rw [hrest]
            exact Or.inr ⟨collapseSpaces u, rfl, compact_collapse hcompu⟩
  exact H y.length y (le_refl _) h

theorem hc6c_unappend_ws {ws s : List Char}
    (hws : ∀ c ∈ ws, isJsSpace c = true) (h : HC6c (s ++ ws)) : HC6c s := by
  rcases h with hnone | ⟨u, hequ, hcompu⟩
  · exact Or.inl (try6c_none_of_fns_sns hnone (fns_append_ws hws s).symm)
  · cases s with
    | nil =>
      exfalso
      rw [List.nil_append] at hequ
      have h2 := hws '/' (by rw [hequ]; exact List.mem_cons_self _ _)
      rw [isJsSpace_slash] at h2
      exact Bool.false_ne_true h2
    | cons c1 s1 =>
      rw [List.cons_append, List.cons.injEq] at hequ
      have hc1 := hequ.1
      have hu := hequ.2
      right
      refine ⟨s1, by rw [hc1], ?_⟩
      rw [← hu] at hcompu
      rw [compact_iff_head] at hcompu ⊢
      intro d hd
      apply hcompu d
      cases s1 with
      | nil => simp at hd
      | cons e s3 =>
        rw [List.cons_append]
        simpa using hd

theorem good6c_trim {y : List Char} (h : GoodOf HC6c y) :
    GoodOf HC6c (trimChars y) := by
  obtain ⟨ws1, ws2, hws1, hws2, hdec⟩ := trim_decomp y
  intro s hs
  have hs2 : List.IsSuffix (s ++ ws2) y := by
    obtain ⟨p, hp⟩ := hs
    refine ⟨ws1 ++ p, ?_⟩
    rw [hdec, ← hp]
    simp
  exact hc6c_unappend_ws hws2 (h _ hs2)

/-! ### Fixed points of the space-collapsing scanner -/

/-- Head condition characterizing fixed points of `collapseSpaces`: no suffix
begins with two ASCII spaces. -/
def HCcol (s : List Char) : Prop := ∀ r, s ≠ ' ' :: ' ' :: r

theorem hccol_nil : HCcol [] := by
  intro r h
  exact List.noConfusion h

theorem goodcol_collapse (x : List Char) : GoodOf HCcol (collapseSpaces x) := by
  have H : ∀ n x, x.length ≤ n → GoodOf HCcol (collapseSpaces x) := by
    intro n
    induction n with
    | zero =>
      intro x hl
      have : x = [] := List.eq_nil_of_length_eq_zero (Nat.le_zero.mp hl)
      subst this
      exact goodOf_nil hccol_nil
    | succ n ih =>
      intro x hl
      cases x with
      | nil => exact goodOf_nil hccol_nil
      | cons c rest =>
        rw [List.length_cons] at hl
        by_cases hcc : (c == ' ' && rest.head? == some ' ') = true
        · rw [collapse_cons_pos hcc]
          rw [goodOf_cons]
          have hlen2 : (((rest.drop 1).dropWhile (· == ' '))).length ≤
              (rest.drop 1).length :=
            (List.dropWhile_sublist _).length_le
          have hlen3 : (rest.drop 1).length = rest.length - 1 := by
            rw [List.length_drop]
          refine ⟨?_, ih _ (by omega)⟩
          intro r hcon
          rw [List.cons.injEq] at hcon
          have hhead : (collapseSpaces ((rest.drop 1).dropWhile (· == ' '))).head? =
              some ' ' := by
            rw [hcon.2]
            rfl
          rw [head?_collapse] at hhead
          have h5 := List.head?_dropWhile_not (· == ' ') (rest.drop 1)
          rw [hhead] at h5
          simp at h5
        · have hcc' : (c == ' ' && rest.head? == some ' ') = false := by
            simpa using hcc
          rw [collapse_cons_neg hcc', goodOf_cons]
          refine ⟨?_, ih rest (by omega)⟩
          intro r hcon
          rw [List.cons.injEq] at hcon
          have hc : c = ' ' := hcon.1
          have hhead : (collapseSpaces rest).head? = some ' ' := by
            rw [hcon.2]
            rfl
          rw [head?_collapse] at hhead
          rw [hc, hhead] at hcc'
          simp at hcc'
  exact H x.length x (le_refl _)

theorem goodcol_fix {y : List Char} (h : GoodOf HCcol y) :
    collapseSpaces y = y := by
  have H : ∀ n y, y.length ≤ n → GoodOf HCcol y → collapseSpaces y = y := by
    intro n
    induction n with
    | zero =>
      intro y hl _
      have : y = [] := List.eq_nil_of_length_eq_zero (Nat.le_zero.mp hl)
      subst this
      rfl
    | succ n ih =>
      intro y hl hg
      cases y with
      | nil => rfl
      | cons c rest =>
        rw [List.length_cons] at hl
        obtain ⟨hhc, hgrest⟩ := goodOf_cons.mp hg
        have hcc : (c == ' ' && rest.head? == some ' ') = false := by
          by_contra hcon
          have hcc2 : (c == ' ' && rest.head? == some ' ') = true := by
            cases hv : (c == ' ' && rest.head? == some ' ')
            · exact absurd hv hcon
            · rfl
          rw [Bool.and_eq_true] at hcc2
          have hc : c = ' ' := by simpa using hcc2.1
          cases rest with
          | nil => simp at hcc2
          | cons d rest2 =>
            have hd : d = ' ' := by simpa using hcc2.2
            exact hhc rest2 (by rw [hc, hd])
        rw [collapse_cons_neg hcc, ih rest (by omega) hgrest]
  exact H y.length y (le_refl _) h

theorem hccol_unappend_ws {ws s : List Char} (h : HCcol (s ++ ws)) : HCcol s := by
  intro r hcon
  subst hcon
  exact h (r ++ ws) (by rw [List.cons_append, List.cons_append])

theorem goodcol_trim {y : List Char} (h : GoodOf HCcol y) :
    GoodOf HCcol (trimChars y) := by
  obtain ⟨ws1, ws2, hws1, hws2, hdec⟩ := trim_decomp y
  intro s hs
  have hs2 : List.IsSuffix (s ++ ws2) y := by
    obtain ⟨p, hp⟩ := hs
    refine ⟨ws1 ++ p, ?_⟩
    rw [hdec, ← hp]
    simp
  exact hccol_unappend_ws (h _ hs2)

/-! ### trim is idempotent -/

theorem trim_compact_front (l : List Char) :
    (trimChars l).dropWhile isJsSpace = trimChars l := by
  rw [compact_iff_head]
  intro d hd
  obtain ⟨ws, hws, ha⟩ :=
    dropWhile_decomp (rfl : (l.dropWhile isJsSpace).reverse.dropWhile isJsSpace =
      (l.dropWhile isJsSpace).reverse.dropWhile isJsSpace)
  have ha2 : l.dropWhile isJsSpace =
      ((l.dropWhile isJsSpace).reverse.dropWhile isJsSpace).reverse ++
        ws.reverse := by
    have h2 := congrArg List.reverse ha
    rw [List.reverse_reverse, List.reverse_append] at h2
    exact h2
  have hcomp := compact_dropWhile l
  rw [compact_iff_head] at hcomp
  apply hcomp
  rw [ha2]
  unfold trimChars at hd
  cases hcase : ((l.dropWhile isJsSpace).reverse.dropWhile isJsSpace).reverse with
  | nil =>
    rw [hcase] at hd
    simp at hd
  | cons e r =>
    rw [hcase] at hd
    rw [List.cons_append]
    simpa using hd

theorem trim_compact_back (l : List Char) :
    ((trimChars l).reverse).dropWhile isJsSpace = (trimChars l).reverse := by
  unfold trimChars
  rw [List.reverse_reverse]
  exact compact_dropWhile _

theorem trim_idem (l : List Char) : trimChars (trimChars l) = trimChars l := by
  show (((trimChars l).dropWhile isJsSpace).reverse.dropWhile
    isJsSpace).reverse = trimChars l
  rw [trim_compact_front, trim_compact_back, List.reverse_reverse]

/-! ### Characters occurring in scanner outputs -/

theorem mem_step5 {c : Char} :
    ∀ {l : List Char}, c ∈ step5 l → c ∈ l ∨ c = '-' ∨ c = '/' ∨ c = ' ' := by
  have H : ∀ n l, l.length ≤ n → c ∈ step5 l →
      c ∈ l ∨ c = '-' ∨ c = '/' ∨ c = ' ' := by
    intro n
    induction n with
    | zero =>
      intro l hl hc
      have : l = [] := List.eq_nil_of_length_eq_zero (Nat.le_zero.mp hl)
      subst this
      rw [step5_nil] at hc
      simp at hc
    | succ n ih =>
      intro l hl hc
      cases l with
      | nil =>
        rw [step5_nil] at hc
        simp at hc
      | cons d rest =>
        rw [List.length_cons] at hl
        by_cases hw : isWordChar d = true
        · cases hm : tryHyphen rest with
          | some wt =>
            obtain ⟨w, t⟩ := wt
            have hlen := tryHyphen_length hm
            obtain ⟨hww, ws1, ws2, hws1, hws2, hrest⟩ := tryHyphen_decomp hm
            rw [step5_cons_word_some hw hm] at hc
            rcases List.mem_cons.mp hc with rfl | hc2
            · exact Or.inl (List.mem_cons_self _ _)
            rcases List.mem_cons.mp hc2 with rfl | hc3
            · exact Or.inr (Or.inl rfl)
            rcases List.mem_cons.mp hc3 with rfl | hc4
            · refine Or.inl (List.mem_cons_of_mem d ?_)
              rw [hrest]
              exact List.mem_append_right _ (List.mem_cons_of_mem _
                (List.mem_append_right _ (List.mem_cons_self _ _)))
            · rcases ih t (by omega) hc4 with h5 | h5
              · refine Or.inl (List.mem_cons_of_mem d ?_)
                rw [hrest]
                refine List.mem_append_right _ (List.mem_cons_of_mem _ ?_)
                exact List.mem_append_right _ (List.mem_cons_of_mem _ h5)
              · exact Or.inr h5
          | none =>
            rw [step5_cons_word_none hw hm] at hc
            rcases List.mem_cons.mp hc with rfl | hc2
            · exact Or.inl (List.mem_cons_self _ _)
            · rcases ih rest (by omega) hc2 with h5 | h5
              · exact Or.inl (List.mem_cons_of_mem d h5)
              · exact Or.inr h5
        · have hw' : isWordChar d = false := by simpa using hw
          rw [step5_cons_nonword hw'] at hc
          rcases List.mem_cons.mp hc with rfl | hc2
          · exact Or.inl (List.mem_cons_self _ _)
          · rcases ih rest (by omega) hc2 with h5 | h5
            · exact Or.inl (List.mem_cons_of_mem d h5)
            · exact Or.inr h5
  intro l
  exact H l.length l (le_refl _)

theorem mem_step6a {c : Char} :
    ∀ {l : List Char}, c ∈ step6a l → c ∈ l ∨ c = '-' ∨ c = '/' ∨ c = ' ' := by
  have H : ∀ n l, l.length ≤ n → c ∈ step6a l →
      c ∈ l ∨ c = '-' ∨ c = '/' ∨ c = ' ' := by
    intro n
    induction n with
    | zero =>
      intro l hl hc
      have : l = [] := List.eq_nil_of_length_eq_zero (Nat.le_zero.mp hl)
      subst this
      simp [step6a_nil] at hc
    | succ n ih =>
      intro l hl hc
      cases l with
      | nil => simp [step6a_nil] at hc
      | cons d rest =>
        rw [List.length_cons] at hl
        cases hm : try6a (d :: rest) with
        | some t =>
          have hlen := try6a_length hm
          rw [List.length_cons] at hlen
          obtain ⟨ws1, ws2, l3, hws1, hws2, heq, ht⟩ := try6a_decomp hm
          rw [step6a_cons_some hm] at hc
          rcases List.mem_cons.mp hc with rfl | hc2
          · exact Or.inr (Or.inl rfl)
          rcases List.mem_cons.mp hc2 with rfl | hc3
          · exact Or.inr (Or.inr (Or.inl rfl))
          · rcases ih t (by omega) hc3 with h5 | h5
            · left
              rw [heq]
              have h6 : c ∈ l3 := (ht ▸ (List.dropWhile_sublist _).subset) h5
              refine List.mem_append_right _ (List.mem_cons_of_mem _ ?_)
              exact List.mem_append_right _ (List.mem_cons_of_mem _ h6)
            · exact Or.inr h5
        | none =>
          rw [step6a_cons_none hm] at hc
          rcases List.mem_cons.mp hc with rfl | hc2
          · exact Or.inl (List.mem_cons_self _ _)
          · rcases ih rest (by omega) hc2 with h5 | h5
            · exact Or.inl (List.mem_cons_of_mem d h5)
            · exact Or.inr h5
  intro l
  exact H l.length l (le_refl _)

theorem mem_step6b {c : Char} :
    ∀ {l : List Char}, c ∈ step6b l → c ∈ l ∨ c = '-' ∨ c = '/' ∨ c = ' ' := by
  have H : ∀ n l, l.length ≤ n → c ∈ step6b l →
      c ∈ l ∨ c = '-' ∨ c = '/' ∨ c = ' ' := by
    intro n
    induction n with
    | zero =>
      intro l hl hc
      have : l = [] := List.eq_nil_of_length_eq_zero (Nat.le_zero.mp hl)
      subst this
      simp [step6b_nil] at hc
    | succ n ih =>
      intro l hl hc
      cases l with
      | nil => simp [step6b_nil] at hc
      | cons d rest =>
        rw [List.length_cons] at hl
        cases hm : try6b (d :: rest) with
        | some t =>
          have hlen := try6b_length hm
          rw [List.length_cons] at hlen
          obtain ⟨ws1, ws2, l3, hws1, hws2, heq, ht⟩ := try6b_decomp hm
          rw [step6b_cons_some hm] at hc
          rcases List.mem_cons.mp hc with rfl | hc2
          · exact Or.inr (Or.inr (Or.inl rfl))
          rcases List.mem_cons.mp hc2 with rfl | hc3
          · exact Or.inr (Or.inl rfl)
          · rcases ih t (by omega) hc3 with h5 | h5
            · left
              rw [heq]
              have h6 : c ∈ l3 := (ht ▸ (List.dropWhile_sublist _).subset) h5
              refine List.mem_append_right _ (List.mem_cons_of_mem _ ?_)
              exact List.mem_append_right _ (List.mem_cons_of_mem _ h6)
            · exact Or.inr h5
        | none =>
          rw [step6b_cons_none hm] at hc
          rcases List.mem_cons.mp hc with rfl | hc2
          · exact Or.inl (List.mem_cons_self _ _)
          · rcases ih rest (by omega) hc2 with h5 | h5
            · exact Or.inl (List.mem_cons_of_mem d h5)
            · exact Or.inr h5
  intro l
  exact H l.length l (le_refl _)

theorem mem_step6c {c : Char} :
    ∀ {l : List Char}, c ∈ step6c l → c ∈ l ∨ c = '-' ∨ c = '/' ∨ c = ' ' := by
  have H : ∀ n l, l.length ≤ n → c ∈ step6c l →
      c ∈ l ∨ c = '-' ∨ c = '/' ∨ c = ' ' := by
    intro n
    induction n with
    | zero =>
      intro l hl hc
      have : l = [] := List.eq_nil_of_length_eq_zero (Nat.le_zero.mp hl)
      subst this
      simp [step6c_nil] at hc
    | succ n ih =>
      intro l hl hc
      cases l with
      | nil => simp [step6c_nil] at hc
      | cons d rest =>
        rw [List.length_cons] at hl
        cases hm : try6c (d :: rest) with
        | some t =>
          have hlen := try6c_length hm
          rw [List.length_cons] at hlen
          obtain ⟨ws1, l2, hws1, heq, ht⟩ := try6c_decomp hm
          rw [step6c_cons_some hm] at hc
          rcases List.mem_cons.mp hc with rfl | hc2
          · exact Or.inr (Or.inr (Or.inl rfl))
          · rcases ih t (by omega) hc2 with h5 | h5
            · left
              rw [heq]
              have h6 : c ∈ l2 := (ht ▸ (List.dropWhile_sublist _).subset) h5
              exact List.mem_append_right _ (List.mem_cons_of_mem _ h6)
            · exact Or.inr h5
        | none =>
          rw [step6c_cons_none hm] at hc
          rcases List.mem_cons.mp hc with rfl | hc2
          · exact Or.inl (List.mem_cons_self _ _)
          · rcases ih rest (by omega) hc2 with h5 | h5
            · exact Or.inl (List.mem_cons_of_mem d h5)
            · exact Or.inr h5
  intro l
  exact H l.length l (le_refl _)

theorem mem_collapse {c : Char} :
    ∀ {l : List Char}, c ∈ collapseSpaces l → c ∈ l ∨ c = ' ' := by
  have H : ∀ n l, l.length ≤ n → c ∈ collapseSpaces l → c ∈ l ∨ c = ' ' := by
    intro n
    induction n with
    | zero =>
      intro l hl hc
      have : l = [] := List.eq_nil_of_length_eq_zero (Nat.le_zero.mp hl)
      subst this
      simp [collapse_nil] at hc
    | succ n ih =>
      intro l hl hc
      cases l with
      | nil => simp [collapse_nil] at hc
      | cons d rest =>
        rw [List.length_cons] at hl
        by_cases hcc : (d == ' ' && rest.head? == some ' ') = true
        · rw [collapse_cons_pos hcc] at hc
          have hlen2 : (((rest.drop 1).dropWhile (· == ' '))).length ≤
              (rest.drop 1).length :=
            (List.dropWhile_sublist _).length_le
          have hlen3 : (rest.drop 1).length = rest.length - 1 := by
            rw [List.length_drop]
          rcases List.mem_cons.mp hc with rfl | hc2
          · exact Or.inr rfl
          · rcases ih _ (by omega) hc2 with h5 | h5
            · left
              refine List.mem_cons_of_mem d ?_
              have h6 : c ∈ rest.drop 1 :=
                (List.dropWhile_sublist _).subset h5
              exact (List.drop_sublist 1 rest).subset h6
            · exact Or.inr h5
        · have hcc' : (d == ' ' && rest.head? == some ' ') = false := by
            simpa using hcc
          rw [collapse_cons_neg hcc'] at hc
          rcases List.mem_cons.mp hc with rfl | hc2
          · exact Or.inl (List.mem_cons_self _ _)
          · rcases ih rest (by omega) hc2 with h5 | h5
            · exact Or.inl (List.mem_cons_of_mem d h5)
            · exact Or.inr h5
  intro l
  exact H l.length l (le_refl _)

theorem mem_trim {c : Char} {l : List Char} (hc : c ∈ trimChars l) : c ∈ l := by
  unfold trimChars at hc
  rw [List.mem_reverse] at hc
  have h2 : c ∈ (l.dropWhile isJsSpace).reverse :=
    (List.dropWhile_sublist _).subset hc
  rw [List.mem_reverse] at h2
  exact (List.dropWhile_sublist _).subset h2

/-! ### Clean characters: fixed by all four preprocessing stages -/

/-- A character untouched by the zero-width filter, the control filter and
both variant maps. -/
def cleanChar (c : Char) : Bool :=
  !isZeroWidthChar c && !isStrippedCtrl c &&
  (spaceVariantToSpace c == c) && (dashVariantToDash c == c)

theorem cleanChar_spec {c : Char} (h : cleanChar c = true) :
    isZeroWidthChar c = false ∧ isStrippedCtrl c = false ∧
    spaceVariantToSpace c = c ∧ dashVariantToDash c = c := by
  unfold cleanChar at h
  simp only [Bool.and_eq_true, Bool.not_eq_true', beq_iff_eq] at h
  exact ⟨h.1.1.1, h.1.1.2, h.1.2, h.2⟩

theorem cleanChar_maps {c : Char} (h1 : isZeroWidthChar c = false)
    (h2 : isStrippedCtrl c = false) :
    cleanChar (dashVariantToDash (spaceVariantToSpace c)) = true := by
  by_cases hsv : isSpaceVariant c = true
  · rw [show spaceVariantToSpace c = ' ' from by
      unfold spaceVariantToSpace
      rw [if_pos hsv]]
    decide
  · have hsv' : isSpaceVariant c = false := by simpa using hsv
    rw [show spaceVariantToSpace c = c from by
      unfold spaceVariantToSpace
      rw [if_neg (by rw [hsv']; exact Bool.false_ne_true)]]
    by_cases hdv : isDashVariant c = true
    · rw [show dashVariantToDash c = '-' from by
        unfold dashVariantToDash
        rw [if_pos hdv]]
      decide
    · have hdv' : isDashVariant c = false := by simpa using hdv
      rw [show dashVariantToDash c = c from by
        unfold dashVariantToDash
        rw [if_neg (by rw [hdv']; exact Bool.false_ne_true)]]
      simp [cleanChar, spaceVariantToSpace, dashVariantToDash, hsv', hdv', h1, h2]

theorem cleanChar_normChars {l : List Char} {c : Char} (hc : c ∈ normChars l) :
    cleanChar c = true := by
  unfold normChars at hc
  have h1 := mem_trim hc
  rcases mem_collapse h1 with h2 | rfl
  swap
  · decide
  rcases mem_step6c h2 with h3 | rfl | rfl | rfl
  rotate_left
  · decide
  · decide
  · decide
  rcases mem_step6b h3 with h4 | rfl | rfl | rfl
  rotate_left
  · decide
  · decide
  · decide
  rcases mem_step6a h4 with h5 | rfl | rfl | rfl
  rotate_left
  · decide
  · decide
  · decide
  rcases mem_step5 h5 with h6 | rfl | rfl | rfl
  rotate_left
  · decide
  · decide
  · decide
  rcases List.mem_map.mp h6 with ⟨d, hd, hcd⟩
  rcases List.mem_map.mp hd with ⟨e, he, hde⟩
  rcases List.mem_filter.mp he with ⟨he2, hctrl⟩
  rcases List.mem_filter.mp he2 with ⟨-, hzw⟩
  have hzw' : isZeroWidthChar e = false := by simpa using hzw
  have hctrl' : isStrippedCtrl e = false := by simpa using hctrl
  rw [← hcd, ← hde]
  exact cleanChar_maps hzw' hctrl'

theorem map_id_of_fixed {f : Char → Char} :
    ∀ {y : List Char}, (∀ c ∈ y, f c = c) → y.map f = y := by
  intro y
  induction y with
  | nil =>
    intro _
    rfl
  | cons c r ih =>
    intro h
    rw [List.map_cons, h c (List.mem_cons_self c r),
      ih fun d hd => h d (List.mem_cons_of_mem c hd)]

/-! ### Assembly: the full pipeline is idempotent -/

theorem normChars_of_fixed {y : List Char}
    (h1 : y.filter (fun c => !isZeroWidthChar c) = y)
    (h2 : y.filter (fun c => !isStrippedCtrl c) = y)
    (h3 : y.map spaceVariantToSpace = y)
    (h4 : y.map dashVariantToDash = y)
    (h5 : step5 y = y) (h6a : step6a y = y) (h6b : step6b y = y)
    (h6c : step6c y = y) (hcol : collapseSpaces y = y)
    (htr : trimChars y = y) : normChars y = y := by
  unfold normChars
  rw [h1, h2, h3, h4, h5, h6a, h6b, h6c, hcol, htr]

theorem normChars_idem (l : List Char) : normChars (normChars l) = normChars l := by
  have hclean : ∀ c ∈ normChars l, cleanChar c = true :=
    fun c hc => cleanChar_normChars hc
  have h5 : step5 (normChars l) = normChars l :=
    step5_fix_trim (step5_fix_collapse (step5_fix_step6c (step5_fix_step6b
      (step5_fix_step6a (step5_idem _)))))
  have h6a : step6a (normChars l) = normChars l :=
    good6a_fix (good6a_trim (good6a_collapse (good6a_step6c (good6a_step6b
      (good6a_step6a _)))))
  have h6b : step6b (normChars l) = normChars l :=
    good6b_fix (good6b_trim (good6b_collapse (good6b_step6c (good6b_step6b _))))
  have h6c : step6c (normChars l) = normChars l :=
    good6c_fix (good6c_trim (good6c_collapse (good6c_step6c _)))
  have hcol : collapseSpaces (normChars l) = normChars l :=
    goodcol_fix (goodcol_trim (goodcol_collapse _))
  have htr : trimChars (normChars l) = normChars l := trim_idem _
  refine normChars_of_fixed ?_ ?_ ?_ ?_ h5 h6a h6b h6c hcol htr
  · exact List.filter_eq_self.mpr fun c hc => by
      simp [(cleanChar_spec (hclean c hc)).1]
  · exact List.filter_eq_self.mpr fun c hc => by
      simp [(cleanChar_spec (hclean c hc)).2.1]
  · exact map_id_of_fixed fun c hc => (cleanChar_spec (hclean c hc)).2.2.1
  · exact map_id_of_fixed fun c hc => (cleanChar_spec (hclean c hc)).2.2.2

/-- C4: text normalization is idempotent — for every string `s`,
`normalizeForComparison (normalizeForComparison s) = normalizeForComparison s`,
where `normalizeForComparison` is the normalization applied before every
equality test and before key construction. -/
theorem normalizeForComparison_idem (s : String) :
    normalizeForComparison (normalizeForComparison s) =
      normalizeForComparison s := by
  unfold normalizeForComparison
  exact congrArg String.mk (normChars_idem s.data)

end PdfCompare
